import Mathlib

/-! Boot-time memory set-up of the RISC-V port: `setup_vm`, `setup_initrd`, `setup_bootmem`.

Shallow embedding of `arch/riscv/kernel/setup.c`.

* Machine words (`unsigned long`, `uintptr_t`, `phys_addr_t`) are natural numbers reduced
  modulo `2 ^ XLEN` wherever the C arithmetic can wrap.
* The constants that `setup.c` takes from `asm/pgtable.h` and `asm/page.h` are the fields of
  `Config`; `sv39` is the 64-bit three-level instance the comments of `setup.c` refer to,
  `sv32` the 32-bit instance with the PMD level folded.
* `BUG_ON` is a fatal halt: a function that can reach it returns an `Outcome`.
* Calls into `mm/memblock.c` and `drivers/of/fdt.c` are recorded in a call log.
-/

namespace Riscv

/-! ## Configuration constants -/

/-- Compile-time constants used by `setup.c`. -/
structure Config where
  /-- width in bits of `unsigned long` / `uintptr_t` / `phys_addr_t` -/
  XLEN : Nat
  PAGE_SHIFT : Nat
  PMD_SHIFT : Nat
  PGDIR_SHIFT : Nat
  PTRS_PER_PGD : Nat
  PTRS_PER_PMD : Nat
  PTRS_PER_PTE : Nat
  PAGE_OFFSET : Nat
  /-- the value `pgprot_val(PAGE_KERNEL)` -/
  PAGE_KERNEL : Nat
  _PAGE_PRESENT : Nat
  _PAGE_READ : Nat
  _PAGE_WRITE : Nat
  _PAGE_EXEC : Nat
  _PAGE_TABLE : Nat
  /-- whether `__PAGETABLE_PMD_FOLDED` is defined -/
  PMD_FOLDED : Bool
  /-- whether `CONFIG_BLK_DEV_INITRD` is set -/
  BLK_DEV_INITRD : Bool
  /-- the value `(uintptr_t)swapper_pmd`: the address of the array when `setup_vm` runs -/
  swapper_pmd_addr : Nat
  /-- the value `(uintptr_t)trampoline_pmd` -/
  trampoline_pmd_addr : Nat

namespace Config

/-- Reduction of a value to an `unsigned long`. -/
def wrap (c : Config) (x : Nat) : Nat := x % 2 ^ c.XLEN

/-- The constant `PAGE_SIZE`, `1UL << PAGE_SHIFT`. -/
def PAGE_SIZE (c : Config) : Nat := 1 <<< c.PAGE_SHIFT

/-- The constant `PMD_SIZE`, `1UL << PMD_SHIFT`. -/
def PMD_SIZE (c : Config) : Nat := 1 <<< c.PMD_SHIFT

/-- The constant `PGDIR_SIZE`, `1UL << PGDIR_SHIFT`. -/
def PGDIR_SIZE (c : Config) : Nat := 1 <<< c.PGDIR_SHIFT

/-- The macro `PFN_DOWN(x)`: `x >> PAGE_SHIFT`. -/
def PFN_DOWN (c : Config) (x : Nat) : Nat := x >>> c.PAGE_SHIFT

/-- The macro `PFN_UP(x)`: `(x + PAGE_SIZE - 1) >> PAGE_SHIFT`. -/
def PFN_UP (c : Config) (x : Nat) : Nat := c.wrap (x + c.PAGE_SIZE - 1) >>> c.PAGE_SHIFT

/-- The macro `PFN_PHYS(x)`: `(phys_addr_t)x << PAGE_SHIFT`. -/
def PFN_PHYS (c : Config) (x : Nat) : Nat := c.wrap (x <<< c.PAGE_SHIFT)

/-- The unsigned subtraction `a - b` of two machine words. -/
def usub (c : Config) (a b : Nat) : Nat := c.wrap (a + (2 ^ c.XLEN - c.wrap b))

/-- The unsigned negation `-PAGE_OFFSET`: the size of the linear-map window. -/
def neg_PAGE_OFFSET (c : Config) : Nat := c.usub 0 c.PAGE_OFFSET

/-- The attribute bits `pgprot_val(PAGE_KERNEL) | _PAGE_EXEC` of `setup_vm`. -/
def prot (c : Config) : Nat := c.PAGE_KERNEL ||| c._PAGE_EXEC

/-- The bound `(-PAGE_OFFSET)/PGDIR_SIZE` of the top-level loop of `setup_vm`. -/
def NUM_PGD_ENTRIES (c : Config) : Nat := c.neg_PAGE_OFFSET / c.PGDIR_SIZE

/-- The value of `ARRAY_SIZE(swapper_pmd)`, from the declaration
`pmd_t swapper_pmd[PTRS_PER_PMD*((-PAGE_OFFSET)/PGDIR_SIZE)]`. -/
def ARRAY_SIZE_swapper_pmd (c : Config) : Nat := c.wrap (c.PTRS_PER_PMD * c.NUM_PGD_ENTRIES)

/-- The top-level index of `PAGE_OFFSET`, `(PAGE_OFFSET >> PGDIR_SHIFT) % PTRS_PER_PGD`. -/
def pgd_index_PAGE_OFFSET (c : Config) : Nat := (c.PAGE_OFFSET >>> c.PGDIR_SHIFT) % c.PTRS_PER_PGD

end Config

/-- The 64-bit configuration (three-level Sv39 tables, 4 KiB pages, 2 MiB PMD leaves, 1 GiB
top-level entries), with the attribute bits of the RISC-V page-table entry format. -/
def sv39 (PAGE_OFFSET swapper_pmd_addr trampoline_pmd_addr : Nat) : Config where
  XLEN := 64
  PAGE_SHIFT := 12
  PMD_SHIFT := 21
  PGDIR_SHIFT := 30
  PTRS_PER_PGD := 512
  PTRS_PER_PMD := 512
  PTRS_PER_PTE := 512
  PAGE_OFFSET := PAGE_OFFSET
  PAGE_KERNEL := 0xC7
  _PAGE_PRESENT := 0x1
  _PAGE_READ := 0x2
  _PAGE_WRITE := 0x4
  _PAGE_EXEC := 0x8
  _PAGE_TABLE := 0x1
  PMD_FOLDED := false
  BLK_DEV_INITRD := true
  swapper_pmd_addr := swapper_pmd_addr
  trampoline_pmd_addr := trampoline_pmd_addr

/-- The 32-bit configuration (two-level Sv32 tables, PMD folded into the top level, 4 MiB
top-level entries). -/
def sv32 (PAGE_OFFSET : Nat) : Config where
  XLEN := 32
  PAGE_SHIFT := 12
  PMD_SHIFT := 22
  PGDIR_SHIFT := 22
  PTRS_PER_PGD := 1024
  PTRS_PER_PMD := 1
  PTRS_PER_PTE := 1024
  PAGE_OFFSET := PAGE_OFFSET
  PAGE_KERNEL := 0xC7
  _PAGE_PRESENT := 0x1
  _PAGE_READ := 0x2
  _PAGE_WRITE := 0x4
  _PAGE_EXEC := 0x8
  _PAGE_TABLE := 0x1
  PMD_FOLDED := true
  BLK_DEV_INITRD := true
  swapper_pmd_addr := 0
  trampoline_pmd_addr := 0

/-- Result of a function that may reach `BUG_ON`: either the fatal halt, with the state at the
halt, or a normal return. -/
inductive Outcome (σ : Type) where
  | bug (s : σ) : Outcome σ
  | done (s : σ) : Outcome σ
deriving DecidableEq, Repr

namespace Outcome

/-- The state at the halt or at the return. -/
def state {σ : Type} : Outcome σ → σ
  | bug s => s
  | done s => s

/-- The function returned normally. -/
def returns {σ : Type} : Outcome σ → Bool
  | bug _ => false
  | done _ => true

end Outcome

/-- The iterations `body i`, `body (i+1)`, ... of a counting loop, `k` of them. -/
def for_loop_from {σ : Type} (body : Nat → σ → σ) (i : Nat) : Nat → σ → σ
  | 0, s => s
  | k + 1, s => for_loop_from body (i + 1) k (body i s)

/-- The C loop `for (i = 0; i < n; ++i) body(i)`: runs `body 0`, ..., `body (n-1)` in order. -/
def for_loop {σ : Type} (body : Nat → σ → σ) (n : Nat) (s : σ) : σ :=
  for_loop_from body 0 n s

/-! ## Page tables -/

/-- Modelled from the spec: a page-table entry (`pgd_t`, `pmd_t` of `asm/pgtable.h`) as built
by `pfn_pgd` / `pfn_pmd`: the target physical frame and the permission/attribute bits, the
present flag being one of the attribute bits. -/
structure Pte where
  pfn : Nat
  prot : Nat
deriving DecidableEq, Repr

/-- An entry of a zero-initialised table. -/
def Pte.zero : Pte := ⟨0, 0⟩

/-- Modelled from the spec: `pfn_pgd(pfn, prot)` of `asm/pgtable.h`. -/
def pfn_pgd (pfn prot : Nat) : Pte := ⟨pfn, prot⟩

/-- Modelled from the spec: `pfn_pmd(pfn, prot)` of `asm/pgtable-64.h`. -/
def pfn_pmd (pfn prot : Nat) : Pte := ⟨pfn, prot⟩

/-- The four page-table arrays of `setup.c`. -/
inductive Tbl where
  | swapper_pg_dir
  | trampoline_pg_dir
  | swapper_pmd
  | trampoline_pmd
deriving DecidableEq, Repr

/-- One store `tbl[idx] = val`. -/
structure Write where
  tbl : Tbl
  idx : Nat
  val : Pte
deriving DecidableEq, Repr

/-- The globals written by `setup_vm`. The four tables are kept as the list `writes` of the
stores made into them, the most recent first; they start zeroed. -/
structure VmState where
  va_pa_offset : Nat
  pfn_base : Nat
  writes : List Write
deriving DecidableEq, Repr

/-- The state before `setup_vm`: zeroed globals. -/
def VmState.init : VmState := ⟨0, 0, []⟩

/-- The array element `tbl[idx]`: the value of the most recent store to it, zero if none. -/
def VmState.read (s : VmState) (t : Tbl) (idx : Nat) : Pte :=
  match s.writes.find? (fun w => w.tbl = t ∧ w.idx = idx) with
  | some w => w.val
  | none => Pte.zero

/-- The assignment `tbl[idx] = val`. -/
def VmState.store (s : VmState) (t : Tbl) (idx : Nat) (val : Pte) : VmState :=
  ⟨s.va_pa_offset, s.pfn_base, ⟨t, idx, val⟩ :: s.writes⟩

/-- The table-filling part of `setup_vm` (after the two `BUG_ON` checks), in its two
variants: with a PMD level (`#ifndef __PAGETABLE_PMD_FOLDED`) and with the PMD folded. -/
def setup_vm_tables (c : Config) (pa : Nat) (s : VmState) : VmState :=
  if c.PMD_FOLDED then
    let s1 := s.store Tbl.trampoline_pg_dir c.pgd_index_PAGE_OFFSET
      (pfn_pgd (c.PFN_DOWN pa) c.prot)
    for_loop (fun i st =>
        let o := c.wrap (c.pgd_index_PAGE_OFFSET + i)
        st.store Tbl.swapper_pg_dir o
          (pfn_pgd (c.PFN_DOWN (c.wrap (pa + i * c.PGDIR_SIZE))) c.prot))
      c.NUM_PGD_ENTRIES s1
  else
    let s1 := s.store Tbl.trampoline_pg_dir c.pgd_index_PAGE_OFFSET
      (pfn_pgd (c.PFN_DOWN c.trampoline_pmd_addr) c._PAGE_TABLE)
    let s2 := s1.store Tbl.trampoline_pmd 0 (pfn_pmd (c.PFN_DOWN pa) c.prot)
    let s3 := for_loop (fun i st =>
        let o := c.wrap (c.pgd_index_PAGE_OFFSET + i)
        st.store Tbl.swapper_pg_dir o
          (pfn_pgd (c.wrap (c.PFN_DOWN c.swapper_pmd_addr + i)) c._PAGE_TABLE))
      c.NUM_PGD_ENTRIES s2
    for_loop (fun i st =>
        st.store Tbl.swapper_pmd i
          (pfn_pmd (c.PFN_DOWN (c.wrap (pa + i * c.PMD_SIZE))) c.prot))
      c.ARRAY_SIZE_swapper_pmd s3

/-- The function `setup_vm`, with `pa = (uintptr_t) &_start` the physical load address. -/
def setup_vm (c : Config) (pa : Nat) : Outcome VmState :=
  let s0 : VmState := ⟨c.usub c.PAGE_OFFSET pa, c.PFN_DOWN pa, VmState.init.writes⟩
  if c.PAGE_OFFSET % c.PGDIR_SIZE ≠ 0 then Outcome.bug s0
  else if pa % c.wrap (c.PAGE_SIZE * c.PTRS_PER_PTE) ≠ 0 then Outcome.bug s0
  else Outcome.done (setup_vm_tables c pa s0)

/-! ## Hardware translation through the tables -/

/-- The entry is valid (`_PAGE_PRESENT`). -/
def Pte.present (c : Config) (e : Pte) : Bool := e.prot &&& c._PAGE_PRESENT != 0

/-- The entry is a leaf: one of the read, write, execute bits is set; otherwise it points to
the next-level table. -/
def Pte.leaf (c : Config) (e : Pte) : Bool :=
  e.prot &&& (c._PAGE_READ ||| c._PAGE_WRITE ||| c._PAGE_EXEC) != 0

/-- The PMD table stored in physical frame `pfn`, when that frame is a page of `swapper_pmd`
or the page of `trampoline_pmd`. A PMD table of `PTRS_PER_PMD` entries fills one page, so page
`k` of `swapper_pmd` holds the elements `k * PTRS_PER_PMD`, ..., `(k+1) * PTRS_PER_PMD - 1`. -/
def pmd_table_at (c : Config) (s : VmState) (pfn : Nat) : Option (Nat → Pte) :=
  if c.PFN_DOWN c.swapper_pmd_addr ≤ pfn ∧
      pfn < c.PFN_DOWN c.swapper_pmd_addr + c.NUM_PGD_ENTRIES then
    some (fun j =>
      s.read Tbl.swapper_pmd ((pfn - c.PFN_DOWN c.swapper_pmd_addr) * c.PTRS_PER_PMD + j))
  else if pfn = c.PFN_DOWN c.trampoline_pmd_addr then
    some (s.read Tbl.trampoline_pmd)
  else none

/-- Modelled from the spec: the translation of virtual address `va` by the table walk that
starts at the top-level table `root` ("each entry = target physical frame, permission bits,
present flag"; a leaf entry resolves directly to a physical frame). The walk is the one of the
RISC-V paging hardware: index the top level with `va >> PGDIR_SHIFT`; a leaf there maps a
`PGDIR_SIZE` chunk; otherwise follow the frame number to the PMD table, index it with
`va >> PMD_SHIFT`, and a leaf there maps a `PMD_SIZE` chunk. `none` is a fault: the entry is
absent, the frame of a leaf is not aligned to the chunk it maps, or the walk reaches a level
that `setup_vm` never builds. -/
def walk (c : Config) (s : VmState) (root : Tbl) (va : Nat) : Option Nat :=
  let e := s.read root ((va >>> c.PGDIR_SHIFT) % c.PTRS_PER_PGD)
  if !e.present c then none
  else if e.leaf c then
    if e.pfn * c.PAGE_SIZE % c.PGDIR_SIZE ≠ 0 then none
    else some (e.pfn * c.PAGE_SIZE + va % c.PGDIR_SIZE)
  else if c.PMD_FOLDED then none
  else
    match pmd_table_at c s e.pfn with
    | none => none
    | some pmd =>
      let e2 := pmd ((va >>> c.PMD_SHIFT) % c.PTRS_PER_PMD)
      if !e2.present c then none
      else if e2.leaf c then
        if e2.pfn * c.PAGE_SIZE % c.PMD_SIZE ≠ 0 then none
        else some (e2.pfn * c.PAGE_SIZE + va % c.PMD_SIZE)
      else none

/-! ## Boot memory discovery -/

/-- The `base` and `size` of a `struct memblock_region`. -/
structure Region where
  base : Nat
  size : Nat
deriving DecidableEq, Repr

/-- Calls that `setup_bootmem` and `setup_initrd` make into code outside `setup.c`. -/
inductive Call where
  | memblock_reserve (base size : Nat)
  | set_max_mapnr (limit : Nat)
  | early_init_fdt_reserve_self
  | early_init_fdt_scan_reserved_mem
  | memblock_allow_resize
  | memblock_dump_all
  | memblock_set_node (base size nid : Nat)
deriving DecidableEq, Repr

/-- The globals read and written by `setup_bootmem` and `setup_initrd`; `calls` lists the
external calls in program order. -/
structure BootState where
  initrd_start : Nat
  initrd_end : Nat
  initrd_below_start_ok : Nat
  max_low_pfn : Nat
  calls : List Call
deriving DecidableEq, Repr

/-- Modelled from the spec: `__pa(x)` of `asm/page.h`, the virtual address minus the scalar
physical-to-virtual offset `va_pa_offset`. -/
def __pa (c : Config) (va_pa_offset x : Nat) : Nat := c.usub x va_pa_offset

/-- Modelled from the spec: `memblock_end_of_DRAM()` of `mm/memblock.c`, the highest end
address across all installed spans. -/
def memblock_end_of_DRAM (c : Config) (memory : List Region) : Nat :=
  memory.foldl (fun m r => max m (c.wrap (r.base + r.size))) 0

/-- The function `setup_initrd`. -/
def setup_initrd (c : Config) (va_pa_offset : Nat) (s : BootState) : BootState :=
  let disable : BootState := ⟨0, 0, s.initrd_below_start_ok, s.max_low_pfn, s.calls⟩
  if s.initrd_start ≥ s.initrd_end then disable
  else if __pa c va_pa_offset s.initrd_end > c.PFN_PHYS s.max_low_pfn then disable
  else
    let size := c.usub s.initrd_end s.initrd_start
    ⟨s.initrd_start, s.initrd_end, 1, s.max_low_pfn,
      s.calls ++ [Call.memblock_reserve (__pa c va_pa_offset s.initrd_start) size]⟩

/-- Body of the first `for_each_memblock(memory, reg)` loop of `setup_bootmem`; the loop state
is `mem_size` and the call log. -/
def setup_bootmem_find (c : Config) (vmlinux_end : Nat) (acc : Nat × List Call) (reg : Region) :
    Nat × List Call :=
  let end_ := c.wrap (reg.base + reg.size)
  if reg.base ≤ vmlinux_end ∧ vmlinux_end ≤ end_ then
    (min reg.size c.neg_PAGE_OFFSET,
      acc.2 ++ [Call.memblock_reserve reg.base (c.usub vmlinux_end reg.base)])
  else acc

/-- Body of the second `for_each_memblock(memory, reg)` loop of `setup_bootmem`. -/
def setup_bootmem_node (c : Config) (calls : List Call) (reg : Region) : List Call :=
  let start_pfn := c.PFN_UP reg.base
  let end_pfn := c.PFN_DOWN (c.wrap (reg.base + reg.size))
  calls ++ [Call.memblock_set_node (c.PFN_PHYS start_pfn) (c.PFN_PHYS (c.usub end_pfn start_pfn)) 0]

/-- The function `setup_bootmem`. `memory` is the array `memblock.memory.regions`, `_end` the
(virtual) address of the end of the kernel image, `s` the globals at entry. -/
def setup_bootmem (c : Config) (va_pa_offset : Nat) (memory : List Region) (_end : Nat)
    (s : BootState) : Outcome BootState :=
  let found := memory.foldl (setup_bootmem_find c (__pa c va_pa_offset _end)) (0, s.calls)
  let mem_size := found.1
  let s1 : BootState :=
    ⟨s.initrd_start, s.initrd_end, s.initrd_below_start_ok, s.max_low_pfn, found.2⟩
  if mem_size = 0 then Outcome.bug s1
  else
    let s2 : BootState :=
      ⟨s1.initrd_start, s1.initrd_end, s1.initrd_below_start_ok, memblock_end_of_DRAM c memory,
        s1.calls ++ [Call.set_max_mapnr (c.PFN_DOWN mem_size)]⟩
    let s3 := if c.BLK_DEV_INITRD then setup_initrd c va_pa_offset s2 else s2
    let calls4 := s3.calls ++ [Call.early_init_fdt_reserve_self,
      Call.early_init_fdt_scan_reserved_mem, Call.memblock_allow_resize, Call.memblock_dump_all]
    Outcome.done
      ⟨s3.initrd_start, s3.initrd_end, s3.initrd_below_start_ok, s3.max_low_pfn,
        memory.foldl (setup_bootmem_node c) calls4⟩

/-! ## Vocabulary of the statements -/

namespace Config

/-- Relations between the constants of `asm/pgtable.h` that hold in every paging
configuration of the port: the sizes are nested powers of two inside the address space, a leaf
of the last level built by `setup_vm` spans `PAGE_SIZE * PTRS_PER_PTE` bytes, the `swapper_pmd`
array lies inside the address space, the kernel attribute bits make a present leaf and
`_PAGE_TABLE` a present pointer. -/
def WF (c : Config) : Prop :=
  c.PGDIR_SHIFT < c.XLEN ∧
  c.PAGE_OFFSET < 2 ^ c.XLEN ∧
  c.PTRS_PER_PGD * c.PGDIR_SIZE ≤ 2 ^ c.XLEN ∧
  (if c.PMD_FOLDED then c.PAGE_SIZE * c.PTRS_PER_PTE = c.PGDIR_SIZE
    else c.PAGE_SIZE * c.PTRS_PER_PTE = c.PMD_SIZE ∧ c.PTRS_PER_PMD * c.PMD_SIZE = c.PGDIR_SIZE) ∧
  c.swapper_pmd_addr + c.NUM_PGD_ENTRIES * c.PAGE_SIZE ≤ 2 ^ c.XLEN ∧
  (Pte.mk 0 c.prot).present c = true ∧ (Pte.mk 0 c.prot).leaf c = true ∧
  (Pte.mk 0 c._PAGE_TABLE).present c = true ∧ (Pte.mk 0 c._PAGE_TABLE).leaf c = false

instance (c : Config) : Decidable c.WF := by
  unfold WF; infer_instance

/-- The table holding the leaf entries of the permanent mapping. -/
def leaf_table (c : Config) : Tbl := if c.PMD_FOLDED then Tbl.swapper_pg_dir else Tbl.swapper_pmd

/-- The leaf granule: the bytes mapped by one leaf entry written by `setup_vm`. -/
def leaf_granule (c : Config) : Nat := if c.PMD_FOLDED then c.PGDIR_SIZE else c.PMD_SIZE

/-- The number of iterations of the loop that writes the leaves of the permanent mapping. -/
def leaf_count (c : Config) : Nat :=
  if c.PMD_FOLDED then c.NUM_PGD_ENTRIES else c.ARRAY_SIZE_swapper_pmd

/-- The index of the `k`-th leaf of the permanent mapping in `leaf_table`. -/
def leaf_index (c : Config) (k : Nat) : Nat :=
  if c.PMD_FOLDED then c.wrap (c.pgd_index_PAGE_OFFSET + k) else k

end Config

/-- The stores into the leaf table of the permanent mapping, in program order. -/
def permanent_leaf_writes (c : Config) (s : VmState) : List Write :=
  s.writes.reverse.filter (fun w => w.tbl = c.leaf_table)

/-- The arguments `(base, size)` of the `memblock_reserve` calls of a call log, in order. -/
def reserve_calls (calls : List Call) : List (Nat × Nat) :=
  calls.filterMap (fun x => match x with
    | Call.memblock_reserve b sz => some (b, sz)
    | _ => none)

/-- The entry stored at `swapper_pg_dir` by iteration `i` of the top-level loop. -/
def pgd_write (c : Config) (pa i : Nat) : Write :=
  if c.PMD_FOLDED then
    ⟨Tbl.swapper_pg_dir, c.wrap (c.pgd_index_PAGE_OFFSET + i),
      pfn_pgd (c.PFN_DOWN (c.wrap (pa + i * c.PGDIR_SIZE))) c.prot⟩
  else
    ⟨Tbl.swapper_pg_dir, c.wrap (c.pgd_index_PAGE_OFFSET + i),
      pfn_pgd (c.wrap (c.PFN_DOWN c.swapper_pmd_addr + i)) c._PAGE_TABLE⟩

/-- The entry stored at `swapper_pmd` by iteration `i` of the PMD loop. -/
def pmd_write (c : Config) (pa i : Nat) : Write :=
  ⟨Tbl.swapper_pmd, i, pfn_pmd (c.PFN_DOWN (c.wrap (pa + i * c.PMD_SIZE))) c.prot⟩

/-- The region test of the first loop of `setup_bootmem`. -/
def holds_image_end (c : Config) (vmlinux_end : Nat) (r : Region) : Bool :=
  decide (r.base ≤ vmlinux_end ∧ vmlinux_end ≤ c.wrap (r.base + r.size))

/-- The configuration of the comments of `setup.c`: Sv39 with
`PAGE_OFFSET = 0xffffffe000000000`. -/
def boot_cfg : Config := sv39 0xFFFFFFE000000000 0x80C00000 0x80B00000

/-- The value of `va_pa_offset` for `boot_cfg` and the load address `0x80200000`. -/
def boot_offset : Nat := 0xFFFFFFDF7FE00000

/-- The virtual address `_end` of an image that ends at physical `0x80D0C07C`. -/
def boot_end : Nat := 0xFFFFFFE000B0C07C

/-- The store into `trampoline_pg_dir`. -/
def trampoline_pgd_write (c : Config) (pa : Nat) : Write :=
  if c.PMD_FOLDED then
    ⟨Tbl.trampoline_pg_dir, c.pgd_index_PAGE_OFFSET, pfn_pgd (c.PFN_DOWN pa) c.prot⟩
  else
    ⟨Tbl.trampoline_pg_dir, c.pgd_index_PAGE_OFFSET,
      pfn_pgd (c.PFN_DOWN c.trampoline_pmd_addr) c._PAGE_TABLE⟩

/-- The store into `trampoline_pmd`. -/
def trampoline_pmd_write (c : Config) (pa : Nat) : Write :=
  ⟨Tbl.trampoline_pmd, 0, pfn_pmd (c.PFN_DOWN pa) c.prot⟩

/-- The Sv39 constants with `PAGE_OFFSET = 0xffffff0000000000`: an aligned virtual base whose
1 TiB linear-map window is wider than the 512 GiB a top-level table spans. -/
def wide_cfg : Config := sv39 0xFFFFFF0000000000 0x80C00000 0x80B00000

/-! ## Frame accessors of `memblock.h` -/

/-- The inline function `memblock_region_memory_base_pfn` of `memblock.h`. -/
def memblock_region_memory_base_pfn (c : Config) (reg : Region) : Nat := c.PFN_UP reg.base

/-- The inline function `memblock_region_memory_end_pfn` of `memblock.h`. -/
def memblock_region_memory_end_pfn (c : Config) (reg : Region) : Nat :=
  c.PFN_DOWN (c.wrap (reg.base + reg.size))

/-- The inline function `memblock_region_reserved_base_pfn` of `memblock.h`. -/
def memblock_region_reserved_base_pfn (c : Config) (reg : Region) : Nat := c.PFN_DOWN reg.base

/-- The inline function `memblock_region_reserved_end_pfn` of `memblock.h`. -/
def memblock_region_reserved_end_pfn (c : Config) (reg : Region) : Nat :=
  c.PFN_UP (c.wrap (reg.base + reg.size))

/-- The arguments `(base, size)` that the second loop of `setup_bootmem` passes to
`memblock_set_node` for the region `reg`. -/
def set_node_span (c : Config) (reg : Region) : Nat × Nat :=
  (c.PFN_PHYS (memblock_region_memory_base_pfn c reg),
    c.PFN_PHYS (c.usub (memblock_region_memory_end_pfn c reg)
      (memblock_region_memory_base_pfn c reg)))

/-- The stores into `swapper_pg_dir`, in program order. -/
def swapper_pg_dir_writes (s : VmState) : List Write :=
  s.writes.reverse.filter (fun w => w.tbl = Tbl.swapper_pg_dir)

/-- Constants of `linux/mmzone.h` and of the kernel configuration used by `zone_sizes_init`. -/
structure ZoneConfig where
  MAX_NR_ZONES : Nat
  ZONE_DMA32 : Nat
  ZONE_NORMAL : Nat
  /-- whether `CONFIG_ZONE_DMA32` is set -/
  ZONE_DMA32_enabled : Bool

/-- The zones of the 64-bit port: `ZONE_DMA32`, `ZONE_NORMAL`, `ZONE_MOVABLE`. -/
def rv64_zones : ZoneConfig := ⟨3, 0, 1, true⟩

/-- The constant `SZ_1G` of `linux/sizes.h`. -/
def SZ_1G : Nat := 0x40000000

/-- The function `zone_sizes_init`: the array `max_zone_pfns` that it passes to
`free_area_init_nodes`, for the value of the global `max_low_pfn` at the call. -/
def zone_sizes_init (c : Config) (z : ZoneConfig) (max_low_pfn : Nat) : List Nat :=
  let max_zone_pfns := List.replicate z.MAX_NR_ZONES 0
  let with_dma32 :=
    if z.ZONE_DMA32_enabled then
      max_zone_pfns.set z.ZONE_DMA32 (c.PFN_DOWN (min (c.wrap (4 * SZ_1G)) max_low_pfn))
    else max_zone_pfns
  with_dma32.set z.ZONE_NORMAL max_low_pfn

/-! ## Region sets (`struct memblock_type` of `memblock.h`)

The operations on region sets are declared in `memblock.h` and defined in `mm/memblock.c`;
they are modelled from the specification of the region set. Addresses are natural numbers. -/

/-- The structure `struct memblock_region` of `memblock.h`. -/
structure memblock_region where
  base : Nat
  size : Nat
  flags : Nat
  nid : Nat
deriving DecidableEq, Repr

/-- The structure `struct memblock_type` of `memblock.h`; `cnt` is the length of `regions`. -/
structure memblock_type where
  regions : List memblock_region
  max : Nat
  total_size : Nat
deriving DecidableEq, Repr

/-- The field `cnt` of `struct memblock_type`. -/
def memblock_type.cnt (t : memblock_type) : Nat := t.regions.length

/-- The structure `struct memblock` of `memblock.h`, with the one-time "resize enabled"
transition of `memblock_allow_resize` as the field `can_resize`. -/
structure memblock where
  bottom_up : Bool
  current_limit : Nat
  memory : memblock_type
  reserved : memblock_type
  can_resize : Bool
deriving DecidableEq, Repr

/-- The constant `INIT_MEMBLOCK_REGIONS` of `memblock.h`. -/
def INIT_MEMBLOCK_REGIONS : Nat := 128

/-- The constant `MEMBLOCK_NONE` of `enum memblock_flags`. -/
def MEMBLOCK_NONE : Nat := 0

/-- The constant `MEMBLOCK_HOTPLUG` of `enum memblock_flags`. -/
def MEMBLOCK_HOTPLUG : Nat := 1

/-- The constant `MEMBLOCK_MIRROR` of `enum memblock_flags`. -/
def MEMBLOCK_MIRROR : Nat := 2

/-- The constant `MEMBLOCK_NOMAP` of `enum memblock_flags`. -/
def MEMBLOCK_NOMAP : Nat := 4

/-- The inline function `memblock_is_hotpluggable` of `memblock.h`. -/
def memblock_is_hotpluggable (m : memblock_region) : Bool :=
  Nat.land m.flags MEMBLOCK_HOTPLUG != 0

/-- The inline function `memblock_is_mirror` of `memblock.h`. -/
def memblock_is_mirror (m : memblock_region) : Bool := Nat.land m.flags MEMBLOCK_MIRROR != 0

/-- The inline function `memblock_is_nomap` of `memblock.h`. -/
def memblock_is_nomap (m : memblock_region) : Bool := Nat.land m.flags MEMBLOCK_NOMAP != 0

/-- The node selector `NUMA_NO_NODE` ("all nodes"), the `int` value `-1`. -/
def NUMA_NO_NODE : Nat := 0xFFFFFFFF

/-- The node id `MAX_NUMNODES` ("none") that `memblock_add` and `memblock_reserve` record, for
a kernel with one node. -/
def MAX_NUMNODES : Nat := 1

/-- The region sets at boot entry: both empty, fixed capacity, growth not yet permitted. -/
def memblock.empty : memblock :=
  ⟨false, 0, ⟨[], INIT_MEMBLOCK_REGIONS, 0⟩, ⟨[], INIT_MEMBLOCK_REGIONS, 0⟩, false⟩

/-- Failures of the region-set operations. -/
inductive MemblockError where
  | CapacityExceeded
  | OutOfMemory
deriving DecidableEq, Repr

/-- Two adjacent regions with identical flags and node: the second starts where the first
ends. -/
def compatible (a b : memblock_region) : Prop :=
  a.base + a.size = b.base ∧ a.flags = b.flags ∧ a.nid = b.nid

instance (a b : memblock_region) : Decidable (compatible a b) := by
  unfold compatible; infer_instance

/-- Modelled from the spec: a region to insert, `[a, b)` with the given attributes, if it is
not empty ("size: byte length (>0)"). -/
def piece (flags nid a b : Nat) : List memblock_region :=
  if a < b then [⟨a, b - a, flags, nid⟩] else []

/-- Modelled from the spec: the insertion step of `memblock_add_range` (`mm/memblock.c`),
"inserts into the set": walking the sorted regions, the parts of `[base, end_)` that no
existing region covers are inserted as new regions with the given attributes; existing
regions are kept. -/
def add_pieces (flags nid end_ : Nat) : Nat → List memblock_region → List memblock_region
  | base, [] => piece flags nid base end_
  | base, r :: rs =>
    if end_ ≤ r.base then piece flags nid base end_ ++ r :: rs
    else if r.base + r.size ≤ base then r :: add_pieces flags nid end_ base rs
    else piece flags nid base r.base ++ r :: add_pieces flags nid end_ (min (r.base + r.size) end_) rs

/-- Modelled from the spec: the number of bytes that the insertion step inserts, the amount by
which `total_size` is incremented ("kept consistent incrementally"). -/
def inserted_size (end_ : Nat) : Nat → List memblock_region → Nat
  | base, [] => end_ - base
  | base, r :: rs =>
    if end_ ≤ r.base then end_ - base
    else if r.base + r.size ≤ base then inserted_size end_ base rs
    else (r.base - base) + inserted_size end_ (min (r.base + r.size) end_) rs

/-- Modelled from the spec: one merge step, in which `r` absorbs the following region when the
two are compatible. -/
def merge_step (r : memblock_region) : List memblock_region → List memblock_region
  | [] => [r]
  | r2 :: rs =>
    if compatible r r2 then ⟨r.base, r.size + r2.size, r.flags, r.nid⟩ :: rs else r :: r2 :: rs

/-- Modelled from the spec: the merge step of `memblock_add_range` (`mm/memblock.c`),
"merges with adjacent compatible regions": every run of adjacent regions with identical
flags and node becomes one region. -/
def merge_regions : List memblock_region → List memblock_region
  | [] => []
  | r :: rs => merge_step r (merge_regions rs)

/-- Modelled from the spec: `memblock_add_range` (`mm/memblock.c`), the operation
`add(base, size, node, flags)`: "inserts into the set; merges with overlapping/adjacent
compatible regions. Fails with `CapacityExceeded` if storage is full and growth is not yet
permitted." A failed call leaves the set as it was; after growth the capacity holds the
regions. -/
def memblock_add_range (can_resize : Bool) (type : memblock_type) (base size nid flags : Nat) :
    Except MemblockError memblock_type :=
  if size = 0 then Except.ok type
  else
    let inserted := add_pieces flags nid (base + size) base type.regions
    if type.max < inserted.length ∧ can_resize = false then
      Except.error MemblockError.CapacityExceeded
    else
      Except.ok ⟨merge_regions inserted, Nat.max type.max inserted.length,
        type.total_size + inserted_size (base + size) base type.regions⟩

/-- Modelled from the spec: the parts of the region `r` that a removal of `[base, end_)`
keeps, with the attributes of `r`. -/
def remove_from (base end_ : Nat) (r : memblock_region) : List memblock_region :=
  piece r.flags r.nid r.base (min (r.base + r.size) base) ++
    piece r.flags r.nid (max r.base end_) (r.base + r.size)

/-- Modelled from the spec: the number of bytes of the region `r` inside `[base, end_)`, the
amount by which `total_size` is decremented. -/
def removed_from (base end_ : Nat) (r : memblock_region) : Nat :=
  min (r.base + r.size) end_ - max r.base base

/-- Modelled from the spec: `memblock_remove_range` (`mm/memblock.c`), the operation
`remove(base, size)`: "truncates/splits overlapping regions; a region whose size becomes 0 is
deleted". Splitting a region needs one more slot, so the call fails like `add` when storage is
full and growth is not yet permitted. -/
def memblock_remove_range (can_resize : Bool) (type : memblock_type) (base size : Nat) :
    Except MemblockError memblock_type :=
  if size = 0 then Except.ok type
  else
    let kept := type.regions.flatMap (remove_from base (base + size))
    if type.max < kept.length ∧ can_resize = false then
      Except.error MemblockError.CapacityExceeded
    else
      Except.ok ⟨kept, Nat.max type.max kept.length,
        type.total_size - (type.regions.map (removed_from base (base + size))).sum⟩

/-- The set after a call whose integer result is not examined: unchanged on failure. -/
def memblock_type.after (t : memblock_type) (r : Except MemblockError memblock_type) :
    memblock_type :=
  match r with
  | Except.ok t' => t'
  | Except.error _ => t

/-- Modelled from the spec: `memblock_add(base, size)` (`mm/memblock.c`), which adds to the
available set with no node and no flags. -/
def memblock_add (m : memblock) (base size : Nat) : memblock :=
  ⟨m.bottom_up, m.current_limit,
    m.memory.after (memblock_add_range m.can_resize m.memory base size MAX_NUMNODES MEMBLOCK_NONE),
    m.reserved, m.can_resize⟩

/-- Modelled from the spec: `memblock_reserve(base, size)` (`mm/memblock.c`), which adds to the
reserved set with no node and no flags. -/
def memblock_reserve (m : memblock) (base size : Nat) : memblock :=
  ⟨m.bottom_up, m.current_limit, m.memory,
    m.reserved.after
      (memblock_add_range m.can_resize m.reserved base size MAX_NUMNODES MEMBLOCK_NONE),
    m.can_resize⟩

/-- Modelled from the spec: `memblock_remove(base, size)` (`mm/memblock.c`), which removes from
the available set. -/
def memblock_remove (m : memblock) (base size : Nat) : memblock :=
  ⟨m.bottom_up, m.current_limit,
    m.memory.after (memblock_remove_range m.can_resize m.memory base size),
    m.reserved, m.can_resize⟩

/-- Modelled from the spec: `memblock_free(base, size)` (`mm/memblock.c`), which removes from
the reserved set. -/
def memblock_free (m : memblock) (base size : Nat) : memblock :=
  ⟨m.bottom_up, m.current_limit, m.memory,
    m.reserved.after (memblock_remove_range m.can_resize m.reserved base size), m.can_resize⟩

/-- The function `memblock_set_bottom_up` of `memblock.h`. -/
def memblock_set_bottom_up (m : memblock) (enable : Bool) : memblock :=
  ⟨enable, m.current_limit, m.memory, m.reserved, m.can_resize⟩

/-- The function `memblock_bottom_up` of `memblock.h`. -/
def memblock_bottom_up (m : memblock) : Bool := m.bottom_up

/-- One call of the four mutators of a region set. -/
inductive MemblockOp where
  | add (base size : Nat)
  | reserve (base size : Nat)
  | remove (base size : Nat)
  | free (base size : Nat)
deriving DecidableEq, Repr

/-- The effect of one call. -/
def MemblockOp.apply (m : memblock) : MemblockOp → memblock
  | MemblockOp.add b s => memblock_add m b s
  | MemblockOp.reserve b s => memblock_reserve m b s
  | MemblockOp.remove b s => memblock_remove m b s
  | MemblockOp.free b s => memblock_free m b s

/-- The invariant of the regions of a set: ascending and non-overlapping (each region ends
at or before every later one starts), no region followed by a compatible adjacent one, and no
empty region. -/
def regions_ok (l : List memblock_region) : Prop :=
  l.Pairwise (fun a b => a.base + a.size ≤ b.base ∧ ¬ compatible a b) ∧ ∀ r ∈ l, 0 < r.size

/-- The invariant of a region set: `regions_ok`, and `total_size` is the sum of the sizes. -/
def memblock_type.ok (t : memblock_type) : Prop :=
  regions_ok t.regions ∧ t.total_size = (t.regions.map (fun r => r.size)).sum

instance (l : List memblock_region) : Decidable (regions_ok l) := by
  unfold regions_ok; infer_instance

/-- Ascending and non-overlapping regions, none empty: the invariant of a region set without
the merging of compatible neighbours. -/
def regions_sorted (l : List memblock_region) : Prop :=
  l.Pairwise (fun a b => a.base + a.size ≤ b.base) ∧ ∀ r ∈ l, 0 < r.size

instance (l : List memblock_region) : Decidable (regions_sorted l) := by
  unfold regions_sorted; infer_instance

/-- The byte at address `x` lies in a region of the list. -/
def covers (l : List memblock_region) (x : Nat) : Prop :=
  ∃ r ∈ l, r.base ≤ x ∧ x < r.base + r.size

instance (l : List memblock_region) (x : Nat) : Decidable (covers l x) := by
  unfold covers; infer_instance

/-! ## Free ranges -/

/-- The range `[a, b)` as a pair `(start, end)`, if it is not empty. -/
def span (a b : Nat) : List (Nat × Nat) := if a < b then [(a, b)] else []

/-- Modelled from the spec: the parts of the free range `iv` outside the reserved region
`r`. -/
def cut (r : memblock_region) (iv : Nat × Nat) : List (Nat × Nat) :=
  span iv.1 (min iv.2 r.base) ++ span (max iv.1 (r.base + r.size)) iv.2

/-- Modelled from the spec: the free-range iteration `for_each_free_mem_range` of `memblock.h`
(`__next_mem_range` of `mm/memblock.c`), "a sequence of `(start, end)` over
available minus reserved, ascending": every available region, cut by every reserved region. -/
def free_mem_ranges (memory reserved : List memblock_region) : List (Nat × Nat) :=
  reserved.foldl (fun ranges r => ranges.flatMap (cut r))
    (memory.flatMap (fun m => span m.base (m.base + m.size)))

/-- Modelled from the spec: `memblock_free_all()` (`mm/memblock.c`), "transfer every contiguous
range present in `available` and absent from `reserved` to the general-purpose allocator, one
call per range, in ascending address order"; the result is the list of the ranges handed
over, in call order. -/
def memblock_free_all (m : memblock) : List (Nat × Nat) :=
  free_mem_ranges m.memory.regions m.reserved.regions

/-- The byte at address `x` lies in a range of the list. -/
def in_ranges (l : List (Nat × Nat)) (x : Nat) : Prop := ∃ iv ∈ l, iv.1 ≤ x ∧ x < iv.2

instance (l : List (Nat × Nat)) (x : Nat) : Decidable (in_ranges l x) := by
  unfold in_ranges; infer_instance

/-! ## Range search -/

/-- Modelled from the spec: one joining step, in which the range `iv` absorbs the following
one when it starts where `iv` ends. -/
def coalesce_step (iv : Nat × Nat) : List (Nat × Nat) → List (Nat × Nat)
  | [] => [iv]
  | iv2 :: rest => if iv.2 = iv2.1 then (iv.1, iv2.2) :: rest else iv :: iv2 :: rest

/-- Modelled from the spec: the maximal contiguous ranges of an ascending list of ranges. -/
def coalesce : List (Nat × Nat) → List (Nat × Nat)
  | [] => []
  | iv :: rest => coalesce_step iv (coalesce rest)

/-- Modelled from the spec: the value `val` limited to `[lo, hi]` (`clamp` of
`linux/kernel.h`), used by the range search. -/
def clamp (val lo hi : Nat) : Nat := min (max val lo) hi

/-- Modelled from the spec: the least multiple of `align` at or above `x` (`round_up` of
`linux/kernel.h`), used by the range search. -/
def round_up (x align : Nat) : Nat := (x + align - 1) / align * align

/-- Modelled from the spec: the greatest multiple of `align` at or below `x` (`round_down` of
`linux/kernel.h`), used by the range search. -/
def round_down (x align : Nat) : Nat := x / align * align

/-- Modelled from the spec: the bottom-up search of `memblock_find_in_range_node`, which takes
the first range, in ascending order, whose part inside `[start, end_)` holds `size` bytes from
an aligned address, and the lowest such address in it. -/
def find_range_bottom_up (start end_ size align : Nat) : List (Nat × Nat) → Option Nat
  | [] => none
  | iv :: rest =>
    let this_start := clamp iv.1 start end_
    let this_end := clamp iv.2 start end_
    let cand := round_up this_start align
    if cand < this_end ∧ size ≤ this_end - cand then some cand
    else find_range_bottom_up start end_ size align rest

/-- Modelled from the spec: the top-down search of `memblock_find_in_range_node` over the
ranges in descending order, which takes the first range whose part inside `[start, end_)`
holds `size` bytes from an aligned address, and the highest such address in it. -/
def find_range_top_down (start end_ size align : Nat) : List (Nat × Nat) → Option Nat
  | [] => none
  | iv :: rest =>
    let this_start := clamp iv.1 start end_
    let this_end := clamp iv.2 start end_
    if this_end < size then find_range_top_down start end_ size align rest
    else
      let cand := round_down (this_end - size) align
      if this_start ≤ cand then some cand
      else find_range_top_down start end_ size align rest

/-- Modelled from the spec: the result of a search, the address found or the failure
`OutOfMemory`. -/
def search_result : Option Nat → Except MemblockError Nat
  | some a => Except.ok a
  | none => Except.error MemblockError.OutOfMemory

/-- Modelled from the spec: the selection of `__next_mem_range` (`mm/memblock.c`), "filtered
by node/flags": the node selector picks the regions of that node, and `NUMA_NO_NODE` those of
all nodes; a request for mirrored memory picks mirrored regions only; regions not to be mapped
are picked only on request. -/
def region_selected (nid flags : Nat) (m : memblock_region) : Bool :=
  (nid == NUMA_NO_NODE || nid == m.nid) &&
    (Nat.land flags MEMBLOCK_MIRROR == 0 || memblock_is_mirror m) &&
    (Nat.land flags MEMBLOCK_NOMAP != 0 || !memblock_is_nomap m)

/-- Modelled from the spec: `memblock_find_in_range_node` (`mm/memblock.c`), the operation
`find_in_range(size, align, start, end, node, flags, direction)`: "returns the lowest
(bottom-up) or highest (top-down) aligned address of a `size`-byte interval fully inside
`[start, end)` that lies in `available` minus `reserved`, filtered by node/flags. Fails with
`OutOfMemory` if none exists." The direction is the setting `memblock.bottom_up`; the search
runs over the maximal contiguous free ranges of the selected available regions. -/
def memblock_find_in_range_node (m : memblock) (size align start end_ nid flags : Nat) :
    Except MemblockError Nat :=
  let ranges := coalesce
    (free_mem_ranges (m.memory.regions.filter (region_selected nid flags)) m.reserved.regions)
  search_result
    (if memblock_bottom_up m then find_range_bottom_up start end_ size align ranges
    else find_range_top_down start end_ size align ranges.reverse)

/-- The address `a` is a candidate of the search: aligned, with `[a, a + size)` inside
`[start, end_)` and every byte of it in a region of `memory` and in no region of
`reserved`. -/
def fits (memory reserved : List memblock_region) (size align start end_ a : Nat) : Prop :=
  a % align = 0 ∧ start ≤ a ∧ a + size ≤ end_ ∧
    ∀ x, a ≤ x → x < a + size → covers memory x ∧ ¬ covers reserved x

/-- Ascending, pairwise disjoint, non-empty ranges. -/
def ranges_sorted (l : List (Nat × Nat)) : Prop :=
  l.Pairwise (fun a b => a.2 ≤ b.1) ∧ ∀ iv ∈ l, iv.1 < iv.2

/-- Ascending non-empty ranges with a gap between any two. -/
def ranges_separated (l : List (Nat × Nat)) : Prop :=
  l.Pairwise (fun a b => a.2 < b.1) ∧ ∀ iv ∈ l, iv.1 < iv.2

/-- The address `a` is aligned and `[a, a + size)` lies inside `[start, end_)` and inside one
range of the list. -/
def range_fits (l : List (Nat × Nat)) (size align start end_ a : Nat) : Prop :=
  a % align = 0 ∧ ∃ iv ∈ l, max iv.1 start ≤ a ∧ a + size ≤ min iv.2 end_

/-! ## Handoff (`arch/riscv/mm/init.c`) -/

/-- Modelled from the spec: `__va(x)` of `asm/page.h`, the physical address plus the scalar
physical-to-virtual offset `va_pa_offset`. -/
def __va (c : Config) (va_pa_offset x : Nat) : Nat := c.wrap (x + va_pa_offset)

/-- The global `high_memory` and the ranges handed to the general allocator, in call order. -/
structure HandoffState where
  high_memory : Nat
  freed : List (Nat × Nat)
deriving DecidableEq, Repr

/-- The function `mem_init`. `FLATMEM` is the option `CONFIG_FLATMEM`, `mem_map` the global
that `BUG_ON(!mem_map)` tests, `high_memory` the value of the global at entry, `m` the region
sets that `memblock_free_all` hands over; `mem_init_print_info` only prints. -/
def mem_init (c : Config) (FLATMEM : Bool) (mem_map va_pa_offset max_low_pfn high_memory : Nat)
    (m : memblock) : Outcome HandoffState :=
  if FLATMEM = true ∧ mem_map = 0 then Outcome.bug ⟨high_memory, []⟩
  else Outcome.done ⟨__va c va_pa_offset (c.PFN_PHYS max_low_pfn), memblock_free_all m⟩

/-! ## The PLIC driver (`drivers/irqchip/irq-sifive-plic.c`)

Register addresses are byte offsets from `plic_regs`; context ids, source ids and the `enable`
argument are the non-negative values of the `int` parameters of the C functions. -/

theorem for_loop_from_succ {σ : Type} (body : Nat → σ → σ) (k i : Nat) (s : σ) :
    for_loop_from body i (k + 1) s = body (i + k) (for_loop_from body i k s) := by
  induction k generalizing i s with
  | zero => rfl
  | succ k ih =>
    show for_loop_from body (i + 1) (k + 1) (body i s) = _
    rw [ih]
    have h : i + 1 + k = i + (k + 1) := by omega
    rw [h]
    rfl

theorem for_loop_zero {σ : Type} (body : Nat → σ → σ) (s : σ) : for_loop body 0 s = s := rfl

theorem for_loop_succ {σ : Type} (body : Nat → σ → σ) (n : Nat) (s : σ) :
    for_loop body (n + 1) s = body n (for_loop body n s) := by
  unfold for_loop
  rw [for_loop_from_succ, Nat.zero_add]

/-- A loop of stores `t[f i] = g i` prepends its stores to the log. -/
theorem for_loop_store_writes (t : Tbl) (f : Nat → Nat) (g : Nat → Pte) (n : Nat) (s : VmState) :
    (for_loop (fun i st => st.store t (f i) (g i)) n s).writes =
      ((List.range n).map (fun i => (⟨t, f i, g i⟩ : Write))).reverse ++ s.writes := by
  induction n with
  | zero => simp [for_loop_zero]
  | succ n ih =>
    rw [for_loop_succ]
    show (⟨t, f n, g n⟩ : Write) :: (for_loop _ n s).writes = _
    rw [ih, List.range_succ]
    simp

theorem for_loop_store_offset (t : Tbl) (f : Nat → Nat) (g : Nat → Pte) (n : Nat) (s : VmState) :
    (for_loop (fun i st => st.store t (f i) (g i)) n s).va_pa_offset = s.va_pa_offset ∧
    (for_loop (fun i st => st.store t (f i) (g i)) n s).pfn_base = s.pfn_base := by
  induction n with
  | zero => simp [for_loop_zero]
  | succ n ih =>
    rw [for_loop_succ]
    exact ih

/-- The stores of `setup_vm_tables`, the most recent first. -/
theorem setup_vm_tables_writes (c : Config) (pa : Nat) (s : VmState) :
    (setup_vm_tables c pa s).writes =
      if c.PMD_FOLDED then
        ((List.range c.NUM_PGD_ENTRIES).map (pgd_write c pa)).reverse ++
          (⟨Tbl.trampoline_pg_dir, c.pgd_index_PAGE_OFFSET, pfn_pgd (c.PFN_DOWN pa) c.prot⟩ ::
            s.writes)
      else
        ((List.range c.ARRAY_SIZE_swapper_pmd).map (pmd_write c pa)).reverse ++
          (((List.range c.NUM_PGD_ENTRIES).map (pgd_write c pa)).reverse ++
            (⟨Tbl.trampoline_pmd, 0, pfn_pmd (c.PFN_DOWN pa) c.prot⟩ ::
              ⟨Tbl.trampoline_pg_dir, c.pgd_index_PAGE_OFFSET,
                pfn_pgd (c.PFN_DOWN c.trampoline_pmd_addr) c._PAGE_TABLE⟩ :: s.writes)) := by
  unfold setup_vm_tables
  cases hf : c.PMD_FOLDED
  · simp only [Bool.false_eq_true, if_false]
    rw [for_loop_store_writes Tbl.swapper_pmd (fun i => i), for_loop_store_writes Tbl.swapper_pg_dir
      (fun i => c.wrap (c.pgd_index_PAGE_OFFSET + i))]
    have e : pgd_write c pa = fun i => (⟨Tbl.swapper_pg_dir, c.wrap (c.pgd_index_PAGE_OFFSET + i),
        pfn_pgd (c.wrap (c.PFN_DOWN c.swapper_pmd_addr + i)) c._PAGE_TABLE⟩ : Write) := by
      funext i; simp [pgd_write, hf]
    rw [e]
    rfl
  · simp only [if_true]
    rw [for_loop_store_writes Tbl.swapper_pg_dir (fun i => c.wrap (c.pgd_index_PAGE_OFFSET + i))]
    have e : pgd_write c pa = fun i => (⟨Tbl.swapper_pg_dir, c.wrap (c.pgd_index_PAGE_OFFSET + i),
        pfn_pgd (c.PFN_DOWN (c.wrap (pa + i * c.PGDIR_SIZE))) c.prot⟩ : Write) := by
      funext i; simp [pgd_write, hf]
    rw [e]
    rfl

theorem setup_vm_tables_offset (c : Config) (pa : Nat) (s : VmState) :
    (setup_vm_tables c pa s).va_pa_offset = s.va_pa_offset ∧
    (setup_vm_tables c pa s).pfn_base = s.pfn_base := by
  unfold setup_vm_tables
  cases hf : c.PMD_FOLDED
  · simp only [Bool.false_eq_true, if_false]
    have h1 := for_loop_store_offset Tbl.swapper_pmd (fun i => i)
      (fun i => pfn_pmd (c.PFN_DOWN (c.wrap (pa + i * c.PMD_SIZE))) c.prot)
      c.ARRAY_SIZE_swapper_pmd
    have h2 := for_loop_store_offset Tbl.swapper_pg_dir
      (fun i => c.wrap (c.pgd_index_PAGE_OFFSET + i))
      (fun i => pfn_pgd (c.wrap (c.PFN_DOWN c.swapper_pmd_addr + i)) c._PAGE_TABLE)
      c.NUM_PGD_ENTRIES
    constructor
    · rw [(h1 _).1, (h2 _).1]; rfl
    · rw [(h1 _).2, (h2 _).2]; rfl
  · simp only [if_true]
    exact for_loop_store_offset Tbl.swapper_pg_dir (fun i => c.wrap (c.pgd_index_PAGE_OFFSET + i))
      _ _ _

/-- The function `setup_vm` returns exactly when its two alignment checks pass. -/
theorem setup_vm_done_iff (c : Config) (pa : Nat) :
    (∃ s, setup_vm c pa = Outcome.done s) ↔
      c.PAGE_OFFSET % c.PGDIR_SIZE = 0 ∧ pa % c.wrap (c.PAGE_SIZE * c.PTRS_PER_PTE) = 0 := by
  unfold setup_vm
  by_cases h1 : c.PAGE_OFFSET % c.PGDIR_SIZE = 0
  · by_cases h2 : pa % c.wrap (c.PAGE_SIZE * c.PTRS_PER_PTE) = 0
    · simp [h1, h2]
    · simp [h1, h2]
  · simp [h1]

/-- On return, the state is the table-filling step applied to the state after the two
assignments. -/
theorem setup_vm_done_eq (c : Config) (pa : Nat) (s : VmState)
    (h : setup_vm c pa = Outcome.done s) :
    s = setup_vm_tables c pa ⟨c.usub c.PAGE_OFFSET pa, c.PFN_DOWN pa, []⟩ := by
  unfold setup_vm at h
  by_cases h1 : c.PAGE_OFFSET % c.PGDIR_SIZE = 0
  · by_cases h2 : pa % c.wrap (c.PAGE_SIZE * c.PTRS_PER_PTE) = 0
    · simp [h1, h2, VmState.init] at h
      exact h.symm
    · simp [h1, h2] at h
  · simp [h1] at h

/-! ## Unsigned arithmetic -/

theorem usub_int (c : Config) (a b : Nat) :
    ((c.usub a b : Nat) : Int) = ((a : Int) - b) % 2 ^ c.XLEN := by
  unfold Config.usub Config.wrap
  have hW : 0 < 2 ^ c.XLEN := Nat.two_pow_pos _
  have hle : b % 2 ^ c.XLEN ≤ 2 ^ c.XLEN := (Nat.mod_lt _ hW).le
  push_cast [Nat.cast_sub hle]
  apply Int.emod_eq_emod_iff_emod_sub_eq_zero.mpr
  have h := Int.emod_add_ediv (b : Int) (2 ^ c.XLEN)
  have e : (a : Int) + (2 ^ c.XLEN - (b : Int) % 2 ^ c.XLEN) - ((a : Int) - b) =
      2 ^ c.XLEN * (1 + (b : Int) / 2 ^ c.XLEN) := by
    linarith
  rw [e]
  exact Int.mul_emod_right _ _

theorem usub_add_cancel (c : Config) (a b : Nat) :
    (b + c.usub a b) % 2 ^ c.XLEN = a % 2 ^ c.XLEN := by
  have h := usub_int c a b
  have : ((((b + c.usub a b) % 2 ^ c.XLEN : Nat) : Int)) = ((a % 2 ^ c.XLEN : Nat) : Int) := by
    push_cast
    rw [h, Int.add_emod_emod]
    congr 1
    ring
  exact_mod_cast this

theorem setup_vm_returns_eq (c : Config) (pa : Nat) :
    (setup_vm c pa).returns =
      decide (c.PAGE_OFFSET % c.PGDIR_SIZE = 0 ∧ pa % c.wrap (c.PAGE_SIZE * c.PTRS_PER_PTE) = 0) := by
  unfold setup_vm
  by_cases h1 : c.PAGE_OFFSET % c.PGDIR_SIZE = 0
  · by_cases h2 : pa % c.wrap (c.PAGE_SIZE * c.PTRS_PER_PTE) = 0
    · simp [h1, h2, Outcome.returns]
    · simp [h1, h2, Outcome.returns]
  · simp [h1, Outcome.returns]

theorem setup_vm_state_offset (c : Config) (pa : Nat) :
    (setup_vm c pa).state.va_pa_offset = c.usub c.PAGE_OFFSET pa ∧
    (setup_vm c pa).state.pfn_base = c.PFN_DOWN pa := by
  unfold setup_vm
  by_cases h1 : c.PAGE_OFFSET % c.PGDIR_SIZE = 0
  · by_cases h2 : pa % c.wrap (c.PAGE_SIZE * c.PTRS_PER_PTE) = 0
    · simp only [h1, h2, ne_eq, not_true_eq_false, if_false, Outcome.state]
      exact setup_vm_tables_offset c pa _
    · simp [h1, h2, Outcome.state]
  · simp [h1, Outcome.state]

/-- C8: `setup_vm` sets `va_pa_offset` to `PAGE_OFFSET - pa` modulo `2 ^ XLEN` (the machine
word width, `2 ^ 64` on Sv39) and `pfn_base` to `pa` divided by the page size, whether or not
it then halts; `pa + va_pa_offset = PAGE_OFFSET` modulo `2 ^ XLEN` for every `pa`; for
`pa = 0x80200000` and `PAGE_OFFSET = 0xFFFFFFE000000000` the values are
`va_pa_offset = 0xFFFFFFDF7FE00000` and `pfn_base = 0x80200`. -/
theorem setup_vm_sets_va_pa_offset :
    (∀ (c : Config) (pa : Nat),
      (((setup_vm c pa).state.va_pa_offset : Nat) : Int) =
          ((c.PAGE_OFFSET : Int) - pa) % 2 ^ c.XLEN ∧
        (setup_vm c pa).state.pfn_base = pa / c.PAGE_SIZE ∧
        (pa + (setup_vm c pa).state.va_pa_offset) % 2 ^ c.XLEN = c.PAGE_OFFSET % 2 ^ c.XLEN) ∧
    (∀ A B : Nat,
      (sv39 0xFFFFFFE000000000 A B).XLEN = 64 ∧
      (sv39 0xFFFFFFE000000000 A B).PAGE_SIZE = 4096 ∧
      (setup_vm (sv39 0xFFFFFFE000000000 A B) 0x80200000).state.va_pa_offset
        = 0xFFFFFFDF7FE00000 ∧
      (setup_vm (sv39 0xFFFFFFE000000000 A B) 0x80200000).state.pfn_base = 0x80200) := by
  constructor
  · intro c pa
    obtain ⟨h1, h2⟩ := setup_vm_state_offset c pa
    refine ⟨?_, ?_, ?_⟩
    · rw [h1]; exact usub_int c _ _
    · rw [h2]
      simp [Config.PFN_DOWN, Config.PAGE_SIZE, Nat.shiftRight_eq_div_pow, Nat.shiftLeft_eq]
    · rw [h1]; exact usub_add_cancel c _ _
  · intro A B
    obtain ⟨h1, h2⟩ := setup_vm_state_offset (sv39 0xFFFFFFE000000000 A B) 0x80200000
    refine ⟨rfl, rfl, ?_, ?_⟩
    · rw [h1]; norm_num [Config.usub, Config.wrap, sv39]
    · rw [h2]; norm_num [Config.PFN_DOWN, sv39, Nat.shiftRight_eq_div_pow]

/-! ## Boot memory discovery: lemmas -/

theorem setup_bootmem_find_calls (c : Config) (ve : Nat) (memory : List Region)
    (acc : Nat × List Call) :
    (memory.foldl (setup_bootmem_find c ve) acc).2 =
      acc.2 ++ (memory.filter (holds_image_end c ve)).map
        (fun r => Call.memblock_reserve r.base (c.usub ve r.base)) := by
  induction memory generalizing acc with
  | nil => simp
  | cons r rs ih =>
    rw [List.foldl_cons, ih]
    by_cases h : r.base ≤ ve ∧ ve ≤ c.wrap (r.base + r.size)
    · simp [setup_bootmem_find, holds_image_end, h]
    · simp [setup_bootmem_find, holds_image_end, h]

theorem setup_bootmem_find_size (c : Config) (ve : Nat) (memory : List Region)
    (acc : Nat × List Call) :
    (memory.foldl (setup_bootmem_find c ve) acc).1 = acc.1 ∨
      ∃ r ∈ memory, holds_image_end c ve r = true ∧
        (memory.foldl (setup_bootmem_find c ve) acc).1 = min r.size c.neg_PAGE_OFFSET := by
  induction memory generalizing acc with
  | nil => simp
  | cons r rs ih =>
    rw [List.foldl_cons]
    rcases ih (setup_bootmem_find c ve acc r) with h | ⟨r', hr', hh, h⟩
    · by_cases hr : r.base ≤ ve ∧ ve ≤ c.wrap (r.base + r.size)
      · right
        refine ⟨r, List.mem_cons_self _ _, by simp [holds_image_end, hr], ?_⟩
        rw [h]; simp [setup_bootmem_find, hr]
      · left
        rw [h]; simp [setup_bootmem_find, hr]
    · right
      exact ⟨r', List.mem_cons_of_mem _ hr', hh, h⟩

theorem setup_bootmem_node_calls (c : Config) (memory : List Region) (calls : List Call) :
    memory.foldl (setup_bootmem_node c) calls =
      calls ++ memory.map (fun reg => Call.memblock_set_node (c.PFN_PHYS (c.PFN_UP reg.base))
        (c.PFN_PHYS (c.usub (c.PFN_DOWN (c.wrap (reg.base + reg.size))) (c.PFN_UP reg.base))) 0) := by
  induction memory generalizing calls with
  | nil => simp
  | cons r rs ih =>
    rw [List.foldl_cons, ih]
    simp [setup_bootmem_node]

theorem reserve_calls_append (xs ys : List Call) :
    reserve_calls (xs ++ ys) = reserve_calls xs ++ reserve_calls ys := by
  simp [reserve_calls, List.filterMap_append]

theorem reserve_calls_set_node (c : Config) (memory : List Region) :
    reserve_calls (memory.map (fun reg => Call.memblock_set_node (c.PFN_PHYS (c.PFN_UP reg.base))
      (c.PFN_PHYS (c.usub (c.PFN_DOWN (c.wrap (reg.base + reg.size))) (c.PFN_UP reg.base))) 0))
      = [] := by
  induction memory with
  | nil => rfl
  | cons r rs ih => simp [reserve_calls]

theorem reserve_calls_find (c : Config) (ve : Nat) (rs : List Region) :
    reserve_calls (rs.map (fun r => Call.memblock_reserve r.base (c.usub ve r.base))) =
      rs.map (fun r => (r.base, c.usub ve r.base)) := by
  induction rs with
  | nil => rfl
  | cons r rs ih => simpa [reserve_calls] using ih

/-- The unsigned difference of two words in order is the plain difference. -/
theorem usub_of_le (c : Config) (a b : Nat) (h : b ≤ a) : c.usub a b = c.wrap (a - b) := by
  have h1 := usub_int c a b
  have hW : (0 : Int) < 2 ^ c.XLEN := by positivity
  have : ((c.usub a b : Nat) : Int) = ((c.wrap (a - b) : Nat) : Int) := by
    rw [h1]; unfold Config.wrap; push_cast [Nat.cast_sub h]; rfl
  exact_mod_cast this

theorem wrap_lt (c : Config) (x : Nat) : c.wrap x < 2 ^ c.XLEN :=
  Nat.mod_lt _ (Nat.two_pow_pos _)

theorem wrap_of_lt (c : Config) (x : Nat) (h : x < 2 ^ c.XLEN) : c.wrap x = x :=
  Nat.mod_eq_of_lt h

/-- The state of `setup_initrd` when the ramdisk is kept or dropped. -/
theorem setup_initrd_eq (c : Config) (vo : Nat) (s : BootState) :
    setup_initrd c vo s =
      if s.initrd_start < s.initrd_end ∧ __pa c vo s.initrd_end ≤ c.PFN_PHYS s.max_low_pfn then
        ⟨s.initrd_start, s.initrd_end, 1, s.max_low_pfn,
          s.calls ++ [Call.memblock_reserve (__pa c vo s.initrd_start)
            (c.wrap (s.initrd_end - s.initrd_start))]⟩
      else ⟨0, 0, s.initrd_below_start_ok, s.max_low_pfn, s.calls⟩ := by
  unfold setup_initrd
  by_cases h1 : s.initrd_start ≥ s.initrd_end
  · have : ¬ (s.initrd_start < s.initrd_end) := by omega
    simp [h1, this]
  · by_cases h2 : __pa c vo s.initrd_end > c.PFN_PHYS s.max_low_pfn
    · have : ¬ (__pa c vo s.initrd_end ≤ c.PFN_PHYS s.max_low_pfn) := by omega
      simp [h1, h2, this]
    · have h3 : s.initrd_start < s.initrd_end := by omega
      have h4 : __pa c vo s.initrd_end ≤ c.PFN_PHYS s.max_low_pfn := by omega
      simp only [h1, h2, if_false, h3, h4, and_self, if_true]
      rw [usub_of_le c _ _ h3.le]


theorem setup_initrd_max_low_pfn (c : Config) (vo : Nat) (s : BootState) :
    (setup_initrd c vo s).max_low_pfn = s.max_low_pfn := by
  rw [setup_initrd_eq]
  split <;> rfl

/-- The reservations in the log of `setup_bootmem`: those of the first loop, then at most the
one of `setup_initrd`. -/
theorem setup_bootmem_reserve_calls (c : Config) (vo : Nat) (memory : List Region) (_end : Nat)
    (s : BootState) :
    ∃ rest, reserve_calls (setup_bootmem c vo memory _end s).state.calls =
        reserve_calls s.calls ++
          (memory.filter (holds_image_end c (__pa c vo _end))).map
            (fun r => (r.base, c.usub (__pa c vo _end) r.base)) ++ rest ∧
      rest.length ≤ 1 ∧ (s.initrd_end ≤ s.initrd_start → rest = []) := by
  unfold setup_bootmem
  simp only []
  by_cases h0 : (memory.foldl (setup_bootmem_find c (__pa c vo _end)) (0, s.calls)).1 = 0
  · refine ⟨[], ?_, by simp, fun _ => rfl⟩
    simp only [h0, if_true, Outcome.state, setup_bootmem_find_calls, reserve_calls_append,
      reserve_calls_find, List.append_nil]
  · simp only [h0, if_false, Outcome.state, setup_bootmem_node_calls, reserve_calls_append,
      reserve_calls_set_node, List.append_nil]
    cases hi : c.BLK_DEV_INITRD
    · refine ⟨[], ?_, by simp, fun _ => rfl⟩
      simp only [Bool.false_eq_true, if_false, setup_bootmem_find_calls, reserve_calls_append,
        reserve_calls_find]
      simp [reserve_calls]
    · simp only [if_true]
      rw [setup_initrd_eq]
      split
      · rename_i hk
        refine ⟨[(__pa c vo s.initrd_start, c.wrap (s.initrd_end - s.initrd_start))], ?_,
          by simp, fun hle => absurd hk.1 (by simpa using hle)⟩
        simp only [setup_bootmem_find_calls, reserve_calls_append, reserve_calls_find]
        simp [reserve_calls]
      · refine ⟨[], ?_, by simp, fun _ => rfl⟩
        simp only [setup_bootmem_find_calls, reserve_calls_append, reserve_calls_find]
        simp [reserve_calls]


theorem setup_bootmem_done_max_low_pfn (c : Config) (vo : Nat) (memory : List Region)
    (_end : Nat) (s s' : BootState) (h : setup_bootmem c vo memory _end s = Outcome.done s') :
    s'.max_low_pfn = memblock_end_of_DRAM c memory ∧
    Call.set_max_mapnr (c.PFN_DOWN
      (memory.foldl (setup_bootmem_find c (__pa c vo _end)) (0, s.calls)).1) ∈ s'.calls ∧
    (memory.foldl (setup_bootmem_find c (__pa c vo _end)) (0, s.calls)).1 ≠ 0 := by
  unfold setup_bootmem at h
  simp only [] at h
  by_cases h0 : (memory.foldl (setup_bootmem_find c (__pa c vo _end)) (0, s.calls)).1 = 0
  · simp [h0] at h
  · simp only [h0, if_false, Outcome.done.injEq] at h
    subst h
    refine ⟨?_, ?_, h0⟩
    · show (if c.BLK_DEV_INITRD = true then _ else _ : BootState).max_low_pfn = _
      split
      · rw [setup_initrd_max_low_pfn]
      · rfl
    · simp only [setup_bootmem_node_calls]
      apply List.mem_append_left
      apply List.mem_append_left
      split
      · rw [setup_initrd_eq]
        split <;> simp
      · simp

theorem PFN_DOWN_mono (c : Config) {a b : Nat} (h : a ≤ b) : c.PFN_DOWN a ≤ c.PFN_DOWN b := by
  unfold Config.PFN_DOWN
  rw [Nat.shiftRight_eq_div_pow, Nat.shiftRight_eq_div_pow]
  exact Nat.div_le_div_right h

/-- C7: with no installed memory region, `setup_bootmem` halts at `BUG_ON(mem_size == 0)`
with the globals and the call log as they were at entry: no frame bound is computed, no ramdisk
is reserved, resize is not enabled, and the function does not return. -/
theorem setup_bootmem_empty_halts (c : Config) (va_pa_offset _end : Nat) (s : BootState) :
    setup_bootmem c va_pa_offset [] _end s = Outcome.bug s ∧
    (setup_bootmem c va_pa_offset [] _end s).returns = false := by
  constructor <;> rfl

/-- C2 (amended): the kernel reservations of `setup_bootmem` are, in order, one span
`(reg.base, image_end - reg.base)` for each installed region with
`reg.base <= image_end <= reg.base + reg.size`: they start at the base of the region, not at
the load address of the image. The only other reservation the function itself makes is the
one of `setup_initrd`, absent when no ramdisk is declared. -/
theorem setup_bootmem_reserves_from_region_base (c : Config) (va_pa_offset : Nat)
    (memory : List Region) (_end : Nat) (s : BootState) :
    ∃ rest, reserve_calls (setup_bootmem c va_pa_offset memory _end s).state.calls =
        reserve_calls s.calls ++
          (memory.filter (holds_image_end c (__pa c va_pa_offset _end))).map
            (fun r => (r.base, __pa c va_pa_offset _end - r.base)) ++ rest ∧
      rest.length ≤ 1 ∧ (s.initrd_end ≤ s.initrd_start → rest = []) := by
  obtain ⟨rest, h, hl, hr⟩ := setup_bootmem_reserve_calls c va_pa_offset memory _end s
  refine ⟨rest, ?_, hl, hr⟩
  rw [h]
  congr 2
  apply List.map_congr_left
  intro r hr
  have hp : r.base ≤ __pa c va_pa_offset _end := by
    have := (List.mem_filter.mp hr).2
    simp only [holds_image_end, decide_eq_true_eq] at this
    exact this.1
  have hlt : __pa c va_pa_offset _end - r.base < 2 ^ c.XLEN :=
    lt_of_le_of_lt (Nat.sub_le _ _) (wrap_lt c _)
  rw [usub_of_le c _ _ hp, wrap_of_lt c _ hlt]

/-- C2 (witness): the discovery scenario of the specification, one region that starts at the
load address of the image. -/
theorem setup_bootmem_reserves_from_region_base_witness :
    reserve_calls (setup_bootmem boot_cfg boot_offset [⟨0x80200000, 0x7FE00000⟩] boot_end
      ⟨0, 0, 0, 0, []⟩).state.calls = [(0x80200000, 0xB0C07C)] := by
  obtain ⟨rest, h, _, hr⟩ := setup_bootmem_reserves_from_region_base boot_cfg boot_offset
    [⟨0x80200000, 0x7FE00000⟩] boot_end ⟨0, 0, 0, 0, []⟩
  rw [h, hr (by decide)]
  decide

/-- C2 (counterexample): an image at `[0x80200000, 0x80D0C07C)` inside the installed region
`[0x80000000, 0x100000000)` is reserved from the base of the region. -/
theorem setup_bootmem_reserves_image_only_counterexample :
    (0x80000000 ≤ 0x80200000 ∧ 0x80D0C07C ≤ 0x80000000 + 0x80000000) ∧
    __pa boot_cfg boot_offset boot_end = 0x80D0C07C ∧
    reserve_calls (setup_bootmem boot_cfg boot_offset [⟨0x80000000, 0x80000000⟩] boot_end
      ⟨0, 0, 0, 0, []⟩).state.calls = [(0x80000000, 0xD0C07C)] ∧
    ¬ reserve_calls (setup_bootmem boot_cfg boot_offset [⟨0x80000000, 0x80000000⟩] boot_end
      ⟨0, 0, 0, 0, []⟩).state.calls = [(0x80200000, 0x80D0C07C - 0x80200000)] := by
  decide


/-- C4 (amended): on return from `setup_bootmem`, `max_low_pfn` is determined by the highest
end address over the installed spans (`memblock_end_of_DRAM()`) alone, whatever `PAGE_OFFSET`
is: it is not clipped to the linear-mapping limit. The clip to `-PAGE_OFFSET` is applied to
the frame count given to `set_max_mapnr`, which is `PFN_DOWN(min(reg.size, -PAGE_OFFSET))` for
a region that holds the end of the image and so never exceeds the limit expressed in frames. -/
theorem setup_bootmem_max_low_pfn_unclipped :
    (∀ (c c' : Config) (vo vo' : Nat) (memory memory' : List Region) (e e' : Nat)
        (s s' t t' : BootState),
      setup_bootmem c vo memory e s = Outcome.done s' →
      setup_bootmem c' vo' memory' e' t = Outcome.done t' →
      memblock_end_of_DRAM c memory = memblock_end_of_DRAM c' memory' →
      s'.max_low_pfn = t'.max_low_pfn) ∧
    (∀ (c : Config) (vo : Nat) (memory : List Region) (e : Nat) (s s' : BootState),
      setup_bootmem c vo memory e s = Outcome.done s' →
      ∃ r ∈ memory, holds_image_end c (__pa c vo e) r = true ∧
        Call.set_max_mapnr (c.PFN_DOWN (min r.size c.neg_PAGE_OFFSET)) ∈ s'.calls ∧
        c.PFN_DOWN (min r.size c.neg_PAGE_OFFSET) ≤ c.PFN_DOWN c.neg_PAGE_OFFSET) := by
  constructor
  · intro c c' vo vo' memory memory' e e' s s' t t' h1 h2 h
    rw [(setup_bootmem_done_max_low_pfn c vo memory e s s' h1).1,
      (setup_bootmem_done_max_low_pfn c' vo' memory' e' t t' h2).1, h]
  · intro c vo memory e s s' h
    obtain ⟨_, hm, h0⟩ := setup_bootmem_done_max_low_pfn c vo memory e s s' h
    rcases setup_bootmem_find_size c (__pa c vo e) memory (0, s.calls) with hz | ⟨r, hr, hh, hs⟩
    · exact absurd hz h0
    · refine ⟨r, hr, hh, ?_, PFN_DOWN_mono c (Nat.min_le_right _ _)⟩
      rw [← hs]
      exact hm

/-- C4 (witness): the discovery scenario of the specification. -/
theorem setup_bootmem_max_low_pfn_unclipped_witness :
    ∃ r ∈ [(⟨0x80200000, 0x7FE00000⟩ : Region)],
      holds_image_end boot_cfg (__pa boot_cfg boot_offset boot_end) r = true ∧
      Call.set_max_mapnr (boot_cfg.PFN_DOWN (min r.size boot_cfg.neg_PAGE_OFFSET)) ∈
        (setup_bootmem boot_cfg boot_offset [⟨0x80200000, 0x7FE00000⟩] boot_end
          ⟨0, 0, 0, 0, []⟩).state.calls ∧
      boot_cfg.PFN_DOWN (min r.size boot_cfg.neg_PAGE_OFFSET) ≤
        boot_cfg.PFN_DOWN boot_cfg.neg_PAGE_OFFSET :=
  setup_bootmem_max_low_pfn_unclipped.2 boot_cfg boot_offset [⟨0x80200000, 0x7FE00000⟩]
    boot_end ⟨0, 0, 0, 0, []⟩ _ (by decide)

/-- C4 (counterexample): with 256 GiB installed at `0x80200000` and the 128 GiB linear map of
`boot_cfg`, `setup_bootmem` returns with `max_low_pfn = 0x4080200000`, which is not the frame
of the end of memory clipped to the limit `0x2000000`, whether the stored value is read as a
frame number or as a byte address. -/
theorem setup_bootmem_max_low_pfn_clipped_counterexample :
    (setup_bootmem boot_cfg boot_offset [⟨0x80200000, 0x4000000000⟩] boot_end
      ⟨0, 0, 0, 0, []⟩).returns = true ∧
    boot_cfg.PFN_DOWN boot_cfg.neg_PAGE_OFFSET = 0x2000000 ∧
    (setup_bootmem boot_cfg boot_offset [⟨0x80200000, 0x4000000000⟩] boot_end
      ⟨0, 0, 0, 0, []⟩).state.max_low_pfn = 0x4080200000 ∧
    ¬ (setup_bootmem boot_cfg boot_offset [⟨0x80200000, 0x4000000000⟩] boot_end
        ⟨0, 0, 0, 0, []⟩).state.max_low_pfn =
      min (boot_cfg.PFN_DOWN (memblock_end_of_DRAM boot_cfg [⟨0x80200000, 0x4000000000⟩]))
        (boot_cfg.PFN_DOWN boot_cfg.neg_PAGE_OFFSET) ∧
    ¬ boot_cfg.PFN_DOWN (setup_bootmem boot_cfg boot_offset [⟨0x80200000, 0x4000000000⟩]
        boot_end ⟨0, 0, 0, 0, []⟩).state.max_low_pfn ≤
      boot_cfg.PFN_DOWN boot_cfg.neg_PAGE_OFFSET := by
  decide

/-- C5 (amended): `setup_initrd` reserves the ramdisk exactly when `initrd_end > initrd_start`
and `__pa(initrd_end) <= PFN_PHYS(max_low_pfn)`; only the end of the ramdisk is compared with
the bound, neither its start nor the holes between regions are examined. When it reserves, the
single new call is `memblock_reserve(__pa(initrd_start), initrd_end - initrd_start)` and the
ramdisk bounds are unchanged; otherwise no call is made and both bounds become 0. -/
theorem setup_initrd_reserves_iff (c : Config) (va_pa_offset : Nat) (s : BootState) :
    (s.initrd_start < s.initrd_end ∧
        __pa c va_pa_offset s.initrd_end ≤ c.PFN_PHYS s.max_low_pfn →
      (setup_initrd c va_pa_offset s).calls =
        s.calls ++ [Call.memblock_reserve (__pa c va_pa_offset s.initrd_start)
          (c.wrap (s.initrd_end - s.initrd_start))] ∧
      (setup_initrd c va_pa_offset s).initrd_start = s.initrd_start ∧
      (setup_initrd c va_pa_offset s).initrd_end = s.initrd_end) ∧
    (¬ (s.initrd_start < s.initrd_end ∧
        __pa c va_pa_offset s.initrd_end ≤ c.PFN_PHYS s.max_low_pfn) →
      (setup_initrd c va_pa_offset s).calls = s.calls ∧
      (setup_initrd c va_pa_offset s).initrd_start = 0 ∧
      (setup_initrd c va_pa_offset s).initrd_end = 0) := by
  rw [setup_initrd_eq]
  constructor
  · intro h
    rw [if_pos h]
    exact ⟨rfl, rfl, rfl⟩
  · intro h
    rw [if_neg h]
    exact ⟨rfl, rfl, rfl⟩

/-- C5 (witness): a 1 MiB ramdisk at physical `0x88000000`, with the bound at the end of a
DRAM that ends at `0x100000000`, is reserved as `(0x88000000, 0x100000)`. -/
theorem setup_initrd_reserves_iff_witness :
    (setup_initrd boot_cfg boot_offset
        ⟨0xFFFFFFE007E00000, 0xFFFFFFE007F00000, 0, 0x100000, []⟩).calls =
      [] ++ [Call.memblock_reserve
        (__pa boot_cfg boot_offset 0xFFFFFFE007E00000)
        (boot_cfg.wrap (0xFFFFFFE007F00000 - 0xFFFFFFE007E00000))] ∧
    (setup_initrd boot_cfg boot_offset
        ⟨0xFFFFFFE007E00000, 0xFFFFFFE007F00000, 0, 0x100000, []⟩).initrd_start =
      0xFFFFFFE007E00000 ∧
    (setup_initrd boot_cfg boot_offset
        ⟨0xFFFFFFE007E00000, 0xFFFFFFE007F00000, 0, 0x100000, []⟩).initrd_end =
      0xFFFFFFE007F00000 :=
  (setup_initrd_reserves_iff boot_cfg boot_offset
    ⟨0xFFFFFFE007E00000, 0xFFFFFFE007F00000, 0, 0x100000, []⟩).1 (by decide)

/-- C5 (counterexample): with memory installed at `[0x80200000, 0x81200000)` and
`[0xC0000000, 0xC1000000)`, a ramdisk at physical `[0x90000000, 0x90100000)` lies in the hole
between the two regions, in no installed region, and `setup_bootmem` still reserves it and
keeps its bounds. -/
theorem setup_initrd_inside_memory_counterexample :
    __pa boot_cfg boot_offset 0xFFFFFFE00FE00000 = 0x90000000 ∧
    __pa boot_cfg boot_offset 0xFFFFFFE00FF00000 = 0x90100000 ∧
    (∀ r ∈ [(⟨0x80200000, 0x1000000⟩ : Region), ⟨0xC0000000, 0x1000000⟩],
      ¬ (r.base ≤ 0x90000000 ∧ 0x90000000 < r.base + r.size)) ∧
    Call.memblock_reserve 0x90000000 0x100000 ∈
      (setup_bootmem boot_cfg boot_offset [⟨0x80200000, 0x1000000⟩, ⟨0xC0000000, 0x1000000⟩]
        boot_end ⟨0xFFFFFFE00FE00000, 0xFFFFFFE00FF00000, 0, 0, []⟩).state.calls ∧
    (setup_bootmem boot_cfg boot_offset [⟨0x80200000, 0x1000000⟩, ⟨0xC0000000, 0x1000000⟩]
        boot_end ⟨0xFFFFFFE00FE00000, 0xFFFFFFE00FF00000, 0, 0, []⟩).state.initrd_start =
      0xFFFFFFE00FE00000 := by
  decide

/-- C6 (the code at the failing input): with DRAM `[0x80200000, 0x100000000)`, a ramdisk at
physical `[0xFFFFF000, 0x100001000)` ends beyond the end of installed memory, and
`setup_bootmem` keeps it: `max_low_pfn` holds the byte address `0x100000000`, the bound of
`setup_initrd` is `PFN_PHYS(max_low_pfn) = 0x100000000000`, and the ramdisk is reserved. -/
theorem setup_bootmem_keeps_ramdisk_beyond_memory :
    memblock_end_of_DRAM boot_cfg [⟨0x80200000, 0x7FE00000⟩] = 0x100000000 ∧
    __pa boot_cfg boot_offset 0xFFFFFFE07FE01000 = 0x100001000 ∧
    (setup_bootmem boot_cfg boot_offset [⟨0x80200000, 0x7FE00000⟩] boot_end
        ⟨0xFFFFFFE07FDFF000, 0xFFFFFFE07FE01000, 0, 0, []⟩).state.max_low_pfn = 0x100000000 ∧
    boot_cfg.PFN_PHYS 0x100000000 = 0x100000000000 ∧
    reserve_calls (setup_bootmem boot_cfg boot_offset [⟨0x80200000, 0x7FE00000⟩] boot_end
        ⟨0xFFFFFFE07FDFF000, 0xFFFFFFE07FE01000, 0, 0, []⟩).state.calls =
      [(0x80200000, 0xB0C07C), (0xFFFFF000, 0x2000)] ∧
    (setup_bootmem boot_cfg boot_offset [⟨0x80200000, 0x7FE00000⟩] boot_end
        ⟨0xFFFFFFE07FDFF000, 0xFFFFFFE07FE01000, 0, 0, []⟩).state.initrd_start =
      0xFFFFFFE07FDFF000 ∧
    (setup_bootmem boot_cfg boot_offset [⟨0x80200000, 0x7FE00000⟩] boot_end
        ⟨0xFFFFFFE07FDFF000, 0xFFFFFFE07FE01000, 0, 0, []⟩).state.initrd_end =
      0xFFFFFFE07FE01000 := by
  decide

/-! ## Sizes -/

theorem PAGE_SIZE_eq (c : Config) : c.PAGE_SIZE = 2 ^ c.PAGE_SHIFT := by
  simp [Config.PAGE_SIZE, Nat.shiftLeft_eq]

theorem PMD_SIZE_eq (c : Config) : c.PMD_SIZE = 2 ^ c.PMD_SHIFT := by
  simp [Config.PMD_SIZE, Nat.shiftLeft_eq]

theorem PGDIR_SIZE_eq (c : Config) : c.PGDIR_SIZE = 2 ^ c.PGDIR_SHIFT := by
  simp [Config.PGDIR_SIZE, Nat.shiftLeft_eq]

theorem PFN_DOWN_eq (c : Config) (x : Nat) : c.PFN_DOWN x = x / c.PAGE_SIZE := by
  rw [PAGE_SIZE_eq, Config.PFN_DOWN, Nat.shiftRight_eq_div_pow]

theorem PGDIR_SIZE_pos (c : Config) : 0 < c.PGDIR_SIZE := by
  rw [PGDIR_SIZE_eq]; exact Nat.two_pow_pos _

theorem PMD_SIZE_pos (c : Config) : 0 < c.PMD_SIZE := by
  rw [PMD_SIZE_eq]; exact Nat.two_pow_pos _

theorem PAGE_SIZE_pos (c : Config) : 0 < c.PAGE_SIZE := by
  rw [PAGE_SIZE_eq]; exact Nat.two_pow_pos _

theorem PGDIR_SIZE_dvd_word (c : Config) (hc : c.WF) : c.PGDIR_SIZE ∣ 2 ^ c.XLEN := by
  rw [PGDIR_SIZE_eq]
  exact Nat.pow_dvd_pow 2 hc.1.le

theorem PGDIR_SIZE_lt_word (c : Config) (hc : c.WF) : c.PGDIR_SIZE < 2 ^ c.XLEN := by
  rw [PGDIR_SIZE_eq]
  exact Nat.pow_lt_pow_right (by norm_num) hc.1

/-- The value of `-PAGE_OFFSET` as a natural number. -/
theorem neg_PAGE_OFFSET_eq (c : Config) (hc : c.WF) :
    c.neg_PAGE_OFFSET = if c.PAGE_OFFSET = 0 then 0 else 2 ^ c.XLEN - c.PAGE_OFFSET := by
  have hpo : c.PAGE_OFFSET < 2 ^ c.XLEN := hc.2.1
  unfold Config.neg_PAGE_OFFSET Config.usub Config.wrap
  rw [Nat.mod_eq_of_lt hpo, Nat.zero_add]
  split
  · rename_i h; rw [h]; simp
  · rename_i h
    apply Nat.mod_eq_of_lt
    omega

theorem neg_PAGE_OFFSET_lt (c : Config) : c.neg_PAGE_OFFSET < 2 ^ c.XLEN := wrap_lt c _

/-- With `PAGE_OFFSET` aligned, the top-level loop covers the linear-map window exactly. -/
theorem NUM_PGD_ENTRIES_mul (c : Config) (hc : c.WF) (ha : c.PAGE_OFFSET % c.PGDIR_SIZE = 0) :
    c.NUM_PGD_ENTRIES * c.PGDIR_SIZE = c.neg_PAGE_OFFSET := by
  unfold Config.NUM_PGD_ENTRIES
  apply Nat.div_mul_cancel
  rw [neg_PAGE_OFFSET_eq c hc]
  split
  · exact dvd_zero _
  · exact Nat.dvd_sub' (PGDIR_SIZE_dvd_word c hc) (Nat.dvd_of_mod_eq_zero ha)

/-- The leaf granule is the span `PAGE_SIZE * PTRS_PER_PTE` tested by `setup_vm`. -/
theorem wrap_leaf_span (c : Config) (hc : c.WF) :
    c.wrap (c.PAGE_SIZE * c.PTRS_PER_PTE) = c.leaf_granule := by
  have h := hc.2.2.2.1
  unfold Config.leaf_granule
  cases hf : c.PMD_FOLDED
  · simp only [hf, Bool.false_eq_true, if_false] at h ⊢
    rw [h.1]
    apply wrap_of_lt
    have := PGDIR_SIZE_lt_word c hc
    have h2 : c.PMD_SIZE ≤ c.PGDIR_SIZE := by
      rw [← h.2]
      rcases Nat.eq_zero_or_pos c.PTRS_PER_PMD with h0 | h0
      · have := PGDIR_SIZE_pos c
        rw [← h.2, h0] at this; simp at this
      · exact Nat.le_mul_of_pos_left _ h0
    omega
  · simp only [hf, if_true] at h ⊢
    rw [h]
    exact wrap_of_lt c _ (PGDIR_SIZE_lt_word c hc)

theorem PAGE_SIZE_dvd_leaf (c : Config) (hc : c.WF) : c.PAGE_SIZE ∣ c.leaf_granule := by
  have h := hc.2.2.2.1
  unfold Config.leaf_granule
  cases hf : c.PMD_FOLDED
  · simp only [hf, Bool.false_eq_true, if_false] at h ⊢
    exact ⟨_, h.1.symm⟩
  · simp only [hf, if_true] at h ⊢
    exact ⟨_, h.symm⟩

theorem leaf_dvd_PGDIR (c : Config) (hc : c.WF) : c.leaf_granule ∣ c.PGDIR_SIZE := by
  have h := hc.2.2.2.1
  unfold Config.leaf_granule
  cases hf : c.PMD_FOLDED
  · simp only [hf, Bool.false_eq_true, if_false] at h ⊢
    exact ⟨c.PTRS_PER_PMD, by rw [← h.2, Nat.mul_comm]⟩
  · simp only [hf, if_true] at h ⊢
    exact dvd_refl _

theorem leaf_granule_pos (c : Config) : 0 < c.leaf_granule := by
  unfold Config.leaf_granule
  split
  · exact PGDIR_SIZE_pos c
  · exact PMD_SIZE_pos c

/-- The leaves of the permanent mapping cover the linear-map window exactly. -/
theorem leaf_count_mul (c : Config) (hc : c.WF) (ha : c.PAGE_OFFSET % c.PGDIR_SIZE = 0) :
    c.leaf_count * c.leaf_granule = c.neg_PAGE_OFFSET := by
  have h := hc.2.2.2.1
  have hn := NUM_PGD_ENTRIES_mul c hc ha
  unfold Config.leaf_count Config.leaf_granule
  cases hf : c.PMD_FOLDED
  · simp only [hf, Bool.false_eq_true, if_false] at h ⊢
    have e : c.PTRS_PER_PMD * c.NUM_PGD_ENTRIES * c.PMD_SIZE = c.neg_PAGE_OFFSET := by
      rw [← hn, ← h.2]; ring
    unfold Config.ARRAY_SIZE_swapper_pmd
    rw [wrap_of_lt, e]
    have hlt := neg_PAGE_OFFSET_lt c
    have hp := PMD_SIZE_pos c
    calc c.PTRS_PER_PMD * c.NUM_PGD_ENTRIES
        ≤ c.PTRS_PER_PMD * c.NUM_PGD_ENTRIES * c.PMD_SIZE := Nat.le_mul_of_pos_right _ hp
      _ < 2 ^ c.XLEN := by rw [e]; exact hlt
  · simp only [if_true]
    exact hn


/-! ## Address arithmetic -/

/-- A sum that does not reach the modulus is not reduced. -/
theorem mod_add_small (W G x r : Nat) (hG : G ∣ W) (hx : G ∣ x) (hr : r < G) (hW : 0 < W) :
    (x + r) % W = x % W + r := by
  obtain ⟨w, rfl⟩ := hG
  have hxm : G ∣ x % (G * w) := (Nat.dvd_mod_iff ⟨w, rfl⟩).mpr hx
  obtain ⟨q, hq⟩ := hxm
  have hlt : x % (G * w) < G * w := Nat.mod_lt _ hW
  have hqw : q < w := by
    rw [hq] at hlt
    exact Nat.lt_of_mul_lt_mul_left hlt
  have hbound : G * q + r < G * w := by
    calc G * q + r < G * q + G := by omega
      _ = G * (q + 1) := by ring
      _ ≤ G * w := Nat.mul_le_mul_left _ hqw
  rw [Nat.add_mod, hq, Nat.mod_eq_of_lt (a := r) (by omega), Nat.mod_eq_of_lt hbound]

/-- The physical address produced by the leaf that maps the chunk of `delta`. -/
theorem leaf_phys (W G P pa po delta : Nat) (hW : 0 < W) (hP : P ∣ G) (hG : G ∣ W)
    (hG0 : 0 < G) (hpa : G ∣ pa) (hpo : G ∣ po) :
    (pa + delta / G * G) % W / P * P + (po + delta) % G = (pa + delta) % W := by
  have hx : G ∣ pa + delta / G * G := Dvd.dvd.add hpa (Dvd.intro_left _ rfl)
  have hxm : G ∣ (pa + delta / G * G) % W := (Nat.dvd_mod_iff hG).mpr hx
  rw [Nat.div_mul_cancel (dvd_trans hP hxm)]
  have e1 : (po + delta) % G = delta % G := by
    obtain ⟨k, rfl⟩ := hpo
    rw [Nat.mul_add_mod]
  rw [e1, ← mod_add_small W G _ _ hG hx (Nat.mod_lt _ hG0) hW]
  congr 1
  have := Nat.div_add_mod delta G
  rw [Nat.mul_comm] at this
  omega

/-- Equal reductions of `a + k` and `a + k'` for `k, k'` below the modulus. -/
theorem add_mod_inj (W a k k' : Nat) (hk : k < W) (hk' : k' < W)
    (h : (a + k) % W = (a + k') % W) : k = k' := by
  have h1 : k ≡ k' [MOD W] := Nat.ModEq.add_left_cancel' a h
  exact Nat.ModEq.eq_of_lt_of_lt h1 hk hk'

/-! ## Reading the tables back -/

/-- A table element has the value of any store to it, provided all stores to it agree. -/
theorem read_of_mem (s : VmState) (t : Tbl) (idx : Nat) (w : Write) (hmem : w ∈ s.writes)
    (ht : w.tbl = t) (hi : w.idx = idx)
    (huniq : ∀ w' ∈ s.writes, w'.tbl = t → w'.idx = idx → w'.val = w.val) :
    s.read t idx = w.val := by
  unfold VmState.read
  cases h : s.writes.find? (fun w => decide (w.tbl = t ∧ w.idx = idx)) with
  | none =>
    rw [List.find?_eq_none] at h
    have := h w hmem
    simp [ht, hi] at this
  | some w' =>
    have hp := List.find?_some h
    have hm := List.mem_of_find?_eq_some h
    simp only [decide_eq_true_eq] at hp
    exact huniq w' hm hp.1 hp.2

/-- The stores of `setup_vm` in program order. -/
theorem setup_vm_writes (c : Config) (pa : Nat) (s : VmState)
    (h : setup_vm c pa = Outcome.done s) :
    s.writes.reverse =
      if c.PMD_FOLDED then
        trampoline_pgd_write c pa :: (List.range c.NUM_PGD_ENTRIES).map (pgd_write c pa)
      else
        trampoline_pgd_write c pa :: trampoline_pmd_write c pa ::
          ((List.range c.NUM_PGD_ENTRIES).map (pgd_write c pa) ++
            (List.range c.ARRAY_SIZE_swapper_pmd).map (pmd_write c pa)) := by
  rw [setup_vm_done_eq c pa s h, setup_vm_tables_writes]
  cases hf : c.PMD_FOLDED
  · simp [trampoline_pgd_write, trampoline_pmd_write, hf]
  · simp [trampoline_pgd_write, hf]

/-- Membership in the stores of `setup_vm`. -/
theorem mem_setup_vm_writes (c : Config) (pa : Nat) (s : VmState)
    (h : setup_vm c pa = Outcome.done s) (w : Write) :
    w ∈ s.writes ↔
      w = trampoline_pgd_write c pa ∨ (c.PMD_FOLDED = false ∧ w = trampoline_pmd_write c pa) ∨
      (∃ i, i < c.NUM_PGD_ENTRIES ∧ w = pgd_write c pa i) ∨
      (c.PMD_FOLDED = false ∧ ∃ i, i < c.ARRAY_SIZE_swapper_pmd ∧ w = pmd_write c pa i) := by
  rw [← List.mem_reverse, setup_vm_writes c pa s h]
  cases hf : c.PMD_FOLDED
  · simp only [Bool.false_eq_true, if_false, List.mem_cons, List.mem_append, List.mem_map,
      List.mem_range, true_and]
    constructor
    · rintro (h | h | ⟨i, hi, rfl⟩ | ⟨i, hi, rfl⟩)
      · exact Or.inl h
      · exact Or.inr (Or.inl h)
      · exact Or.inr (Or.inr (Or.inl ⟨i, hi, rfl⟩))
      · exact Or.inr (Or.inr (Or.inr ⟨i, hi, rfl⟩))
    · rintro (h | h | ⟨i, hi, rfl⟩ | ⟨i, hi, rfl⟩)
      · exact Or.inl h
      · exact Or.inr (Or.inl h)
      · exact Or.inr (Or.inr (Or.inl ⟨i, hi, rfl⟩))
      · exact Or.inr (Or.inr (Or.inr ⟨i, hi, rfl⟩))
  · simp only [if_true, List.mem_cons, List.mem_map, List.mem_range, Bool.true_eq_false,
      false_and, or_false, false_or]
    constructor
    · rintro (h | ⟨i, hi, rfl⟩)
      · exact Or.inl h
      · exact Or.inr ⟨i, hi, rfl⟩
    · rintro (h | ⟨i, hi, rfl⟩)
      · exact Or.inl h
      · exact Or.inr ⟨i, hi, rfl⟩

theorem pgd_write_tbl (c : Config) (pa i : Nat) : (pgd_write c pa i).tbl = Tbl.swapper_pg_dir := by
  unfold pgd_write; split <;> rfl

theorem pgd_write_idx (c : Config) (pa i : Nat) :
    (pgd_write c pa i).idx = c.wrap (c.pgd_index_PAGE_OFFSET + i) := by
  unfold pgd_write; split <;> rfl

theorem trampoline_pgd_write_tbl (c : Config) (pa : Nat) :
    (trampoline_pgd_write c pa).tbl = Tbl.trampoline_pg_dir := by
  unfold trampoline_pgd_write; split <;> rfl

theorem NUM_PGD_ENTRIES_lt (c : Config) : c.NUM_PGD_ENTRIES < 2 ^ c.XLEN :=
  lt_of_le_of_lt (Nat.div_le_self _ _) (neg_PAGE_OFFSET_lt c)

/-- The element of `swapper_pg_dir` written by iteration `i` of the top-level loop. -/
theorem read_swapper_pg_dir (c : Config) (pa : Nat) (s : VmState)
    (h : setup_vm c pa = Outcome.done s) (i : Nat) (hi : i < c.NUM_PGD_ENTRIES) :
    s.read Tbl.swapper_pg_dir (c.wrap (c.pgd_index_PAGE_OFFSET + i)) = (pgd_write c pa i).val := by
  apply read_of_mem s _ _ (pgd_write c pa i)
  · exact (mem_setup_vm_writes c pa s h _).mpr (Or.inr (Or.inr (Or.inl ⟨i, hi, rfl⟩)))
  · exact pgd_write_tbl c pa i
  · exact pgd_write_idx c pa i
  · intro w' hw' ht hx
    rcases (mem_setup_vm_writes c pa s h w').mp hw' with rfl | ⟨_, rfl⟩ | ⟨k, hk, rfl⟩ |
      ⟨_, k, hk, rfl⟩
    · rw [trampoline_pgd_write_tbl] at ht; cases ht
    · cases ht
    · rw [pgd_write_idx] at hx
      have hN := NUM_PGD_ENTRIES_lt c
      have : k = i := add_mod_inj _ _ _ _ (by omega) (by omega) hx
      rw [this]
    · cases ht

/-- The element of `swapper_pmd` written by iteration `j` of the PMD loop. -/
theorem read_swapper_pmd (c : Config) (pa : Nat) (s : VmState)
    (h : setup_vm c pa = Outcome.done s) (hf : c.PMD_FOLDED = false) (j : Nat)
    (hj : j < c.ARRAY_SIZE_swapper_pmd) :
    s.read Tbl.swapper_pmd j = (pmd_write c pa j).val := by
  apply read_of_mem s _ _ (pmd_write c pa j)
  · exact (mem_setup_vm_writes c pa s h _).mpr (Or.inr (Or.inr (Or.inr ⟨hf, j, hj, rfl⟩)))
  · rfl
  · rfl
  · intro w' hw' ht hx
    rcases (mem_setup_vm_writes c pa s h w').mp hw' with rfl | ⟨_, rfl⟩ | ⟨k, hk, rfl⟩ |
      ⟨_, k, hk, rfl⟩
    · rw [trampoline_pgd_write_tbl] at ht; cases ht
    · cases ht
    · rw [pgd_write_tbl] at ht; cases ht
    · have : k = j := hx
      rw [this]


/-- The frame stored in the leaf of chunk `k` is the chunk address, a multiple of the leaf
granule. -/
theorem leaf_target (c : Config) (hc : c.WF) (pa : Nat) (hpa : c.leaf_granule ∣ pa) (k : Nat) :
    c.PFN_DOWN (c.wrap (pa + k * c.leaf_granule)) * c.PAGE_SIZE =
        c.wrap (pa + k * c.leaf_granule) ∧
    c.leaf_granule ∣ c.wrap (pa + k * c.leaf_granule) := by
  have hGW : c.leaf_granule ∣ 2 ^ c.XLEN :=
    dvd_trans (leaf_dvd_PGDIR c hc) (PGDIR_SIZE_dvd_word c hc)
  have hd : c.leaf_granule ∣ c.wrap (pa + k * c.leaf_granule) :=
    (Nat.dvd_mod_iff hGW).mpr (Dvd.dvd.add hpa (Dvd.intro_left _ rfl))
  refine ⟨?_, hd⟩
  rw [PFN_DOWN_eq]
  exact Nat.div_mul_cancel (dvd_trans (PAGE_SIZE_dvd_leaf c hc) hd)

theorem setup_vm_done_aligned (c : Config) (pa : Nat) (s : VmState) (hc : c.WF)
    (h : setup_vm c pa = Outcome.done s) :
    c.PGDIR_SIZE ∣ c.PAGE_OFFSET ∧ c.leaf_granule ∣ pa ∧ c.leaf_granule ∣ c.PAGE_OFFSET := by
  obtain ⟨h1, h2⟩ := (setup_vm_done_iff c pa).mp ⟨s, h⟩
  rw [wrap_leaf_span c hc] at h2
  have hd := Nat.dvd_of_mod_eq_zero h1
  exact ⟨hd, Nat.dvd_of_mod_eq_zero h2, dvd_trans (leaf_dvd_PGDIR c hc) hd⟩

/-! ## The walk through `swapper_pg_dir` -/

theorem PTRS_PER_PMD_pos (c : Config) (hc : c.WF) (hf : c.PMD_FOLDED = false) :
    0 < c.PTRS_PER_PMD := by
  have h := hc.2.2.2.1
  simp only [hf, Bool.false_eq_true, if_false] at h
  rcases Nat.eq_zero_or_pos c.PTRS_PER_PMD with h0 | h0
  · have := PGDIR_SIZE_pos c
    rw [← h.2, h0] at this
    simp at this
  · exact h0

theorem ARRAY_SIZE_swapper_pmd_eq (c : Config) (hc : c.WF) (hf : c.PMD_FOLDED = false) :
    c.ARRAY_SIZE_swapper_pmd = c.PTRS_PER_PMD * c.NUM_PGD_ENTRIES := by
  have h := hc.2.2.2.1
  simp only [hf, Bool.false_eq_true, if_false] at h
  unfold Config.ARRAY_SIZE_swapper_pmd
  apply wrap_of_lt
  have hp := PMD_SIZE_pos c
  have hle : c.NUM_PGD_ENTRIES * c.PGDIR_SIZE ≤ c.neg_PAGE_OFFSET := Nat.div_mul_le_self _ _
  have hlt := neg_PAGE_OFFSET_lt c
  calc c.PTRS_PER_PMD * c.NUM_PGD_ENTRIES
      ≤ c.PTRS_PER_PMD * c.NUM_PGD_ENTRIES * c.PMD_SIZE := Nat.le_mul_of_pos_right _ hp
    _ = c.NUM_PGD_ENTRIES * c.PGDIR_SIZE := by rw [← h.2]; ring
    _ < 2 ^ c.XLEN := lt_of_le_of_lt hle hlt

/-- The frames of `swapper_pmd` are numbered without wrap-around. -/
theorem swapper_pmd_frame (c : Config) (hc : c.WF) (i : Nat) (hi : i < c.NUM_PGD_ENTRIES) :
    c.wrap (c.PFN_DOWN c.swapper_pmd_addr + i) = c.PFN_DOWN c.swapper_pmd_addr + i := by
  apply wrap_of_lt
  have h := hc.2.2.2.2.1
  have hP := PAGE_SIZE_pos c
  have h1 : c.PFN_DOWN c.swapper_pmd_addr ≤ c.swapper_pmd_addr := by
    rw [PFN_DOWN_eq]; exact Nat.div_le_self _ _
  have h2 : c.NUM_PGD_ENTRIES ≤ c.NUM_PGD_ENTRIES * c.PAGE_SIZE := Nat.le_mul_of_pos_right _ hP
  omega

theorem present_prot (c : Config) (hc : c.WF) (pfn : Nat) : (Pte.mk pfn c.prot).present c = true :=
  hc.2.2.2.2.2.1

theorem leaf_prot (c : Config) (hc : c.WF) (pfn : Nat) : (Pte.mk pfn c.prot).leaf c = true :=
  hc.2.2.2.2.2.2.1

theorem present_table (c : Config) (hc : c.WF) (pfn : Nat) :
    (Pte.mk pfn c._PAGE_TABLE).present c = true :=
  hc.2.2.2.2.2.2.2.1

theorem leaf_table_bits (c : Config) (hc : c.WF) (pfn : Nat) :
    (Pte.mk pfn c._PAGE_TABLE).leaf c = false :=
  hc.2.2.2.2.2.2.2.2

/-- The translation of an address whose top-level index is the one written by iteration `i`
of the top-level loop. -/
theorem walk_swapper_at (c : Config) (pa : Nat) (s : VmState) (hc : c.WF)
    (h : setup_vm c pa = Outcome.done s) (va i : Nat) (hi : i < c.NUM_PGD_ENTRIES)
    (hidx : (va >>> c.PGDIR_SHIFT) % c.PTRS_PER_PGD = c.wrap (c.pgd_index_PAGE_OFFSET + i)) :
    walk c s Tbl.swapper_pg_dir va = some (
      if c.PMD_FOLDED then
        c.PFN_DOWN (c.wrap (pa + i * c.PGDIR_SIZE)) * c.PAGE_SIZE + va % c.PGDIR_SIZE
      else
        c.PFN_DOWN (c.wrap (pa +
            (i * c.PTRS_PER_PMD + (va >>> c.PMD_SHIFT) % c.PTRS_PER_PMD) * c.PMD_SIZE)) *
          c.PAGE_SIZE + va % c.PMD_SIZE) := by
  obtain ⟨_, hGpa, _⟩ := setup_vm_done_aligned c pa s hc h
  unfold walk
  simp only []
  rw [hidx, read_swapper_pg_dir c pa s h i hi]
  cases hf : c.PMD_FOLDED
  · have hval : (pgd_write c pa i).val =
        ⟨c.PFN_DOWN c.swapper_pmd_addr + i, c._PAGE_TABLE⟩ := by
      simp [pgd_write, hf, pfn_pgd, swapper_pmd_frame c hc i hi]
    have hj : i * c.PTRS_PER_PMD + (va >>> c.PMD_SHIFT) % c.PTRS_PER_PMD <
        c.ARRAY_SIZE_swapper_pmd := by
      rw [ARRAY_SIZE_swapper_pmd_eq c hc hf]
      have hm := Nat.mod_lt (va >>> c.PMD_SHIFT) (PTRS_PER_PMD_pos c hc hf)
      calc i * c.PTRS_PER_PMD + (va >>> c.PMD_SHIFT) % c.PTRS_PER_PMD
          < i * c.PTRS_PER_PMD + c.PTRS_PER_PMD := by omega
        _ = c.PTRS_PER_PMD * (i + 1) := by ring
        _ ≤ c.PTRS_PER_PMD * c.NUM_PGD_ENTRIES := Nat.mul_le_mul_left _ hi
    have htab : pmd_table_at c s (c.PFN_DOWN c.swapper_pmd_addr + i) =
        some (fun j => s.read Tbl.swapper_pmd (i * c.PTRS_PER_PMD + j)) := by
      unfold pmd_table_at
      rw [if_pos ⟨Nat.le_add_right _ _, by omega⟩]
      simp
    rw [hval]
    simp only [present_table c hc, leaf_table_bits c hc, Bool.not_true, Bool.false_eq_true,
      if_false, htab]
    rw [read_swapper_pmd c pa s h hf _ hj]
    have hv2 : (pmd_write c pa
        (i * c.PTRS_PER_PMD + (va >>> c.PMD_SHIFT) % c.PTRS_PER_PMD)).val =
        ⟨c.PFN_DOWN (c.wrap (pa +
          (i * c.PTRS_PER_PMD + (va >>> c.PMD_SHIFT) % c.PTRS_PER_PMD) * c.PMD_SIZE)),
          c.prot⟩ := rfl
    rw [hv2]
    have hg : c.leaf_granule = c.PMD_SIZE := by simp [Config.leaf_granule, hf]
    have ht := leaf_target c hc pa hGpa
      (i * c.PTRS_PER_PMD + (va >>> c.PMD_SHIFT) % c.PTRS_PER_PMD)
    rw [hg] at ht
    have hal : c.PFN_DOWN (c.wrap (pa +
        (i * c.PTRS_PER_PMD + (va >>> c.PMD_SHIFT) % c.PTRS_PER_PMD) * c.PMD_SIZE)) *
        c.PAGE_SIZE % c.PMD_SIZE = 0 := by
      rw [ht.1]; exact Nat.mod_eq_zero_of_dvd ht.2
    simp only [present_prot c hc, leaf_prot c hc, Bool.not_true, Bool.false_eq_true, if_false,
      if_true, hal, ne_eq, not_true_eq_false]
  · have hval : (pgd_write c pa i).val =
        ⟨c.PFN_DOWN (c.wrap (pa + i * c.PGDIR_SIZE)), c.prot⟩ := by
      simp [pgd_write, hf, pfn_pgd]
    rw [hval]
    have hg : c.leaf_granule = c.PGDIR_SIZE := by simp [Config.leaf_granule, hf]
    have ht := leaf_target c hc pa hGpa i
    rw [hg] at ht
    have hal : c.PFN_DOWN (c.wrap (pa + i * c.PGDIR_SIZE)) * c.PAGE_SIZE % c.PGDIR_SIZE = 0 := by
      rw [ht.1]; exact Nat.mod_eq_zero_of_dvd ht.2
    simp only [present_prot c hc, leaf_prot c hc, Bool.not_true, Bool.false_eq_true, if_false,
      if_true, hal, ne_eq, not_true_eq_false]


theorem setup_vm_done_offset (c : Config) (pa : Nat) (s : VmState)
    (h : setup_vm c pa = Outcome.done s) : s.va_pa_offset = c.usub c.PAGE_OFFSET pa := by
  have := (setup_vm_state_offset c pa).1
  rw [h] at this
  exact this

/-- The addresses of the linear-map window do not wrap. -/
theorem window_no_wrap (c : Config) (hc : c.WF) (delta : Nat) (hd : delta < c.neg_PAGE_OFFSET) :
    c.PAGE_OFFSET + delta < 2 ^ c.XLEN := by
  rw [neg_PAGE_OFFSET_eq c hc] at hd
  split at hd
  · omega
  · omega

/-- The walk through `swapper_pg_dir` inside the linear-map window, when the window fits the
top-level table. -/
theorem walk_swapper_window (c : Config) (pa : Nat) (s : VmState) (hc : c.WF)
    (h : setup_vm c pa = Outcome.done s)
    (hfit : c.pgd_index_PAGE_OFFSET + c.NUM_PGD_ENTRIES ≤ c.PTRS_PER_PGD)
    (delta : Nat) (hd : delta < c.neg_PAGE_OFFSET) :
    walk c s Tbl.swapper_pg_dir (c.wrap (c.PAGE_OFFSET + delta)) = some (c.wrap (pa + delta)) := by
  obtain ⟨hG1, hGpa, hGpo⟩ := setup_vm_done_aligned c pa s hc h
  have ha : c.PAGE_OFFSET % c.PGDIR_SIZE = 0 := Nat.mod_eq_zero_of_dvd hG1
  have hW : 0 < 2 ^ c.XLEN := Nat.two_pow_pos _
  have hva : c.wrap (c.PAGE_OFFSET + delta) = c.PAGE_OFFSET + delta :=
    wrap_of_lt c _ (window_no_wrap c hc delta hd)
  have hG0 := PGDIR_SIZE_pos c
  have hi : delta / c.PGDIR_SIZE < c.NUM_PGD_ENTRIES := by
    apply Nat.div_lt_of_lt_mul
    rw [Nat.mul_comm, NUM_PGD_ENTRIES_mul c hc ha]
    exact hd
  obtain ⟨k, hk⟩ := hG1
  have hdiv : (c.PAGE_OFFSET + delta) / c.PGDIR_SIZE = k + delta / c.PGDIR_SIZE := by
    rw [hk, Nat.mul_add_div hG0]
  have hpgd : c.pgd_index_PAGE_OFFSET = k % c.PTRS_PER_PGD := by
    unfold Config.pgd_index_PAGE_OFFSET
    rw [Nat.shiftRight_eq_div_pow, ← PGDIR_SIZE_eq, hk, Nat.mul_div_cancel_left _ hG0]
  have hlt : c.pgd_index_PAGE_OFFSET + delta / c.PGDIR_SIZE < c.PTRS_PER_PGD := by omega
  have hPW : c.PTRS_PER_PGD ≤ 2 ^ c.XLEN :=
    le_trans (Nat.le_mul_of_pos_right _ hG0) hc.2.2.1
  have hidx : ((c.PAGE_OFFSET + delta) >>> c.PGDIR_SHIFT) % c.PTRS_PER_PGD =
      c.wrap (c.pgd_index_PAGE_OFFSET + delta / c.PGDIR_SIZE) := by
    rw [wrap_of_lt c _ (by omega), Nat.shiftRight_eq_div_pow, ← PGDIR_SIZE_eq, hdiv,
      Nat.add_mod, ← hpgd]
    rw [Nat.mod_eq_of_lt (a := delta / c.PGDIR_SIZE) (by omega)]
    exact Nat.mod_eq_of_lt hlt
  rw [hva, walk_swapper_at c pa s hc h _ _ hi hidx]
  congr 1
  cases hf : c.PMD_FOLDED
  · have hwf := hc.2.2.2.1
    simp only [hf, Bool.false_eq_true, if_false] at hwf ⊢
    have hg : c.leaf_granule = c.PMD_SIZE := by simp [Config.leaf_granule, hf]
    rw [hg] at hGpa hGpo
    have hP : c.PAGE_SIZE ∣ c.PMD_SIZE := ⟨_, hwf.1.symm⟩
    have hG2W : c.PMD_SIZE ∣ 2 ^ c.XLEN :=
      dvd_trans ⟨c.PTRS_PER_PMD, by rw [← hwf.2, Nat.mul_comm]⟩ (PGDIR_SIZE_dvd_word c hc)
    have hG2 := PMD_SIZE_pos c
    have hj : delta / c.PGDIR_SIZE * c.PTRS_PER_PMD +
        ((c.PAGE_OFFSET + delta) >>> c.PMD_SHIFT) % c.PTRS_PER_PMD = delta / c.PMD_SIZE := by
      rw [Nat.shiftRight_eq_div_pow, ← PMD_SIZE_eq]
      have e1 : (c.PAGE_OFFSET + delta) / c.PMD_SIZE =
          c.PTRS_PER_PMD * k + delta / c.PMD_SIZE := by
        rw [hk, ← hwf.2]
        have : c.PTRS_PER_PMD * c.PMD_SIZE * k + delta =
            c.PMD_SIZE * (c.PTRS_PER_PMD * k) + delta := by ring
        rw [this, Nat.mul_add_div hG2]
      rw [e1, Nat.mul_add_mod, ← hwf.2, Nat.mul_comm c.PTRS_PER_PMD c.PMD_SIZE,
        ← Nat.div_div_eq_div_mul]
      exact Nat.div_add_mod' _ _
    rw [hj, PFN_DOWN_eq]
    exact leaf_phys _ _ _ _ _ _ hW hP hG2W hG2 hGpa hGpo
  · have hwf := hc.2.2.2.1
    simp only [hf, if_true] at hwf ⊢
    have hg : c.leaf_granule = c.PGDIR_SIZE := by simp [Config.leaf_granule, hf]
    rw [hg] at hGpa hGpo
    have hP : c.PAGE_SIZE ∣ c.PGDIR_SIZE := ⟨_, hwf.symm⟩
    rw [PFN_DOWN_eq]
    exact leaf_phys _ _ _ _ _ _ hW hP (PGDIR_SIZE_dvd_word c hc) hG0 hGpa hGpo


theorem setup_vm_eq_done_state (c : Config) (pa : Nat) (hr : (setup_vm c pa).returns = true) :
    setup_vm c pa = Outcome.done (setup_vm c pa).state := by
  cases hs : setup_vm c pa with
  | bug s => rw [hs] at hr; cases hr
  | done s => rfl

theorem setup_vm_bug_writes (c : Config) (pa : Nat) (s : VmState)
    (h : setup_vm c pa = Outcome.bug s) : s.writes = [] := by
  unfold setup_vm at h
  by_cases h1 : c.PAGE_OFFSET % c.PGDIR_SIZE = 0
  · by_cases h2 : pa % c.wrap (c.PAGE_SIZE * c.PTRS_PER_PTE) = 0
    · simp [h1, h2] at h
    · simp [h1, h2, VmState.init] at h
      rw [← h]
  · simp [h1, VmState.init] at h
    rw [← h]

/-- The leaf stores of the permanent mapping, in program order. -/
theorem permanent_leaf_writes_eq (c : Config) (pa : Nat) (s : VmState)
    (h : setup_vm c pa = Outcome.done s) :
    permanent_leaf_writes c s = (List.range c.leaf_count).map (fun k =>
      (⟨c.leaf_table, c.leaf_index k,
        ⟨c.PFN_DOWN (c.wrap (pa + k * c.leaf_granule)), c.prot⟩⟩ : Write)) := by
  unfold permanent_leaf_writes
  rw [setup_vm_writes c pa s h]
  cases hf : c.PMD_FOLDED
  · have e1 : ((List.range c.NUM_PGD_ENTRIES).map (pgd_write c pa)).filter
        (fun w => decide (w.tbl = Tbl.swapper_pmd)) = [] := by
      rw [List.filter_eq_nil_iff]
      intro w hw
      obtain ⟨i, _, rfl⟩ := List.mem_map.mp hw
      rw [pgd_write_tbl]
      decide
    have e2 : ((List.range c.ARRAY_SIZE_swapper_pmd).map (pmd_write c pa)).filter
        (fun w => decide (w.tbl = Tbl.swapper_pmd)) =
        (List.range c.ARRAY_SIZE_swapper_pmd).map (pmd_write c pa) := by
      rw [List.filter_eq_self]
      intro w hw
      obtain ⟨i, _, rfl⟩ := List.mem_map.mp hw
      rfl
    simp only [Bool.false_eq_true, if_false, Config.leaf_table, Config.leaf_count,
      Config.leaf_index, Config.leaf_granule, hf, List.filter_cons, List.filter_append, e1, e2,
      trampoline_pgd_write, trampoline_pmd_write]
    simp [pmd_write, pfn_pmd]
  · have e1 : ((List.range c.NUM_PGD_ENTRIES).map (pgd_write c pa)).filter
        (fun w => decide (w.tbl = Tbl.swapper_pg_dir)) =
        (List.range c.NUM_PGD_ENTRIES).map (pgd_write c pa) := by
      rw [List.filter_eq_self]
      intro w hw
      obtain ⟨i, _, rfl⟩ := List.mem_map.mp hw
      rw [pgd_write_tbl]
      decide
    simp only [if_true, Config.leaf_table, Config.leaf_count, Config.leaf_index,
      Config.leaf_granule, hf, List.filter_cons, e1, trampoline_pgd_write]
    simp [pgd_write, pfn_pgd, hf]


/-! ## The claims on `setup_vm` -/

/-- C1 (amended): for the tables built by `setup_vm` (both alignment checks passed), when the
linear-map window fits the top-level table, i.e.
`(PAGE_OFFSET >> PGDIR_SHIFT) % PTRS_PER_PGD + (-PAGE_OFFSET)/PGDIR_SIZE <= PTRS_PER_PGD`,
for every `delta < -PAGE_OFFSET` the walk of `swapper_pg_dir` at the virtual address
`pa + va_pa_offset + delta = PAGE_OFFSET + delta` resolves to the physical address
`pa + delta` (all sums modulo the word width). -/
theorem swapper_pg_dir_translates_window (c : Config) (pa : Nat) (s : VmState) (hc : c.WF)
    (h : setup_vm c pa = Outcome.done s)
    (hfit : c.pgd_index_PAGE_OFFSET + c.NUM_PGD_ENTRIES ≤ c.PTRS_PER_PGD)
    (delta : Nat) (hd : delta < c.neg_PAGE_OFFSET) :
    c.wrap (pa + s.va_pa_offset + delta) = c.wrap (c.PAGE_OFFSET + delta) ∧
    walk c s Tbl.swapper_pg_dir (c.wrap (c.PAGE_OFFSET + delta)) = some (c.wrap (pa + delta)) := by
  refine ⟨?_, walk_swapper_window c pa s hc h hfit delta hd⟩
  rw [setup_vm_done_offset c pa s h]
  unfold Config.wrap
  rw [Nat.add_mod, usub_add_cancel, ← Nat.add_mod]

/-- C1 (witness): `pa = 0x80200000`, `PAGE_OFFSET = 0xFFFFFFE000000000`, probed at
`delta = 0x12345678`. -/
theorem swapper_pg_dir_translates_window_witness :
    boot_cfg.wrap (0x80200000 + (setup_vm boot_cfg 0x80200000).state.va_pa_offset + 0x12345678)
      = boot_cfg.wrap (boot_cfg.PAGE_OFFSET + 0x12345678) ∧
    walk boot_cfg (setup_vm boot_cfg 0x80200000).state Tbl.swapper_pg_dir
      (boot_cfg.wrap (boot_cfg.PAGE_OFFSET + 0x12345678)) =
      some (boot_cfg.wrap (0x80200000 + 0x12345678)) :=
  swapper_pg_dir_translates_window boot_cfg 0x80200000 _ (by decide)
    (setup_vm_eq_done_state boot_cfg 0x80200000 (by rw [setup_vm_returns_eq]; decide))
    (by decide) 0x12345678 (by decide)

/-- C1 (counterexample): `PAGE_OFFSET = 0xFFFFFF0000000000` and `pa = 0x80200000` pass both
alignment checks and `delta = 0x8000000000` is below `-PAGE_OFFSET`, yet the walk of
`swapper_pg_dir` at `PAGE_OFFSET + delta` resolves to `pa`, not to `pa + delta`: the address has
top-level index 0, the entry written for `delta = 0`. -/
theorem swapper_pg_dir_translates_linear_map_counterexample :
    (setup_vm wide_cfg 0x80200000).returns = true ∧
    0x8000000000 < wide_cfg.neg_PAGE_OFFSET ∧
    walk wide_cfg (setup_vm wide_cfg 0x80200000).state Tbl.swapper_pg_dir
      (wide_cfg.wrap (wide_cfg.PAGE_OFFSET + 0x8000000000)) = some 0x80200000 ∧
    ¬ walk wide_cfg (setup_vm wide_cfg 0x80200000).state Tbl.swapper_pg_dir
      (wide_cfg.wrap (wide_cfg.PAGE_OFFSET + 0x8000000000)) =
        some (wide_cfg.wrap (0x80200000 + 0x8000000000)) := by
  have hr : (setup_vm wide_cfg 0x80200000).returns = true := by
    rw [setup_vm_returns_eq]; decide
  have hw := walk_swapper_at wide_cfg 0x80200000 _ (by decide)
    (setup_vm_eq_done_state wide_cfg 0x80200000 hr)
    (wide_cfg.wrap (wide_cfg.PAGE_OFFSET + 0x8000000000)) 0 (by decide) (by decide)
  have hv : walk wide_cfg (setup_vm wide_cfg 0x80200000).state Tbl.swapper_pg_dir
      (wide_cfg.wrap (wide_cfg.PAGE_OFFSET + 0x8000000000)) = some 0x80200000 := by
    rw [hw]; decide
  refine ⟨hr, by decide, hv, ?_⟩
  rw [hv]
  decide

/-- C3 (amended): `setup_vm` runs to completion if and only if `PAGE_OFFSET` is a multiple of
the top-level granule `PGDIR_SIZE` and `pa` is a multiple of `PAGE_SIZE * PTRS_PER_PTE` (the
span of one last-level table, 2 MiB for Sv39); otherwise it halts at a `BUG_ON`. -/
theorem setup_vm_returns_iff_aligned (c : Config) (pa : Nat) :
    (setup_vm c pa).returns = true ↔
      c.PAGE_OFFSET % c.PGDIR_SIZE = 0 ∧ pa % c.wrap (c.PAGE_SIZE * c.PTRS_PER_PTE) = 0 := by
  rw [setup_vm_returns_eq]
  simp

/-- C3 (counterexample): with the Sv39 constants `setup_vm` completes for the load address
`0x80200000`, which is not a multiple of `PGDIR_SIZE = 0x40000000`. -/
theorem setup_vm_pgdir_aligned_counterexample :
    boot_cfg.PGDIR_SIZE = 0x40000000 ∧
    ¬ ((setup_vm boot_cfg 0x80200000).returns = true ↔
      boot_cfg.PAGE_OFFSET % boot_cfg.PGDIR_SIZE = 0 ∧ 0x80200000 % boot_cfg.PGDIR_SIZE = 0) := by
  rw [setup_vm_returns_eq]
  decide


theorem leaf_count_lt (c : Config) (hc : c.WF) (ha : c.PAGE_OFFSET % c.PGDIR_SIZE = 0)
    (k : Nat) (hk : k < c.leaf_count) : k * c.leaf_granule < 2 ^ c.XLEN := by
  have h1 := leaf_count_mul c hc ha
  have h2 := neg_PAGE_OFFSET_lt c
  have h3 : k * c.leaf_granule ≤ c.leaf_count * c.leaf_granule :=
    Nat.mul_le_mul_right _ hk.le
  omega

/-- C9 (amended): the permanent mapping populated by `setup_vm` has exactly one leaf entry per
leaf-granule chunk of the linear-map window: the leaf stores are, in order, one per
`k < leaf_count`, into consecutive distinct entries of the leaf table, entry `k` targeting the
chunk at `pa + k*G` (`G` the leaf granule), distinct entries target distinct chunks, and the
number of leaf entries is the size of the window `-PAGE_OFFSET` divided by `G`, whatever the
size of the physical span that holds the kernel image. -/
theorem permanent_mapping_one_leaf_per_chunk (c : Config) (pa : Nat) (s : VmState) (hc : c.WF)
    (h : setup_vm c pa = Outcome.done s) :
    permanent_leaf_writes c s = (List.range c.leaf_count).map (fun k =>
      (⟨c.leaf_table, c.leaf_index k,
        ⟨c.PFN_DOWN (c.wrap (pa + k * c.leaf_granule)), c.prot⟩⟩ : Write)) ∧
    (∀ k, k < c.leaf_count →
      c.PFN_DOWN (c.wrap (pa + k * c.leaf_granule)) * c.PAGE_SIZE =
        c.wrap (pa + k * c.leaf_granule)) ∧
    (∀ k k', k < c.leaf_count → k' < c.leaf_count →
      c.wrap (pa + k * c.leaf_granule) = c.wrap (pa + k' * c.leaf_granule) → k = k') ∧
    (∀ k k', k < c.leaf_count → k' < c.leaf_count → c.leaf_index k = c.leaf_index k' → k = k') ∧
    (permanent_leaf_writes c s).length * c.leaf_granule = c.neg_PAGE_OFFSET := by
  obtain ⟨hG1, hGpa, _⟩ := setup_vm_done_aligned c pa s hc h
  have ha : c.PAGE_OFFSET % c.PGDIR_SIZE = 0 := Nat.mod_eq_zero_of_dvd hG1
  have hG0 := leaf_granule_pos c
  have hGW : c.leaf_granule ∣ 2 ^ c.XLEN :=
    dvd_trans (leaf_dvd_PGDIR c hc) (PGDIR_SIZE_dvd_word c hc)
  have hlist := permanent_leaf_writes_eq c pa s h
  refine ⟨hlist, ?_, ?_, ?_, ?_⟩
  · intro k _
    rw [PFN_DOWN_eq]
    apply Nat.div_mul_cancel
    apply dvd_trans (PAGE_SIZE_dvd_leaf c hc)
    exact (Nat.dvd_mod_iff hGW).mpr (Dvd.dvd.add hGpa (Dvd.intro_left _ rfl))
  · intro k k' hk hk' he
    have := add_mod_inj _ pa _ _ (leaf_count_lt c hc ha k hk) (leaf_count_lt c hc ha k' hk') he
    exact Nat.eq_of_mul_eq_mul_right hG0 this
  · intro k k' hk hk' he
    unfold Config.leaf_index at he
    split at he
    · rename_i hf
      have hN : c.leaf_count = c.NUM_PGD_ENTRIES := by simp [Config.leaf_count, hf]
      have hlt := NUM_PGD_ENTRIES_lt c
      exact add_mod_inj _ _ _ _ (by omega) (by omega) he
    · exact he
  · rw [hlist, List.length_map, List.length_range]
    exact leaf_count_mul c hc ha

/-- C9 (witness): Sv39 with `PAGE_OFFSET = 0xFFFFFFE000000000` and `pa = 0x80200000`. -/
theorem permanent_mapping_one_leaf_per_chunk_witness :
    (permanent_leaf_writes boot_cfg (setup_vm boot_cfg 0x80200000).state).length *
      boot_cfg.leaf_granule = boot_cfg.neg_PAGE_OFFSET :=
  (permanent_mapping_one_leaf_per_chunk boot_cfg 0x80200000 _ (by decide)
    (setup_vm_eq_done_state boot_cfg 0x80200000
      (by rw [setup_vm_returns_eq]; decide))).2.2.2.2

/-- C9 (counterexample): in the discovery scenario the span that holds the kernel image,
`(0x80200000, 0x7FE00000)`, needs 1023 leaf granules, while `setup_vm` writes 65536 leaf
entries. -/
theorem permanent_mapping_span_count_counterexample :
    holds_image_end boot_cfg (__pa boot_cfg boot_offset boot_end) ⟨0x80200000, 0x7FE00000⟩ = true ∧
    (0x7FE00000 + boot_cfg.leaf_granule - 1) / boot_cfg.leaf_granule = 1023 ∧
    (permanent_leaf_writes boot_cfg (setup_vm boot_cfg 0x80200000).state).length = 65536 ∧
    ¬ (permanent_leaf_writes boot_cfg (setup_vm boot_cfg 0x80200000).state).length =
      (0x7FE00000 + boot_cfg.leaf_granule - 1) / boot_cfg.leaf_granule := by
  have hl : (permanent_leaf_writes boot_cfg (setup_vm boot_cfg 0x80200000).state).length
      = 65536 := by
    rw [permanent_leaf_writes_eq boot_cfg 0x80200000 _
      (setup_vm_eq_done_state boot_cfg 0x80200000 (by rw [setup_vm_returns_eq]; decide)),
      List.length_map, List.length_range]
    decide
  refine ⟨by decide, by decide, hl, ?_⟩
  rw [hl]
  decide

/-- C10: every entry stored by `setup_vm` is either a leaf carrying the attribute bits
`PAGE_KERNEL | _PAGE_EXEC`, stored in `swapper_pmd` or `trampoline_pmd` (or in one of the two
top-level tables when the PMD level is folded), or a non-leaf entry carrying `_PAGE_TABLE`,
stored in a top-level table of the unfolded configuration and pointing to the next level: a
page of `swapper_pmd`, or `trampoline_pmd`. -/
theorem setup_vm_uniform_attributes (c : Config) (pa : Nat) (w : Write) (hc : c.WF)
    (hw : w ∈ (setup_vm c pa).state.writes) :
    (w.val.leaf c = true ∧ w.val.prot = c.prot ∧
      (w.tbl = Tbl.swapper_pmd ∨ w.tbl = Tbl.trampoline_pmd ∨
        (c.PMD_FOLDED = true ∧ (w.tbl = Tbl.swapper_pg_dir ∨ w.tbl = Tbl.trampoline_pg_dir)))) ∨
    (w.val.leaf c = false ∧ w.val.prot = c._PAGE_TABLE ∧ c.PMD_FOLDED = false ∧
      ((w.tbl = Tbl.swapper_pg_dir ∧
          ∃ i, i < c.NUM_PGD_ENTRIES ∧ w.val.pfn = c.wrap (c.PFN_DOWN c.swapper_pmd_addr + i)) ∨
        (w.tbl = Tbl.trampoline_pg_dir ∧ w.val.pfn = c.PFN_DOWN c.trampoline_pmd_addr))) := by
  cases hs : setup_vm c pa with
  | bug s =>
    rw [hs] at hw
    simp only [Outcome.state] at hw
    rw [setup_vm_bug_writes c pa s hs] at hw
    cases hw
  | done s =>
    rw [hs] at hw
    simp only [Outcome.state] at hw
    rcases (mem_setup_vm_writes c pa s hs w).mp hw with rfl | ⟨hf, rfl⟩ | ⟨i, hi, rfl⟩ |
      ⟨hf, i, _, rfl⟩
    · by_cases hf : c.PMD_FOLDED = true
      · left
        have e : trampoline_pgd_write c pa =
            ⟨Tbl.trampoline_pg_dir, c.pgd_index_PAGE_OFFSET, ⟨c.PFN_DOWN pa, c.prot⟩⟩ := by
          simp [trampoline_pgd_write, hf, pfn_pgd]
        rw [e]
        exact ⟨leaf_prot c hc _, rfl, Or.inr (Or.inr ⟨hf, Or.inr rfl⟩)⟩
      · right
        have e : trampoline_pgd_write c pa = ⟨Tbl.trampoline_pg_dir, c.pgd_index_PAGE_OFFSET,
            ⟨c.PFN_DOWN c.trampoline_pmd_addr, c._PAGE_TABLE⟩⟩ := by
          simp [trampoline_pgd_write, hf, pfn_pgd]
        rw [e]
        exact ⟨leaf_table_bits c hc _, rfl, by simpa using hf, Or.inr ⟨rfl, rfl⟩⟩
    · left
      exact ⟨leaf_prot c hc _, rfl, Or.inr (Or.inl rfl)⟩
    · by_cases hf : c.PMD_FOLDED = true
      · left
        have e : pgd_write c pa i = ⟨Tbl.swapper_pg_dir, c.wrap (c.pgd_index_PAGE_OFFSET + i),
            ⟨c.PFN_DOWN (c.wrap (pa + i * c.PGDIR_SIZE)), c.prot⟩⟩ := by
          simp [pgd_write, hf, pfn_pgd]
        rw [e]
        exact ⟨leaf_prot c hc _, rfl, Or.inr (Or.inr ⟨hf, Or.inl rfl⟩)⟩
      · right
        have e : pgd_write c pa i = ⟨Tbl.swapper_pg_dir, c.wrap (c.pgd_index_PAGE_OFFSET + i),
            ⟨c.wrap (c.PFN_DOWN c.swapper_pmd_addr + i), c._PAGE_TABLE⟩⟩ := by
          simp [pgd_write, hf, pfn_pgd]
        rw [e]
        exact ⟨leaf_table_bits c hc _, rfl, by simpa using hf, Or.inl ⟨rfl, i, hi, rfl⟩⟩
    · left
      exact ⟨leaf_prot c hc _, rfl, Or.inl rfl⟩


/-- C10 (witness): the store `trampoline_pmd[0]` for Sv39 and `pa = 0x80200000`. -/
theorem setup_vm_uniform_attributes_witness :
    ((Write.mk Tbl.trampoline_pmd 0 (Pte.mk 0x80200 0xCF)).val.leaf boot_cfg = true ∧
      (Write.mk Tbl.trampoline_pmd 0 (Pte.mk 0x80200 0xCF)).val.prot = boot_cfg.prot ∧
      ((Write.mk Tbl.trampoline_pmd 0 (Pte.mk 0x80200 0xCF)).tbl = Tbl.swapper_pmd ∨
        (Write.mk Tbl.trampoline_pmd 0 (Pte.mk 0x80200 0xCF)).tbl = Tbl.trampoline_pmd ∨
        (boot_cfg.PMD_FOLDED = true ∧
          ((Write.mk Tbl.trampoline_pmd 0 (Pte.mk 0x80200 0xCF)).tbl = Tbl.swapper_pg_dir ∨
            (Write.mk Tbl.trampoline_pmd 0 (Pte.mk 0x80200 0xCF)).tbl =
              Tbl.trampoline_pg_dir)))) ∨
    ((Write.mk Tbl.trampoline_pmd 0 (Pte.mk 0x80200 0xCF)).val.leaf boot_cfg = false ∧
      (Write.mk Tbl.trampoline_pmd 0 (Pte.mk 0x80200 0xCF)).val.prot = boot_cfg._PAGE_TABLE ∧
      boot_cfg.PMD_FOLDED = false ∧
      (((Write.mk Tbl.trampoline_pmd 0 (Pte.mk 0x80200 0xCF)).tbl = Tbl.swapper_pg_dir ∧
          ∃ i, i < boot_cfg.NUM_PGD_ENTRIES ∧
            (Write.mk Tbl.trampoline_pmd 0 (Pte.mk 0x80200 0xCF)).val.pfn =
              boot_cfg.wrap (boot_cfg.PFN_DOWN boot_cfg.swapper_pmd_addr + i)) ∨
        ((Write.mk Tbl.trampoline_pmd 0 (Pte.mk 0x80200 0xCF)).tbl = Tbl.trampoline_pg_dir ∧
          (Write.mk Tbl.trampoline_pmd 0 (Pte.mk 0x80200 0xCF)).val.pfn =
            boot_cfg.PFN_DOWN boot_cfg.trampoline_pmd_addr))) :=
  setup_vm_uniform_attributes boot_cfg 0x80200000 _ (by decide)
    ((mem_setup_vm_writes boot_cfg 0x80200000 _
      (setup_vm_eq_done_state boot_cfg 0x80200000 (by rw [setup_vm_returns_eq]; decide)) _).mpr
      (Or.inr (Or.inl ⟨rfl, by decide⟩)))

/-! ## Frame accessors -/

theorem PAGE_SIZE_dvd_word (c : Config) (hps : c.PAGE_SHIFT < c.XLEN) :
    c.PAGE_SIZE ∣ 2 ^ c.XLEN := by
  rw [PAGE_SIZE_eq]
  exact Nat.pow_dvd_pow 2 hps.le

theorem PFN_UP_eq (c : Config) (x : Nat) (h : x + c.PAGE_SIZE ≤ 2 ^ c.XLEN) :
    c.PFN_UP x = (x + c.PAGE_SIZE - 1) / c.PAGE_SIZE := by
  have hP := PAGE_SIZE_pos c
  unfold Config.PFN_UP
  rw [wrap_of_lt c _ (by omega), Nat.shiftRight_eq_div_pow, ← PAGE_SIZE_eq]

/-- Rounding up to a multiple of `P`. -/
theorem ceil_div_spec (P x : Nat) (hP : 0 < P) :
    x ≤ (x + P - 1) / P * P ∧ (∀ f, x ≤ f * P → (x + P - 1) / P ≤ f) ∧
    (x % P = 0 → (x + P - 1) / P = x / P) ∧ (x % P ≠ 0 → (x + P - 1) / P = x / P + 1) := by
  have hdm := Nat.div_add_mod x P
  have hm := Nat.mod_lt x hP
  have hc0 : x % P = 0 → (x + P - 1) / P = x / P := by
    intro h0
    have e : x + P - 1 = (P - 1) + P * (x / P) := by omega
    rw [e, Nat.add_mul_div_left _ _ hP, Nat.div_eq_of_lt (by omega), Nat.zero_add]
  have hc1 : x % P ≠ 0 → (x + P - 1) / P = x / P + 1 := by
    intro h1
    have e : x + P - 1 = (x % P - 1) + P * (x / P + 1) := by
      rw [Nat.mul_add, Nat.mul_one]; omega
    rw [e, Nat.add_mul_div_left _ _ hP, Nat.div_eq_of_lt (by omega), Nat.zero_add]
  refine ⟨?_, ?_, hc0, hc1⟩
  · by_cases h0 : x % P = 0
    · rw [hc0 h0, Nat.mul_comm]; omega
    · rw [hc1 h0, Nat.add_mul, Nat.one_mul, Nat.mul_comm]; omega
  · intro f hf
    by_cases h0 : x % P = 0
    · rw [hc0 h0]
      exact (Nat.div_le_iff_le_mul_add_pred hP).mpr (by rw [Nat.mul_comm]; omega)
    · rw [hc1 h0]
      have : x / P < f := by
        apply (Nat.div_lt_iff_lt_mul hP).mpr
        rcases Nat.lt_or_ge x (f * P) with h | h
        · exact h
        · have hx : x = f * P := le_antisymm hf h
          rw [hx, Nat.mul_mod_left] at h0
          exact absurd rfl h0
      omega

theorem PFN_PHYS_eq (c : Config) (x : Nat) : c.PFN_PHYS x = x * c.PAGE_SIZE % 2 ^ c.XLEN := by
  rw [PAGE_SIZE_eq, Config.PFN_PHYS, Config.wrap, Nat.shiftLeft_eq]

/-- The span of `memblock_set_node` for a region that reaches the first page boundary at or
above its base: from that boundary to the last page boundary at or below its end. -/
theorem set_node_span_eq (c : Config) (reg : Region) (hps : c.PAGE_SHIFT < c.XLEN)
    (hend : reg.base + reg.size < 2 ^ c.XLEN)
    (hwhole : (reg.base + c.PAGE_SIZE - 1) / c.PAGE_SIZE ≤ (reg.base + reg.size) / c.PAGE_SIZE) :
    set_node_span c reg =
      ((reg.base + c.PAGE_SIZE - 1) / c.PAGE_SIZE * c.PAGE_SIZE,
        (reg.base + reg.size) / c.PAGE_SIZE * c.PAGE_SIZE -
          (reg.base + c.PAGE_SIZE - 1) / c.PAGE_SIZE * c.PAGE_SIZE) := by
  have hP := PAGE_SIZE_pos c
  obtain ⟨hc1, _, _, _⟩ := ceil_div_spec c.PAGE_SIZE reg.base hP
  have hfl : (reg.base + reg.size) / c.PAGE_SIZE * c.PAGE_SIZE ≤ reg.base + reg.size :=
    Nat.div_mul_le_self _ _
  have hmono : (reg.base + c.PAGE_SIZE - 1) / c.PAGE_SIZE * c.PAGE_SIZE ≤
      (reg.base + reg.size) / c.PAGE_SIZE * c.PAGE_SIZE := Nat.mul_le_mul_right _ hwhole
  obtain ⟨w, hw⟩ := PAGE_SIZE_dvd_word c hps
  have hfw : (reg.base + reg.size) / c.PAGE_SIZE < w := by
    apply (Nat.div_lt_iff_lt_mul hP).mpr
    rw [Nat.mul_comm, ← hw]; exact hend
  have hbw : reg.base + c.PAGE_SIZE ≤ 2 ^ c.XLEN := by
    have h1 : (reg.base + c.PAGE_SIZE - 1) / c.PAGE_SIZE + 1 ≤ w := by omega
    have h2 : ((reg.base + c.PAGE_SIZE - 1) / c.PAGE_SIZE + 1) * c.PAGE_SIZE ≤ w * c.PAGE_SIZE :=
      Nat.mul_le_mul_right _ h1
    rw [Nat.add_mul, Nat.one_mul, Nat.mul_comm w, ← hw] at h2
    omega
  have hup : memblock_region_memory_base_pfn c reg =
      (reg.base + c.PAGE_SIZE - 1) / c.PAGE_SIZE := PFN_UP_eq c _ hbw
  have hdown : memblock_region_memory_end_pfn c reg = (reg.base + reg.size) / c.PAGE_SIZE := by
    unfold memblock_region_memory_end_pfn
    rw [wrap_of_lt c _ hend, PFN_DOWN_eq]
  have hlt : (reg.base + reg.size) / c.PAGE_SIZE < 2 ^ c.XLEN :=
    lt_of_le_of_lt (Nat.div_le_self _ _) hend
  unfold set_node_span
  rw [hup, hdown, usub_of_le c _ _ hwhole, wrap_of_lt c _ (by omega), PFN_PHYS_eq, PFN_PHYS_eq,
    Nat.mod_eq_of_lt (by omega), Nat.sub_mul, Nat.mod_eq_of_lt (by omega)]

/-- The second loop of `setup_bootmem` passes `set_node_span` of every installed region. -/
theorem setup_bootmem_set_node_calls (c : Config) (vo : Nat) (memory : List Region)
    (_end : Nat) (s s' : BootState) (h : setup_bootmem c vo memory _end s = Outcome.done s')
    (reg : Region) (hr : reg ∈ memory) :
    Call.memblock_set_node (set_node_span c reg).1 (set_node_span c reg).2 0 ∈ s'.calls := by
  unfold setup_bootmem at h
  simp only [] at h
  by_cases h0 : (memory.foldl (setup_bootmem_find c (__pa c vo _end)) (0, s.calls)).1 = 0
  · simp [h0] at h
  · simp only [h0, if_false, Outcome.done.injEq] at h
    subst h
    simp only [setup_bootmem_node_calls]
    apply List.mem_append_right
    exact List.mem_map.mpr ⟨reg, hr, rfl⟩

/-- C18 (amended): for every installed memory region `(base, size)` inside the address space,
the span that `setup_bootmem` passes to `memblock_set_node`, starting at
`PFN_PHYS(PFN_UP(base))` with length `PFN_PHYS(PFN_DOWN(base+size) - PFN_UP(base))`, is
contained in `[base, base+size)` provided the region reaches the first page boundary at or
above its base (`ceil(base/PAGE_SIZE) <= floor((base+size)/PAGE_SIZE)`, so that the length
subtraction does not underflow); it equals the region exactly when `base` and `size` are
page-aligned. -/
theorem set_node_span_inside_region (c : Config) (reg : Region) (hps : c.PAGE_SHIFT < c.XLEN)
    (hend : reg.base + reg.size < 2 ^ c.XLEN) :
    (∀ (vo : Nat) (memory : List Region) (e : Nat) (s s' : BootState),
      setup_bootmem c vo memory e s = Outcome.done s' → reg ∈ memory →
      Call.memblock_set_node (set_node_span c reg).1 (set_node_span c reg).2 0 ∈ s'.calls) ∧
    ((reg.base + c.PAGE_SIZE - 1) / c.PAGE_SIZE ≤ (reg.base + reg.size) / c.PAGE_SIZE →
      c.usub (memblock_region_memory_end_pfn c reg) (memblock_region_memory_base_pfn c reg) =
        memblock_region_memory_end_pfn c reg - memblock_region_memory_base_pfn c reg ∧
      reg.base ≤ (set_node_span c reg).1 ∧
      (set_node_span c reg).1 + (set_node_span c reg).2 ≤ reg.base + reg.size) ∧
    (set_node_span c reg = (reg.base, reg.size) ↔
      reg.base % c.PAGE_SIZE = 0 ∧ reg.size % c.PAGE_SIZE = 0) := by
  have hP := PAGE_SIZE_pos c
  obtain ⟨hc1, _, hc0, hcn⟩ := ceil_div_spec c.PAGE_SIZE reg.base hP
  have hfl : (reg.base + reg.size) / c.PAGE_SIZE * c.PAGE_SIZE ≤ reg.base + reg.size :=
    Nat.div_mul_le_self _ _
  refine ⟨fun vo memory e s s' h hr => setup_bootmem_set_node_calls c vo memory e s s' h reg hr,
    ?_, ?_⟩
  · intro hwhole
    have hmono : (reg.base + c.PAGE_SIZE - 1) / c.PAGE_SIZE * c.PAGE_SIZE ≤
        (reg.base + reg.size) / c.PAGE_SIZE * c.PAGE_SIZE := Nat.mul_le_mul_right _ hwhole
    have hspan := set_node_span_eq c reg hps hend hwhole
    obtain ⟨w, hw⟩ := PAGE_SIZE_dvd_word c hps
    have hbw : reg.base + c.PAGE_SIZE ≤ 2 ^ c.XLEN := by
      have hfw : (reg.base + reg.size) / c.PAGE_SIZE < w := by
        apply (Nat.div_lt_iff_lt_mul hP).mpr
        rw [Nat.mul_comm, ← hw]; exact hend
      have h1 : (reg.base + c.PAGE_SIZE - 1) / c.PAGE_SIZE + 1 ≤ w := by omega
      have h2 : ((reg.base + c.PAGE_SIZE - 1) / c.PAGE_SIZE + 1) * c.PAGE_SIZE ≤
          w * c.PAGE_SIZE := Nat.mul_le_mul_right _ h1
      rw [Nat.add_mul, Nat.one_mul, Nat.mul_comm w, ← hw] at h2
      omega
    have hup : memblock_region_memory_base_pfn c reg =
        (reg.base + c.PAGE_SIZE - 1) / c.PAGE_SIZE := PFN_UP_eq c _ hbw
    have hdown : memblock_region_memory_end_pfn c reg = (reg.base + reg.size) / c.PAGE_SIZE := by
      unfold memblock_region_memory_end_pfn
      rw [wrap_of_lt c _ hend, PFN_DOWN_eq]
    have hlt : (reg.base + reg.size) / c.PAGE_SIZE < 2 ^ c.XLEN :=
      lt_of_le_of_lt (Nat.div_le_self _ _) hend
    refine ⟨?_, ?_, ?_⟩
    · rw [hup, hdown, usub_of_le c _ _ hwhole, wrap_of_lt c _ (by omega)]
    · rw [hspan]; exact hc1
    · rw [hspan]; simp only []; omega
  · constructor
    · intro heq
      have h1 : (set_node_span c reg).1 = reg.base := by rw [heq]
      have h2 : (set_node_span c reg).2 = reg.size := by rw [heq]
      have hPW : c.PAGE_SIZE < 2 ^ c.XLEN := by
        rw [PAGE_SIZE_eq]; exact Nat.pow_lt_pow_right (by norm_num) hps
      have hbw : reg.base + c.PAGE_SIZE ≤ 2 ^ c.XLEN := by
        by_contra hcon
        have hwr : c.wrap (reg.base + c.PAGE_SIZE - 1) =
            reg.base + c.PAGE_SIZE - 1 - 2 ^ c.XLEN := by
          unfold Config.wrap
          rw [Nat.mod_eq_sub_mod (by omega)]
          exact Nat.mod_eq_of_lt (by omega)
        have hz : memblock_region_memory_base_pfn c reg = 0 := by
          unfold memblock_region_memory_base_pfn Config.PFN_UP
          rw [hwr, Nat.shiftRight_eq_div_pow, ← PAGE_SIZE_eq]
          exact Nat.div_eq_of_lt (by omega)
        have : (set_node_span c reg).1 = 0 := by
          unfold set_node_span
          simp only [hz, PFN_PHYS_eq, Nat.zero_mul, Nat.zero_mod]
        omega
      have hup : memblock_region_memory_base_pfn c reg =
          (reg.base + c.PAGE_SIZE - 1) / c.PAGE_SIZE := PFN_UP_eq c _ hbw
      have hbase : reg.base % c.PAGE_SIZE = 0 := by
        by_contra hne
        have hce := hcn hne
        have hdm := Nat.div_add_mod reg.base c.PAGE_SIZE
        have hm := Nat.mod_lt reg.base hP
        have hval : (reg.base / c.PAGE_SIZE + 1) * c.PAGE_SIZE < 2 ^ c.XLEN := by
          rw [Nat.add_mul, Nat.one_mul, Nat.mul_comm]; omega
        have : (set_node_span c reg).1 = (reg.base / c.PAGE_SIZE + 1) * c.PAGE_SIZE := by
          unfold set_node_span
          simp only [hup, hce, PFN_PHYS_eq]
          exact Nat.mod_eq_of_lt hval
        rw [this, Nat.add_mul, Nat.one_mul, Nat.mul_comm] at h1
        omega
      have hwhole : (reg.base + c.PAGE_SIZE - 1) / c.PAGE_SIZE ≤
          (reg.base + reg.size) / c.PAGE_SIZE := by
        rw [hc0 hbase]
        exact Nat.div_le_div_right (Nat.le_add_right _ _)
      have hspan := set_node_span_eq c reg hps hend hwhole
      rw [hspan] at h2
      simp only [] at h2
      rw [hc0 hbase, Nat.div_mul_cancel (Nat.dvd_of_mod_eq_zero hbase)] at h2
      have hdm := Nat.div_add_mod (reg.base + reg.size) c.PAGE_SIZE
      rw [Nat.mul_comm] at hdm
      have hle : reg.base ≤ (reg.base + reg.size) / c.PAGE_SIZE * c.PAGE_SIZE := by
        have := Nat.mul_le_mul_right c.PAGE_SIZE
          (Nat.div_le_div_right (c := c.PAGE_SIZE) (Nat.le_add_right reg.base reg.size))
        rwa [Nat.div_mul_cancel (Nat.dvd_of_mod_eq_zero hbase)] at this
      have hsum : (reg.base + reg.size) % c.PAGE_SIZE = 0 := by
        generalize (reg.base + reg.size) / c.PAGE_SIZE * c.PAGE_SIZE = F at h2 hdm hfl hle
        generalize (reg.base + reg.size) % c.PAGE_SIZE = M at hdm ⊢
        omega
      refine ⟨hbase, ?_⟩
      have := (Nat.dvd_add_right (Nat.dvd_of_mod_eq_zero hbase)).mp (Nat.dvd_of_mod_eq_zero hsum)
      exact Nat.mod_eq_zero_of_dvd this
    · rintro ⟨hb, hs⟩
      have hwhole : (reg.base + c.PAGE_SIZE - 1) / c.PAGE_SIZE ≤
          (reg.base + reg.size) / c.PAGE_SIZE := by
        rw [hc0 hb]
        exact Nat.div_le_div_right (Nat.le_add_right _ _)
      rw [set_node_span_eq c reg hps hend hwhole, hc0 hb,
        Nat.div_mul_cancel (Nat.dvd_of_mod_eq_zero hb),
        Nat.div_mul_cancel (Dvd.dvd.add (Nat.dvd_of_mod_eq_zero hb) (Nat.dvd_of_mod_eq_zero hs)),
        Nat.add_sub_cancel_left]

/-- C18 (witness): base `0x80200000`, size `0x7FE00000` gives the span
`(0x80200000, 0x7FE00000)`. -/
theorem set_node_span_inside_region_witness :
    set_node_span boot_cfg ⟨0x80200000, 0x7FE00000⟩ = (0x80200000, 0x7FE00000) :=
  (set_node_span_inside_region boot_cfg ⟨0x80200000, 0x7FE00000⟩ (by decide)
    (by decide)).2.2.mpr (by decide)

/-- C18 (counterexample): for the installed region `(0x1800, 0x100)`, of size > 0 and inside
one page, `PFN_UP(base) = 2` exceeds `PFN_DOWN(base+size) = 1`: the subtraction underflows and
the span passed to `memblock_set_node` is `(0x2000, 0xFFFFFFFFFFFFF000)`, outside the
region. -/
theorem set_node_span_underflow_counterexample :
    memblock_region_memory_base_pfn boot_cfg ⟨0x1800, 0x100⟩ = 2 ∧
    memblock_region_memory_end_pfn boot_cfg ⟨0x1800, 0x100⟩ = 1 ∧
    set_node_span boot_cfg ⟨0x1800, 0x100⟩ = (0x2000, 0xFFFFFFFFFFFFF000) ∧
    ¬ ((set_node_span boot_cfg ⟨0x1800, 0x100⟩).1 + (set_node_span boot_cfg ⟨0x1800, 0x100⟩).2
      ≤ 0x1800 + 0x100) := by
  decide
/-! ## Indices written in `swapper_pg_dir` -/

/-- The stores into `swapper_pg_dir`, one per iteration of the top-level loop. -/
theorem swapper_pg_dir_writes_eq (c : Config) (pa : Nat) (s : VmState)
    (h : setup_vm c pa = Outcome.done s) :
    swapper_pg_dir_writes s = (List.range c.NUM_PGD_ENTRIES).map (pgd_write c pa) := by
  unfold swapper_pg_dir_writes
  rw [setup_vm_writes c pa s h]
  have e1 : ((List.range c.NUM_PGD_ENTRIES).map (pgd_write c pa)).filter
      (fun w => decide (w.tbl = Tbl.swapper_pg_dir)) =
      (List.range c.NUM_PGD_ENTRIES).map (pgd_write c pa) := by
    rw [List.filter_eq_self]
    intro w hw
    obtain ⟨i, _, rfl⟩ := List.mem_map.mp hw
    rw [pgd_write_tbl]
    decide
  have e2 : ((List.range c.ARRAY_SIZE_swapper_pmd).map (pmd_write c pa)).filter
      (fun w => decide (w.tbl = Tbl.swapper_pg_dir)) = [] := by
    rw [List.filter_eq_nil_iff]
    intro w hw
    obtain ⟨i, _, rfl⟩ := List.mem_map.mp hw
    simp [pmd_write]
  have e3 : decide ((trampoline_pgd_write c pa).tbl = Tbl.swapper_pg_dir) = false := by
    rw [trampoline_pgd_write_tbl]; decide
  cases hf : c.PMD_FOLDED
  · simp only [Bool.false_eq_true, if_false, List.filter_cons, List.filter_append, e1, e2, e3,
      trampoline_pmd_write]
    simp
  · simp only [if_true, List.filter_cons, e1, e3]
    simp

theorem PTRS_PER_PGD_le_word (c : Config) (hc : c.WF) : c.PTRS_PER_PGD ≤ 2 ^ c.XLEN :=
  le_trans (Nat.le_mul_of_pos_right _ (PGDIR_SIZE_pos c)) hc.2.2.1

/-- C19 (amended): when `setup_vm` passes its checks and the linear-map window fits the
top-level table, `(PAGE_OFFSET >> PGDIR_SHIFT) % PTRS_PER_PGD + (-PAGE_OFFSET)/PGDIR_SIZE <=
PTRS_PER_PGD`, the stores into `swapper_pg_dir` are, in order, one at each index
`(PAGE_OFFSET >> PGDIR_SHIFT) % PTRS_PER_PGD + i` for `0 <= i < (-PAGE_OFFSET)/PGDIR_SIZE`;
every such index is below `PTRS_PER_PGD`, no index is written twice, and in the unfolded
configuration entry `i` points to page `i` of `swapper_pmd`, whose `PTRS_PER_PMD` elements lie
inside the declared array of `PTRS_PER_PMD * ((-PAGE_OFFSET)/PGDIR_SIZE)` elements. -/
theorem swapper_pg_dir_indices_in_range (c : Config) (pa : Nat) (s : VmState) (hc : c.WF)
    (h : setup_vm c pa = Outcome.done s)
    (hfit : c.pgd_index_PAGE_OFFSET + c.NUM_PGD_ENTRIES ≤ c.PTRS_PER_PGD) :
    (swapper_pg_dir_writes s).map (fun w => w.idx) =
      (List.range c.NUM_PGD_ENTRIES).map (fun i => c.pgd_index_PAGE_OFFSET + i) ∧
    (∀ w ∈ swapper_pg_dir_writes s, w.idx < c.PTRS_PER_PGD) ∧
    ((swapper_pg_dir_writes s).map (fun w => w.idx)).Nodup ∧
    (c.PMD_FOLDED = false →
      (swapper_pg_dir_writes s).map (fun w => w.val) =
        (List.range c.NUM_PGD_ENTRIES).map
          (fun i => (⟨c.PFN_DOWN c.swapper_pmd_addr + i, c._PAGE_TABLE⟩ : Pte)) ∧
      ∀ i, i < c.NUM_PGD_ENTRIES →
        i * c.PTRS_PER_PMD + c.PTRS_PER_PMD ≤ c.ARRAY_SIZE_swapper_pmd) := by
  have hW := PTRS_PER_PGD_le_word c hc
  have hidx : (swapper_pg_dir_writes s).map (fun w => w.idx) =
      (List.range c.NUM_PGD_ENTRIES).map (fun i => c.pgd_index_PAGE_OFFSET + i) := by
    rw [swapper_pg_dir_writes_eq c pa s h, List.map_map]
    apply List.map_congr_left
    intro i hi
    have hi' := List.mem_range.mp hi
    simp only [Function.comp, pgd_write_idx]
    exact wrap_of_lt c _ (by omega)
  refine ⟨hidx, ?_, ?_, ?_⟩
  · intro w hw
    have : w.idx ∈ (swapper_pg_dir_writes s).map (fun w => w.idx) := List.mem_map.mpr ⟨w, hw, rfl⟩
    rw [hidx] at this
    obtain ⟨i, hi, he⟩ := List.mem_map.mp this
    have hi' := List.mem_range.mp hi
    omega
  · rw [hidx]
    exact List.Nodup.map (fun a b hab => Nat.add_left_cancel hab) (List.nodup_range _)
  · intro hf
    constructor
    · rw [swapper_pg_dir_writes_eq c pa s h, List.map_map]
      apply List.map_congr_left
      intro i hi
      have hi' := List.mem_range.mp hi
      simp [Function.comp, pgd_write, hf, pfn_pgd, swapper_pmd_frame c hc i hi']
    · intro i hi
      rw [ARRAY_SIZE_swapper_pmd_eq c hc hf]
      calc i * c.PTRS_PER_PMD + c.PTRS_PER_PMD = c.PTRS_PER_PMD * (i + 1) := by ring
        _ ≤ c.PTRS_PER_PMD * c.NUM_PGD_ENTRIES := Nat.mul_le_mul_left _ hi

/-- C19 (witness): Sv39 with `PAGE_OFFSET = 0xFFFFFFE000000000` writes the indices
`384 + i`, `i < 128`, that is 384..511. -/
theorem swapper_pg_dir_indices_in_range_witness :
    (swapper_pg_dir_writes (setup_vm boot_cfg 0x80200000).state).map (fun w => w.idx) =
      (List.range boot_cfg.NUM_PGD_ENTRIES).map (fun i => boot_cfg.pgd_index_PAGE_OFFSET + i) ∧
    boot_cfg.pgd_index_PAGE_OFFSET = 384 ∧ boot_cfg.NUM_PGD_ENTRIES = 128 :=
  ⟨(swapper_pg_dir_indices_in_range boot_cfg 0x80200000 _ (by decide)
    (setup_vm_eq_done_state boot_cfg 0x80200000 (by rw [setup_vm_returns_eq]; decide))
    (by decide)).1, by decide, by decide⟩

/-- C19 (counterexample): with the Sv39 constants and `PAGE_OFFSET = 0xFFFFFF0000000000`, a
multiple of `PGDIR_SIZE`, iteration `i = 1023` of the top-level loop stores at index 1023 of
`swapper_pg_dir`, beyond `PTRS_PER_PGD = 512`. -/
theorem swapper_pg_dir_index_counterexample :
    wide_cfg.PAGE_OFFSET % wide_cfg.PGDIR_SIZE = 0 ∧
    wide_cfg.PTRS_PER_PGD = 512 ∧
    (1023 < wide_cfg.NUM_PGD_ENTRIES ∧ wide_cfg.pgd_index_PAGE_OFFSET + 1023 = 1023) ∧
    (∃ w ∈ swapper_pg_dir_writes (setup_vm wide_cfg 0x80200000).state,
      w.idx = 1023 ∧ ¬ w.idx < wide_cfg.PTRS_PER_PGD) := by
  refine ⟨by decide, by decide, by decide, pgd_write wide_cfg 0x80200000 1023, ?_, by decide,
    by decide⟩
  rw [swapper_pg_dir_writes_eq wide_cfg 0x80200000 _
    (setup_vm_eq_done_state wide_cfg 0x80200000 (by rw [setup_vm_returns_eq]; decide))]
  exact List.mem_map.mpr ⟨1023, List.mem_range.mpr (by decide), rfl⟩
/-! ## The halt of `setup_bootmem` -/

/-- C12 (the code at the failing input): with DRAM `[0x80200000, 0xC0000000)`,
`setup_bootmem` leaves the byte address `0xC0000000` in `max_low_pfn`, and `zone_sizes_init`
records the `ZONE_DMA32` boundary `PFN_DOWN(min(4 GiB, 0xC0000000)) = 0xC0000`, a frame
number, next to the `ZONE_NORMAL` boundary `0xC0000000`, the byte address: the two boundaries
are not in one unit. Read as a frame number, the stored value gives the claimed DMA boundary
`min(0xC0000000, 0x100000) = 0x100000`, not `0xC0000`; read as bytes, the claimed general
boundary is the frame `0xC0000`, not `0xC0000000`. At the end of DRAM `0x100000000` the DMA
boundary is `0x100000`, and the general boundary is the byte address again. -/
theorem zone_sizes_init_mixes_units :
    (setup_bootmem boot_cfg boot_offset [⟨0x80200000, 0x3FE00000⟩] boot_end
      ⟨0, 0, 0, 0, []⟩).state.max_low_pfn = 0xC0000000 ∧
    zone_sizes_init boot_cfg rv64_zones 0xC0000000 = [0xC0000, 0xC0000000, 0] ∧
    boot_cfg.PFN_DOWN 0xC0000000 = 0xC0000 ∧
    boot_cfg.wrap (4 * SZ_1G) / boot_cfg.PAGE_SIZE = 0x100000 ∧
    ¬ (zone_sizes_init boot_cfg rv64_zones 0xC0000000 =
      [min 0xC0000000 (boot_cfg.wrap (4 * SZ_1G) / boot_cfg.PAGE_SIZE), 0xC0000000, 0]) ∧
    ¬ (zone_sizes_init boot_cfg rv64_zones 0xC0000000 =
      [min 0xC0000 (boot_cfg.wrap (4 * SZ_1G) / boot_cfg.PAGE_SIZE), 0xC0000, 0]) ∧
    zone_sizes_init boot_cfg rv64_zones 0x100000000 = [0x100000, 0x100000000, 0] := by
  decide

/-! ## Theorems: region sets -/

theorem mem_piece (f n a b : Nat) (y : memblock_region) :
    y ∈ piece f n a b ↔ a < b ∧ y = ⟨a, b - a, f, n⟩ := by
  unfold piece
  split <;> simp [*]

/-- A range that is empty inserts nothing. -/
theorem add_pieces_of_le (f n end_ : Nat) (l : List memblock_region) :
    ∀ base, end_ ≤ base → add_pieces f n end_ base l = l := by
  induction l with
  | nil =>
    intro base h
    simp [add_pieces, piece, Nat.not_lt.mpr h]
  | cons r rs ih =>
    intro base h
    have hp : ∀ b, piece f n base (min b end_) = [] := by
      intro b
      unfold piece
      rw [if_neg]
      omega
    have hp2 : ∀ b, b < end_ → piece f n base b = [] := by
      intro b hb
      unfold piece
      rw [if_neg]
      omega
    unfold add_pieces
    split
    · have := hp end_
      simp only [Nat.min_self] at this
      simp [this]
    · split
      · rw [ih base h]
      · rw [hp2 r.base (by omega), ih _ (by omega)]
        simp

/-- The regions after the insertion step: the old ones, and new ones inside `[base, end_)`. -/
theorem mem_add_pieces (f n end_ : Nat) (l : List memblock_region) :
    ∀ base y, y ∈ add_pieces f n end_ base l →
      y ∈ l ∨ (base ≤ y.base ∧ y.base + y.size ≤ end_ ∧ 0 < y.size ∧ y.flags = f ∧ y.nid = n) := by
  induction l with
  | nil =>
    intro base y hy
    simp only [add_pieces, mem_piece] at hy
    obtain ⟨h1, rfl⟩ := hy
    right
    refine ⟨?_, ?_, ?_, rfl, rfl⟩ <;> simp only <;> omega
  | cons r rs ih =>
    intro base y hy
    unfold add_pieces at hy
    split at hy
    · rcases List.mem_append.mp hy with h | h
      · obtain ⟨h1, rfl⟩ := (mem_piece _ _ _ _ _).mp h
        right
        refine ⟨?_, ?_, ?_, rfl, rfl⟩ <;> simp only <;> omega
      · exact Or.inl h
    · split at hy
      · rcases List.mem_cons.mp hy with h | h
        · exact Or.inl (h ▸ List.mem_cons_self _ _)
        · rcases ih base y h with h | h
          · exact Or.inl (List.mem_cons_of_mem _ h)
          · exact Or.inr h
      · rcases List.mem_append.mp hy with h | h
        · obtain ⟨h1, rfl⟩ := (mem_piece _ _ _ _ _).mp h
          right
          refine ⟨?_, ?_, ?_, rfl, rfl⟩ <;> simp only <;> omega
        · rcases List.mem_cons.mp h with h | h
          · exact Or.inl (h ▸ List.mem_cons_self _ _)
          · rcases ih _ y h with h | h
            · exact Or.inl (List.mem_cons_of_mem _ h)
            · right
              omega

/-- The insertion step keeps the regions ascending, non-overlapping and non-empty. -/
theorem add_pieces_sorted (f n end_ : Nat) (l : List memblock_region) :
    ∀ base, regions_sorted l → regions_sorted (add_pieces f n end_ base l) := by
  induction l with
  | nil =>
    intro base _
    unfold add_pieces piece regions_sorted
    split
    · simp; omega
    · simp
  | cons r rs ih =>
    intro base hs
    obtain ⟨hp, hz⟩ := hs
    rw [List.pairwise_cons] at hp
    obtain ⟨hr, hp⟩ := hp
    have hrz : 0 < r.size := hz r (List.mem_cons_self _ _)
    have hrs : regions_sorted rs := ⟨hp, fun x hx => hz x (List.mem_cons_of_mem _ hx)⟩
    have hpiece : ∀ a b, regions_sorted (piece f n a b) := by
      intro a b
      unfold piece regions_sorted
      split
      · simp; omega
      · simp
    unfold add_pieces
    split
    · rename_i h1
      constructor
      · rw [List.pairwise_append]
        refine ⟨(hpiece _ _).1, List.pairwise_cons.mpr ⟨hr, hp⟩, ?_⟩
        intro x hx y hy
        obtain ⟨_, rfl⟩ := (mem_piece _ _ _ _ _).mp hx
        simp only
        rcases List.mem_cons.mp hy with rfl | hy
        · omega
        · have := hr y hy
          omega
      · intro x hx
        rcases List.mem_append.mp hx with hx | hx
        · exact (hpiece _ _).2 x hx
        · exact hz x hx
    · split
      · rename_i h1 h2
        have := ih base hrs
        constructor
        · rw [List.pairwise_cons]
          refine ⟨?_, this.1⟩
          intro y hy
          rcases mem_add_pieces f n end_ rs base y hy with h | h
          · exact hr y h
          · omega
        · intro x hx
          rcases List.mem_cons.mp hx with rfl | hx
          · exact hrz
          · exact this.2 x hx
      · rename_i h1 h2
        have := ih (min (r.base + r.size) end_) hrs
        have hlater : ∀ y ∈ add_pieces f n end_ (min (r.base + r.size) end_) rs,
            r.base + r.size ≤ y.base := by
          intro y hy
          rcases mem_add_pieces f n end_ rs _ y hy with h | h
          · exact hr y h
          · omega
        constructor
        · rw [List.pairwise_append]
          refine ⟨(hpiece _ _).1, List.pairwise_cons.mpr ⟨hlater, this.1⟩, ?_⟩
          intro x hx y hy
          obtain ⟨_, rfl⟩ := (mem_piece _ _ _ _ _).mp hx
          simp only
          rcases List.mem_cons.mp hy with rfl | hy
          · omega
          · have := hlater y hy
            omega
        · intro x hx
          rcases List.mem_append.mp hx with hx | hx
          · exact (hpiece _ _).2 x hx
          · rcases List.mem_cons.mp hx with rfl | hx
            · exact hrz
            · exact this.2 x hx

/-- The insertion step adds `inserted_size` bytes. -/
theorem sum_add_pieces (f n end_ : Nat) (l : List memblock_region) :
    ∀ base, ((add_pieces f n end_ base l).map (fun r => r.size)).sum =
      (l.map (fun r => r.size)).sum + inserted_size end_ base l := by
  have hpiece : ∀ a b, ((piece f n a b).map (fun r => r.size)).sum = b - a := by
    intro a b
    unfold piece
    split
    · simp
    · simp; omega
  induction l with
  | nil =>
    intro base
    simp [add_pieces, inserted_size, hpiece]
  | cons r rs ih =>
    intro base
    unfold add_pieces inserted_size
    split
    · simp [hpiece]; omega
    · split
      · simp [ih]; omega
      · simp [hpiece, ih]; omega

theorem merge_step_nil (r : memblock_region) : merge_step r [] = [r] := rfl

theorem merge_step_cons (r r2 : memblock_region) (rs : List memblock_region) :
    merge_step r (r2 :: rs) =
      if compatible r r2 then ⟨r.base, r.size + r2.size, r.flags, r.nid⟩ :: rs
      else r :: r2 :: rs := rfl

/-- The merge step keeps the start of the list at or above a lower bound. -/
theorem merge_regions_base (l : List memblock_region) (lo : Nat)
    (h : ∀ y ∈ l, lo ≤ y.base) : ∀ y ∈ merge_regions l, lo ≤ y.base := by
  induction l with
  | nil => simp [merge_regions]
  | cons r rs ih =>
    intro y hy
    have hr := h r (List.mem_cons_self _ _)
    have ih := ih (fun y hy => h y (List.mem_cons_of_mem _ hy))
    unfold merge_regions at hy
    cases hm : merge_regions rs with
    | nil =>
      rw [hm] at hy
      simp only [merge_step_nil, List.mem_singleton] at hy
      rw [hy]; exact hr
    | cons r2 rest =>
      rw [hm] at hy ih
      rw [merge_step_cons] at hy
      split at hy
      · rcases List.mem_cons.mp hy with rfl | hy
        · exact hr
        · exact ih y (List.mem_cons_of_mem _ hy)
      · rcases List.mem_cons.mp hy with rfl | hy
        · exact hr
        · exact ih y hy

/-- The merge step turns ascending non-overlapping regions into a region list that satisfies
the whole invariant. -/
theorem merge_regions_ok (l : List memblock_region) (h : regions_sorted l) :
    regions_ok (merge_regions l) := by
  induction l with
  | nil => simp [merge_regions, regions_ok]
  | cons r rs ih =>
    obtain ⟨hp, hz⟩ := h
    rw [List.pairwise_cons] at hp
    obtain ⟨hr, hp⟩ := hp
    have hrz : 0 < r.size := hz r (List.mem_cons_self _ _)
    have ih := ih ⟨hp, fun x hx => hz x (List.mem_cons_of_mem _ hx)⟩
    have hlo := merge_regions_base rs (r.base + r.size) hr
    unfold merge_regions
    cases hm : merge_regions rs with
    | nil =>
      simp only [merge_step_nil, regions_ok, List.pairwise_singleton, List.mem_singleton, true_and]
      intro x hx
      rw [hx]; exact hrz
    | cons r2 rest =>
      rw [hm] at ih hlo
      obtain ⟨ihp, ihz⟩ := ih
      rw [List.pairwise_cons] at ihp
      obtain ⟨ih2, ihp⟩ := ihp
      have hr2z : 0 < r2.size := ihz r2 (List.mem_cons_self _ _)
      rw [merge_step_cons]
      split
      · rename_i hc
        obtain ⟨hc1, hc2, hc3⟩ := hc
        constructor
        · rw [List.pairwise_cons]
          refine ⟨?_, ihp⟩
          intro y hy
          obtain ⟨h1, h2⟩ := ih2 y hy
          refine ⟨by simp only; omega, ?_⟩
          intro hcy
          apply h2
          obtain ⟨e1, e2, e3⟩ := hcy
          simp only at e1 e2 e3
          exact ⟨by omega, by omega, by omega⟩
        · intro x hx
          rcases List.mem_cons.mp hx with rfl | hx
          · simp only; omega
          · exact ihz x (List.mem_cons_of_mem _ hx)
      · rename_i hc
        constructor
        · rw [List.pairwise_cons]
          refine ⟨?_, List.pairwise_cons.mpr ⟨ih2, ihp⟩⟩
          intro y hy
          refine ⟨hlo y hy, ?_⟩
          rcases List.mem_cons.mp hy with rfl | hy
          · exact hc
          · intro hcy
            have := (ih2 y hy).1
            have := hlo r2 (List.mem_cons_self _ _)
            have := hcy.1
            omega
        · intro x hx
          rcases List.mem_cons.mp hx with rfl | hx
          · exact hrz
          · exact ihz x hx

/-- The merge step keeps the sum of the sizes. -/
theorem sum_merge_regions (l : List memblock_region) :
    ((merge_regions l).map (fun r => r.size)).sum = (l.map (fun r => r.size)).sum := by
  induction l with
  | nil => simp [merge_regions]
  | cons r rs ih =>
    unfold merge_regions
    cases hm : merge_regions rs with
    | nil =>
      rw [hm] at ih
      simp at ih
      simp [merge_step_nil, ← ih]
    | cons r2 rest =>
      rw [hm] at ih
      rw [merge_step_cons]
      split
      · simp only [List.map_cons, List.sum_cons] at ih ⊢
        omega
      · simp only [List.map_cons, List.sum_cons] at ih ⊢
        omega

/-- The merge step leaves a list that satisfies the invariant as it is. -/
theorem merge_regions_of_ok (l : List memblock_region) (h : regions_ok l) :
    merge_regions l = l := by
  induction l with
  | nil => simp [merge_regions]
  | cons r rs ih =>
    obtain ⟨hp, hz⟩ := h
    rw [List.pairwise_cons] at hp
    obtain ⟨hr, hp⟩ := hp
    unfold merge_regions
    rw [ih ⟨hp, fun x hx => hz x (List.mem_cons_of_mem _ hx)⟩]
    cases rs with
    | nil => rfl
    | cons r2 rest =>
      rw [merge_step_cons]
      rw [if_neg (hr r2 (List.mem_cons_self _ _)).2]

/-- The merge step does not add regions. -/
theorem length_merge_regions (l : List memblock_region) :
    (merge_regions l).length ≤ l.length := by
  induction l with
  | nil => simp [merge_regions]
  | cons r rs ih =>
    unfold merge_regions
    cases hm : merge_regions rs with
    | nil => simp [merge_step_nil]
    | cons r2 rest =>
      rw [hm] at ih
      rw [merge_step_cons]
      split <;> simp at ih ⊢ <;> omega

/-- The merge step keeps the bytes covered. -/
theorem covers_merge_regions (l : List memblock_region) (x : Nat) :
    covers (merge_regions l) x ↔ covers l x := by
  induction l with
  | nil => simp [merge_regions]
  | cons r rs ih =>
    unfold merge_regions
    have hcons : ∀ (a : memblock_region) (t : List memblock_region),
        covers (a :: t) x ↔ (a.base ≤ x ∧ x < a.base + a.size) ∨ covers t x := by
      intro a t
      simp [covers]
    rw [hcons r rs, ← ih]
    cases hm : merge_regions rs with
    | nil => simp [merge_step_nil, covers]
    | cons r2 rest =>
      rw [merge_step_cons]
      split
      · rename_i hc
        obtain ⟨hc1, _, _⟩ := hc
        rw [hcons, hcons]
        simp only
        constructor
        · rintro (h | h)
          · by_cases hx : x < r.base + r.size
            · exact Or.inl ⟨h.1, hx⟩
            · exact Or.inr (Or.inl ⟨by omega, by omega⟩)
          · exact Or.inr (Or.inr h)
        · rintro (h | h | h)
          · exact Or.inl ⟨h.1, by omega⟩
          · exact Or.inl ⟨by omega, by omega⟩
          · exact Or.inr h
      · rw [hcons]

/-- Ascending regions from the invariant. -/
theorem regions_ok_sorted (l : List memblock_region) (h : regions_ok l) : regions_sorted l :=
  ⟨h.1.imp (fun h => h.1), h.2⟩

/-- The parts of a region kept by a removal: inside the region, with its attributes, and not
empty. -/
theorem mem_remove_from (base end_ : Nat) (r y : memblock_region)
    (h : y ∈ remove_from base end_ r) :
    r.base ≤ y.base ∧ y.base + y.size ≤ r.base + r.size ∧ 0 < y.size ∧ y.flags = r.flags ∧
      y.nid = r.nid := by
  unfold remove_from at h
  rcases List.mem_append.mp h with h | h
  · obtain ⟨h1, rfl⟩ := (mem_piece _ _ _ _ _).mp h
    refine ⟨?_, ?_, ?_, rfl, rfl⟩ <;> simp only <;> omega
  · obtain ⟨h1, rfl⟩ := (mem_piece _ _ _ _ _).mp h
    refine ⟨?_, ?_, ?_, rfl, rfl⟩ <;> simp only <;> omega

/-- The removal of a non-empty range keeps the invariant of the regions. -/
theorem remove_regions_ok (base end_ : Nat) (hbe : base < end_) (l : List memblock_region)
    (h : regions_ok l) : regions_ok (l.flatMap (remove_from base end_)) := by
  induction l with
  | nil => simp [regions_ok]
  | cons r rs ih =>
    obtain ⟨hp, hz⟩ := h
    rw [List.pairwise_cons] at hp
    obtain ⟨hr, hp⟩ := hp
    have ih := ih ⟨hp, fun x hx => hz x (List.mem_cons_of_mem _ hx)⟩
    rw [List.flatMap_cons]
    constructor
    · rw [List.pairwise_append]
      refine ⟨?_, ih.1, ?_⟩
      · unfold remove_from
        rw [List.pairwise_append]
        refine ⟨?_, ?_, ?_⟩
        · unfold piece; split <;> simp
        · unfold piece; split <;> simp
        · intro x hx y hy
          obtain ⟨h1, rfl⟩ := (mem_piece _ _ _ _ _).mp hx
          obtain ⟨h2, rfl⟩ := (mem_piece _ _ _ _ _).mp hy
          refine ⟨by simp only; omega, ?_⟩
          intro hc
          have := hc.1
          simp only at this
          omega
      · intro x hx y hy
        obtain ⟨r', hr', hy'⟩ := List.mem_flatMap.mp hy
        have hx := mem_remove_from base end_ r x hx
        have hy := mem_remove_from base end_ r' y hy'
        obtain ⟨h1, h2⟩ := hr r' hr'
        have hrz' : 0 < r'.size := hz r' (List.mem_cons_of_mem _ hr')
        refine ⟨by omega, ?_⟩
        intro hc
        apply h2
        obtain ⟨e1, e2, e3⟩ := hc
        exact ⟨by omega, by omega, by omega⟩
    · intro x hx
      rcases List.mem_append.mp hx with hx | hx
      · exact (mem_remove_from base end_ r x hx).2.2.1
      · exact ih.2 x hx

/-- The bytes of a region: kept by the removal of `[base, end_)`, or counted by
`removed_from`. -/
theorem sum_remove_from (base end_ : Nat) (hbe : base ≤ end_) (r : memblock_region) :
    ((remove_from base end_ r).map (fun r => r.size)).sum + removed_from base end_ r = r.size := by
  have hpiece : ∀ f n a b, ((piece f n a b).map (fun r => r.size)).sum = b - a := by
    intro f n a b
    unfold piece
    split
    · simp
    · simp; omega
  unfold remove_from removed_from
  rw [List.map_append, List.sum_append, hpiece, hpiece]
  omega

/-- The removal reduces the sum of the sizes by the bytes `removed_from` counts. -/
theorem sum_remove_regions (base end_ : Nat) (hbe : base ≤ end_) (l : List memblock_region) :
    ((l.flatMap (remove_from base end_)).map (fun r => r.size)).sum =
      (l.map (fun r => r.size)).sum - (l.map (removed_from base end_)).sum := by
  induction l with
  | nil => simp
  | cons r rs ih =>
    have h1 := sum_remove_from base end_ hbe r
    have h2 : (rs.map (removed_from base end_)).sum ≤ (rs.map (fun r => r.size)).sum := by
      clear ih
      induction rs with
      | nil => simp
      | cons a t iht =>
        have := sum_remove_from base end_ hbe a
        simp only [List.map_cons, List.sum_cons]
        omega
    simp only [List.flatMap_cons, List.map_append, List.sum_append, List.map_cons, List.sum_cons,
      ih]
    omega

/-- A successful or failed `memblock_add_range` keeps the invariant of the region set. -/
theorem memblock_add_range_ok (cr : Bool) (t : memblock_type) (base size nid flags : Nat)
    (h : t.ok) : (t.after (memblock_add_range cr t base size nid flags)).ok := by
  unfold memblock_add_range
  split
  · exact h
  · simp only
    split
    · exact h
    · obtain ⟨h1, h2⟩ := h
      refine ⟨merge_regions_ok _ (add_pieces_sorted _ _ _ _ _ (regions_ok_sorted _ h1)), ?_⟩
      simp only [memblock_type.after]
      rw [sum_merge_regions, sum_add_pieces, h2]

/-- A successful or failed `memblock_remove_range` keeps the invariant of the region set. -/
theorem memblock_remove_range_ok (cr : Bool) (t : memblock_type) (base size : Nat)
    (h : t.ok) : (t.after (memblock_remove_range cr t base size)).ok := by
  unfold memblock_remove_range
  split
  · exact h
  · rename_i hs
    simp only
    split
    · exact h
    · obtain ⟨h1, h2⟩ := h
      refine ⟨remove_regions_ok _ _ (by omega) _ h1, ?_⟩
      simp only [memblock_type.after]
      rw [sum_remove_regions _ _ (by omega), h2]

/-- Every call of a mutator keeps the invariant of both region sets. -/
theorem MemblockOp_apply_ok (m : memblock) (op : MemblockOp) (hm : m.memory.ok)
    (hr : m.reserved.ok) : (op.apply m).memory.ok ∧ (op.apply m).reserved.ok := by
  cases op with
  | add b s => exact ⟨memblock_add_range_ok _ _ _ _ _ _ hm, hr⟩
  | reserve b s => exact ⟨hm, memblock_add_range_ok _ _ _ _ _ _ hr⟩
  | remove b s => exact ⟨memblock_remove_range_ok _ _ _ _ hm, hr⟩
  | free b s => exact ⟨hm, memblock_remove_range_ok _ _ _ _ hr⟩

/-- Every sequence of calls keeps the invariant of both region sets. -/
theorem MemblockOp_foldl_ok (ops : List MemblockOp) : ∀ (m : memblock), m.memory.ok →
    m.reserved.ok → (ops.foldl MemblockOp.apply m).memory.ok ∧
      (ops.foldl MemblockOp.apply m).reserved.ok := by
  induction ops with
  | nil => exact fun m hm hr => ⟨hm, hr⟩
  | cons op ops ih =>
    intro m hm hr
    obtain ⟨h1, h2⟩ := MemblockOp_apply_ok m op hm hr
    exact ih _ h1 h2

theorem covers_cons (a : memblock_region) (t : List memblock_region) (x : Nat) :
    covers (a :: t) x ↔ (a.base ≤ x ∧ x < a.base + a.size) ∨ covers t x := by
  simp [covers]

theorem covers_append (s t : List memblock_region) (x : Nat) :
    covers (s ++ t) x ↔ covers s x ∨ covers t x := by
  simp [covers, or_and_right, exists_or]

theorem covers_piece (f n a b x : Nat) : covers (piece f n a b) x ↔ a ≤ x ∧ x < b := by
  unfold piece covers
  split
  · simp; omega
  · simp; omega

/-- The bytes covered after the insertion step: those covered before, and `[base, end_)`. -/
theorem covers_add_pieces (f n end_ : Nat) (l : List memblock_region) (x : Nat) :
    ∀ base, covers (add_pieces f n end_ base l) x ↔ covers l x ∨ (base ≤ x ∧ x < end_) := by
  induction l with
  | nil =>
    intro base
    simp only [add_pieces]
    rw [covers_piece]
    simp [covers]
  | cons r rs ih =>
    intro base
    unfold add_pieces
    split
    · rw [covers_append, covers_piece]
      tauto
    · split
      · rw [covers_cons, covers_cons, ih]
        constructor
        · rintro (h | h | h)
          · exact Or.inl (Or.inl h)
          · exact Or.inl (Or.inr h)
          · exact Or.inr h
        · rintro ((h | h) | h)
          · exact Or.inl h
          · exact Or.inr (Or.inl h)
          · exact Or.inr (Or.inr h)
      · rw [covers_append, covers_piece, covers_cons, covers_cons, ih]
        constructor
        · rintro (h | h | h | h)
          · exact Or.inr ⟨h.1, by omega⟩
          · exact Or.inl (Or.inl h)
          · exact Or.inl (Or.inr h)
          · exact Or.inr ⟨by omega, h.2⟩
        · rintro ((h | h) | h)
          · exact Or.inr (Or.inl h)
          · exact Or.inr (Or.inr (Or.inl h))
          · by_cases h1 : x < r.base
            · exact Or.inl ⟨h.1, h1⟩
            · by_cases h2 : x < r.base + r.size
              · exact Or.inr (Or.inl ⟨by omega, h2⟩)
              · exact Or.inr (Or.inr (Or.inr ⟨by omega, h.2⟩))

/-- A byte below every region of an ascending list is not covered. -/
theorem not_covers_below (l : List memblock_region) (x : Nat) (h : ∀ y ∈ l, x < y.base) :
    ¬ covers l x := by
  rintro ⟨y, hy, h1, _⟩
  have := h y hy
  omega

/-- The insertion step inserts nothing when the regions cover `[base, end_)`. -/
theorem add_pieces_of_covered (f n end_ : Nat) (l : List memblock_region) :
    ∀ base, regions_sorted l → (∀ x, base ≤ x → x < end_ → covers l x) →
      add_pieces f n end_ base l = l := by
  induction l with
  | nil =>
    intro base _ hc
    unfold add_pieces piece
    split
    · rename_i h
      obtain ⟨y, hy, _⟩ := hc base (Nat.le_refl _) h
      simp at hy
    · rfl
  | cons r rs ih =>
    intro base hs hc
    obtain ⟨hp, hz⟩ := hs
    rw [List.pairwise_cons] at hp
    obtain ⟨hr, hp⟩ := hp
    have hrz : 0 < r.size := hz r (List.mem_cons_self _ _)
    have hrs : regions_sorted rs := ⟨hp, fun x hx => hz x (List.mem_cons_of_mem _ hx)⟩
    have hempty : ∀ b, b ≤ r.base → b ≤ end_ → piece f n base b = [] := by
      intro b hb1 hb2
      unfold piece
      split
      · rename_i h
        exfalso
        apply not_covers_below (r :: rs) base _ (hc base (Nat.le_refl _) (by omega))
        intro y hy
        rcases List.mem_cons.mp hy with rfl | hy
        · omega
        · have := hr y hy
          omega
      · rfl
    unfold add_pieces
    split
    · rw [hempty end_ (by omega) (Nat.le_refl _)]
      rfl
    · split
      · rename_i h1 h2
        rw [ih base hrs]
        intro x hx1 hx2
        rcases (covers_cons r rs x).mp (hc x hx1 hx2) with h | h
        · omega
        · exact h
      · rename_i h1 h2
        rw [hempty r.base (Nat.le_refl _) (by omega), ih _ hrs]
        · rfl
        · intro x hx1 hx2
          rcases (covers_cons r rs x).mp (hc x (by omega) hx2) with h | h
          · omega
          · exact h

/-- Adding a span a second time leaves the region set as the first addition left it. -/
theorem memblock_add_range_twice (cr : Bool) (t : memblock_type) (base size nid flags : Nat)
    (h : regions_sorted t.regions) :
    (t.after (memblock_add_range cr t base size nid flags)).after
      (memblock_add_range cr (t.after (memblock_add_range cr t base size nid flags))
        base size nid flags) = t.after (memblock_add_range cr t base size nid flags) := by
  by_cases hs : size = 0
  · simp [memblock_add_range, hs, memblock_type.after]
  · by_cases hcap : t.max < (add_pieces flags nid (base + size) base t.regions).length ∧ cr = false
    · have e : memblock_add_range cr t base size nid flags =
          Except.error MemblockError.CapacityExceeded := by
        simp only [memblock_add_range, if_neg hs, if_pos hcap]
      simp only [e, memblock_type.after]
    · have e : memblock_add_range cr t base size nid flags =
          Except.ok ⟨merge_regions (add_pieces flags nid (base + size) base t.regions),
            Nat.max t.max (add_pieces flags nid (base + size) base t.regions).length,
            t.total_size + inserted_size (base + size) base t.regions⟩ := by
        simp only [memblock_add_range, if_neg hs, if_neg hcap]
      rw [e]
      simp only [memblock_type.after]
      have hsorted := add_pieces_sorted flags nid (base + size) t.regions base h
      have hok := merge_regions_ok _ hsorted
      have hsame : add_pieces flags nid (base + size) base
          (merge_regions (add_pieces flags nid (base + size) base t.regions)) =
          merge_regions (add_pieces flags nid (base + size) base t.regions) := by
        apply add_pieces_of_covered _ _ _ _ _ (regions_ok_sorted _ hok)
        intro x hx1 hx2
        rw [covers_merge_regions, covers_add_pieces]
        exact Or.inr ⟨hx1, hx2⟩
      have hins : inserted_size (base + size) base
          (merge_regions (add_pieces flags nid (base + size) base t.regions)) = 0 := by
        have := sum_add_pieces flags nid (base + size)
          (merge_regions (add_pieces flags nid (base + size) base t.regions)) base
        rw [hsame] at this
        omega
      have hlen := length_merge_regions (add_pieces flags nid (base + size) base t.regions)
      have hmax : Nat.max (Nat.max t.max (add_pieces flags nid (base + size) base t.regions).length)
          (merge_regions (add_pieces flags nid (base + size) base t.regions)).length =
          Nat.max t.max (add_pieces flags nid (base + size) base t.regions).length := by
        apply Nat.max_eq_left
        exact Nat.le_trans hlen (Nat.le_max_right _ _)
      have hcap2 : ¬ (Nat.max t.max (add_pieces flags nid (base + size) base t.regions).length <
          (merge_regions (add_pieces flags nid (base + size) base t.regions)).length ∧
          cr = false) := by
        intro hh
        exact absurd hh.1 (Nat.not_lt.mpr (Nat.le_trans hlen (Nat.le_max_right _ _)))
      simp only [memblock_add_range, if_neg hs, hsame, if_neg hcap2, hins, hmax,
        merge_regions_of_ok _ hok, Nat.add_zero]

/-! ## Theorems: free ranges -/

theorem in_ranges_span (a b x : Nat) : in_ranges (span a b) x ↔ a ≤ x ∧ x < b := by
  unfold span in_ranges
  split
  · simp
  · simp; omega

theorem in_ranges_append (s t : List (Nat × Nat)) (x : Nat) :
    in_ranges (s ++ t) x ↔ in_ranges s x ∨ in_ranges t x := by
  simp [in_ranges, or_and_right, exists_or]

theorem in_ranges_cons (iv : Nat × Nat) (t : List (Nat × Nat)) (x : Nat) :
    in_ranges (iv :: t) x ↔ (iv.1 ≤ x ∧ x < iv.2) ∨ in_ranges t x := by
  simp [in_ranges]

/-- The bytes of a range outside a region. -/
theorem in_ranges_cut (r : memblock_region) (iv : Nat × Nat) (x : Nat) :
    in_ranges (cut r iv) x ↔
      (iv.1 ≤ x ∧ x < iv.2) ∧ ¬ (r.base ≤ x ∧ x < r.base + r.size) := by
  unfold cut
  rw [in_ranges_append, in_ranges_span, in_ranges_span]
  omega

/-- Cutting every range by a region removes the bytes of the region. -/
theorem in_ranges_flatMap_cut (r : memblock_region) (l : List (Nat × Nat)) (x : Nat) :
    in_ranges (l.flatMap (cut r)) x ↔
      in_ranges l x ∧ ¬ (r.base ≤ x ∧ x < r.base + r.size) := by
  induction l with
  | nil => simp [in_ranges]
  | cons iv t ih =>
    rw [List.flatMap_cons, in_ranges_append, in_ranges_cut, ih, in_ranges_cons]
    tauto

/-- The bytes of the free ranges: those of the starting ranges outside every reserved
region. -/
theorem in_ranges_foldl_cut (reserved : List memblock_region) (x : Nat) :
    ∀ l : List (Nat × Nat),
      in_ranges (reserved.foldl (fun ranges r => ranges.flatMap (cut r)) l) x ↔
        in_ranges l x ∧ ¬ covers reserved x := by
  induction reserved with
  | nil => simp [covers]
  | cons r rs ih =>
    intro l
    rw [List.foldl_cons, ih, in_ranges_flatMap_cut, covers_cons]
    tauto

/-- The bytes of the ranges of the available regions. -/
theorem in_ranges_memory (memory : List memblock_region) (x : Nat) :
    in_ranges (memory.flatMap (fun m => span m.base (m.base + m.size))) x ↔ covers memory x := by
  induction memory with
  | nil => simp [in_ranges, covers]
  | cons m t ih =>
    rw [List.flatMap_cons, in_ranges_append, in_ranges_span, ih, covers_cons]

/-- The union of the free ranges is the set of bytes available and not reserved. -/
theorem in_ranges_free_mem_ranges (memory reserved : List memblock_region) (x : Nat) :
    in_ranges (free_mem_ranges memory reserved) x ↔ covers memory x ∧ ¬ covers reserved x := by
  unfold free_mem_ranges
  rw [in_ranges_foldl_cut, in_ranges_memory]

theorem mem_span (a b : Nat) (iv : Nat × Nat) : iv ∈ span a b ↔ a < b ∧ iv = (a, b) := by
  unfold span
  split <;> simp [*]

/-- The parts of a range left by a cut lie inside the range and are not empty. -/
theorem mem_cut (r : memblock_region) (iv y : Nat × Nat) (h : y ∈ cut r iv) :
    iv.1 ≤ y.1 ∧ y.2 ≤ iv.2 ∧ y.1 < y.2 := by
  unfold cut at h
  rcases List.mem_append.mp h with h | h
  · obtain ⟨h1, rfl⟩ := (mem_span _ _ _).mp h
    simp only
    omega
  · obtain ⟨h1, rfl⟩ := (mem_span _ _ _).mp h
    simp only
    omega

/-- Cutting by a region keeps the ranges ascending, disjoint and non-empty. -/
theorem flatMap_cut_sorted (r : memblock_region) (l : List (Nat × Nat)) (h : ranges_sorted l) :
    ranges_sorted (l.flatMap (cut r)) := by
  induction l with
  | nil => simp [ranges_sorted]
  | cons iv t ih =>
    obtain ⟨hp, hz⟩ := h
    rw [List.pairwise_cons] at hp
    obtain ⟨hr, hp⟩ := hp
    have ih := ih ⟨hp, fun x hx => hz x (List.mem_cons_of_mem _ hx)⟩
    rw [List.flatMap_cons]
    constructor
    · rw [List.pairwise_append]
      refine ⟨?_, ih.1, ?_⟩
      · unfold cut
        rw [List.pairwise_append]
        refine ⟨?_, ?_, ?_⟩
        · unfold span; split <;> simp
        · unfold span; split <;> simp
        · intro x hx y hy
          obtain ⟨h1, rfl⟩ := (mem_span _ _ _).mp hx
          obtain ⟨h2, rfl⟩ := (mem_span _ _ _).mp hy
          simp only
          omega
      · intro x hx y hy
        obtain ⟨iv', hiv', hy'⟩ := List.mem_flatMap.mp hy
        have hx := mem_cut r iv x hx
        have hy := mem_cut r iv' y hy'
        have := hr iv' hiv'
        omega
    · intro x hx
      rcases List.mem_append.mp hx with hx | hx
      · exact (mem_cut r iv x hx).2.2
      · exact ih.2 x hx

/-- The free ranges of an ascending available set are ascending, disjoint and non-empty. -/
theorem free_mem_ranges_sorted (memory reserved : List memblock_region)
    (h : regions_sorted memory) : ranges_sorted (free_mem_ranges memory reserved) := by
  unfold free_mem_ranges
  have h0 : ranges_sorted (memory.flatMap (fun m => span m.base (m.base + m.size))) := by
    induction memory with
    | nil => simp [ranges_sorted]
    | cons m t ih =>
      obtain ⟨hp, hz⟩ := h
      rw [List.pairwise_cons] at hp
      obtain ⟨hr, hp⟩ := hp
      have ih := ih ⟨hp, fun x hx => hz x (List.mem_cons_of_mem _ hx)⟩
      rw [List.flatMap_cons]
      constructor
      · rw [List.pairwise_append]
        refine ⟨?_, ih.1, ?_⟩
        · unfold span; split <;> simp
        · intro x hx y hy
          obtain ⟨h1, rfl⟩ := (mem_span _ _ _).mp hx
          obtain ⟨m', hm', hy'⟩ := List.mem_flatMap.mp hy
          obtain ⟨h2, rfl⟩ := (mem_span _ _ _).mp hy'
          exact hr m' hm'
      · intro x hx
        rcases List.mem_append.mp hx with hx | hx
        · obtain ⟨h1, rfl⟩ := (mem_span _ _ _).mp hx
          exact h1
        · exact ih.2 x hx
  generalize memory.flatMap (fun m => span m.base (m.base + m.size)) = l at h0
  induction reserved generalizing l with
  | nil => exact h0
  | cons r rs ih => exact ih _ (flatMap_cut_sorted r l h0)

/-- A byte of ascending disjoint ranges lies in exactly one of them. -/
theorem in_exactly_one_range (l : List (Nat × Nat)) (x : Nat) (h : ranges_sorted l)
    (hx : in_ranges l x) : (l.filter (fun iv => decide (iv.1 ≤ x ∧ x < iv.2))).length = 1 := by
  induction l with
  | nil =>
    obtain ⟨iv, hiv, _⟩ := hx
    simp at hiv
  | cons iv t ih =>
    obtain ⟨hp, hz⟩ := h
    rw [List.pairwise_cons] at hp
    obtain ⟨hr, hp⟩ := hp
    by_cases hiv : iv.1 ≤ x ∧ x < iv.2
    · rw [List.filter_cons_of_pos (by simpa using hiv)]
      have : t.filter (fun iv => decide (iv.1 ≤ x ∧ x < iv.2)) = [] := by
        rw [List.filter_eq_nil_iff]
        intro y hy
        have := hr y hy
        simp only [decide_eq_true_eq]
        omega
      rw [this]
      rfl
    · rw [List.filter_cons_of_neg (by simpa using hiv)]
      apply ih ⟨hp, fun y hy => hz y (List.mem_cons_of_mem _ hy)⟩
      rcases (in_ranges_cons iv t x).mp hx with h | h
      · exact absurd h hiv
      · exact h

/-! ## Theorems: range search -/

theorem coalesce_step_nil (iv : Nat × Nat) : coalesce_step iv [] = [iv] := rfl

theorem coalesce_step_cons (iv iv2 : Nat × Nat) (rest : List (Nat × Nat)) :
    coalesce_step iv (iv2 :: rest) =
      if iv.2 = iv2.1 then (iv.1, iv2.2) :: rest else iv :: iv2 :: rest := rfl

/-- Joining keeps the starts of the ranges at or above a lower bound. -/
theorem coalesce_lower (l : List (Nat × Nat)) (lo : Nat) (h : ∀ y ∈ l, lo ≤ y.1) :
    ∀ y ∈ coalesce l, lo ≤ y.1 := by
  induction l with
  | nil => simp [coalesce]
  | cons iv t ih =>
    intro y hy
    have hiv := h iv (List.mem_cons_self _ _)
    have ih := ih (fun y hy => h y (List.mem_cons_of_mem _ hy))
    unfold coalesce at hy
    cases hm : coalesce t with
    | nil =>
      rw [hm, coalesce_step_nil, List.mem_singleton] at hy
      rw [hy]; exact hiv
    | cons iv2 rest =>
      rw [hm] at hy ih
      rw [coalesce_step_cons] at hy
      split at hy
      · rcases List.mem_cons.mp hy with rfl | hy
        · exact hiv
        · exact ih y (List.mem_cons_of_mem _ hy)
      · rcases List.mem_cons.mp hy with rfl | hy
        · exact hiv
        · exact ih y hy

/-- Joining ascending disjoint ranges leaves ranges with a gap between any two. -/
theorem coalesce_separated (l : List (Nat × Nat)) (h : ranges_sorted l) :
    ranges_separated (coalesce l) := by
  induction l with
  | nil => simp [coalesce, ranges_separated]
  | cons iv t ih =>
    obtain ⟨hp, hz⟩ := h
    rw [List.pairwise_cons] at hp
    obtain ⟨hr, hp⟩ := hp
    have hivz : iv.1 < iv.2 := hz iv (List.mem_cons_self _ _)
    have ih := ih ⟨hp, fun x hx => hz x (List.mem_cons_of_mem _ hx)⟩
    have hlo := coalesce_lower t iv.2 hr
    unfold coalesce
    cases hm : coalesce t with
    | nil =>
      simp only [coalesce_step_nil, ranges_separated, List.pairwise_singleton,
        List.mem_singleton, true_and]
      intro x hx
      rw [hx]; exact hivz
    | cons iv2 rest =>
      rw [hm] at ih hlo
      obtain ⟨ihp, ihz⟩ := ih
      rw [List.pairwise_cons] at ihp
      obtain ⟨ih2, ihp⟩ := ihp
      have hiv2z : iv2.1 < iv2.2 := ihz iv2 (List.mem_cons_self _ _)
      rw [coalesce_step_cons]
      split
      · rename_i hc
        constructor
        · rw [List.pairwise_cons]
          exact ⟨fun y hy => ih2 y hy, ihp⟩
        · intro x hx
          rcases List.mem_cons.mp hx with rfl | hx
          · simp only; omega
          · exact ihz x (List.mem_cons_of_mem _ hx)
      · rename_i hc
        constructor
        · rw [List.pairwise_cons]
          refine ⟨?_, List.pairwise_cons.mpr ⟨ih2, ihp⟩⟩
          intro y hy
          rcases List.mem_cons.mp hy with rfl | hy
          · have := hlo y (List.mem_cons_self _ _)
            omega
          · have := ih2 y hy
            have := hlo iv2 (List.mem_cons_self _ _)
            omega
        · intro x hx
          rcases List.mem_cons.mp hx with rfl | hx
          · exact hivz
          · exact ihz x hx

/-- Joining keeps the bytes of the ranges. -/
theorem in_ranges_coalesce (l : List (Nat × Nat)) (hz : ∀ iv ∈ l, iv.1 < iv.2) (x : Nat) :
    (∀ iv ∈ coalesce l, iv.1 < iv.2) ∧ (in_ranges (coalesce l) x ↔ in_ranges l x) := by
  induction l with
  | nil => simp [coalesce]
  | cons iv t ih =>
    have hivz : iv.1 < iv.2 := hz iv (List.mem_cons_self _ _)
    obtain ⟨ihz, ih⟩ := ih (fun x hx => hz x (List.mem_cons_of_mem _ hx))
    unfold coalesce
    rw [in_ranges_cons iv t, ← ih]
    cases hm : coalesce t with
    | nil =>
      rw [coalesce_step_nil]
      refine ⟨?_, ?_⟩
      · intro y hy
        rw [List.mem_singleton.mp hy]; exact hivz
      · rw [in_ranges_cons]
    | cons iv2 rest =>
      rw [hm] at ihz
      have hiv2z : iv2.1 < iv2.2 := ihz iv2 (List.mem_cons_self _ _)
      rw [coalesce_step_cons]
      split
      · rename_i hc
        refine ⟨?_, ?_⟩
        · intro y hy
          rcases List.mem_cons.mp hy with rfl | hy
          · simp only; omega
          · exact ihz y (List.mem_cons_of_mem _ hy)
        · rw [in_ranges_cons, in_ranges_cons]
          simp only
          constructor
          · rintro (h | h)
            · by_cases hx : x < iv.2
              · exact Or.inl ⟨h.1, hx⟩
              · exact Or.inr (Or.inl ⟨by omega, h.2⟩)
            · exact Or.inr (Or.inr h)
          · rintro (h | h | h)
            · exact Or.inl ⟨h.1, by omega⟩
            · exact Or.inl ⟨by omega, h.2⟩
            · exact Or.inr h
      · refine ⟨?_, ?_⟩
        · intro y hy
          rcases List.mem_cons.mp hy with rfl | hy
          · exact hivz
          · exact ihz y hy
        · rw [in_ranges_cons]

/-- With a gap between any two ranges, an interval of bytes of the ranges lies in one
range. -/
theorem interval_in_one_range (l : List (Nat × Nat)) (h : ranges_separated l) (a size : Nat)
    (hsz : 0 < size) :
    (∀ x, a ≤ x → x < a + size → in_ranges l x) ↔ ∃ iv ∈ l, iv.1 ≤ a ∧ a + size ≤ iv.2 := by
  constructor
  · intro hall
    obtain ⟨iv, hiv, h1, h2⟩ := hall a (Nat.le_refl _) (by omega)
    refine ⟨iv, hiv, h1, ?_⟩
    by_contra hlt
    obtain ⟨iv', hiv', h3, h4⟩ := hall iv.2 (by omega) (by omega)
    have hsym : ∀ p ∈ l, ∀ q ∈ l, p ≠ q → (p.2 < q.1 ∨ q.2 < p.1) := by
      intro p hp q hq hne
      have hpw : l.Pairwise (fun a b => a.2 < b.1 ∨ b.2 < a.1) := h.1.imp (fun h => Or.inl h)
      exact hpw.forall (fun a b hab => hab.symm) hp hq hne
    have hne : iv ≠ iv' := by
      rintro rfl
      omega
    rcases hsym iv hiv iv' hiv' hne with h5 | h5 <;> omega
  · rintro ⟨iv, hiv, h1, h2⟩ x hx1 hx2
    exact ⟨iv, hiv, by omega, by omega⟩

theorem le_round_up (x align : Nat) (h : 0 < align) : x ≤ round_up x align := by
  unfold round_up
  have h1 := Nat.div_add_mod (x + align - 1) align
  have h2 := Nat.mod_lt (x + align - 1) h
  rw [Nat.mul_comm] at h1
  generalize (x + align - 1) / align * align = q at h1
  omega

theorem round_up_mod (x align : Nat) : round_up x align % align = 0 := by
  unfold round_up
  exact Nat.mul_mod_left _ _

theorem round_up_le (x align a : Nat) (h : 0 < align) (ha : a % align = 0) (hxa : x ≤ a) :
    round_up x align ≤ a := by
  unfold round_up
  obtain ⟨k, rfl⟩ := Nat.dvd_of_mod_eq_zero ha
  rw [Nat.mul_comm align k]
  apply Nat.mul_le_mul_right
  apply Nat.le_of_lt_succ
  have h1 : x + align - 1 < (k + 1) * align := by
    have h2 : (k + 1) * align = align * k + align := by ring
    omega
  exact (Nat.div_lt_iff_lt_mul h).mpr h1

theorem round_down_le (x align : Nat) : round_down x align ≤ x := by
  unfold round_down
  exact Nat.div_mul_le_self _ _

theorem round_down_mod (x align : Nat) : round_down x align % align = 0 := by
  unfold round_down
  exact Nat.mul_mod_left _ _

theorem le_round_down (x align a : Nat) (h : 0 < align) (ha : a % align = 0) (hax : a ≤ x) :
    a ≤ round_down x align := by
  unfold round_down
  obtain ⟨k, rfl⟩ := Nat.dvd_of_mod_eq_zero ha
  rw [Nat.mul_comm align k]
  apply Nat.mul_le_mul_right
  rw [Nat.le_div_iff_mul_le h, Nat.mul_comm]
  exact hax

theorem range_fits_cons (iv : Nat × Nat) (t : List (Nat × Nat)) (size align start end_ b : Nat) :
    range_fits (iv :: t) size align start end_ b ↔
      (b % align = 0 ∧ max iv.1 start ≤ b ∧ b + size ≤ min iv.2 end_) ∨
        range_fits t size align start end_ b := by
  simp only [range_fits, List.mem_cons, exists_eq_or_imp]
  tauto

/-- The bottom-up search returns the lowest fitting address, and none only when no address
fits. -/
theorem find_range_bottom_up_spec (start end_ size align : Nat) (hal : 0 < align)
    (hsz : 0 < size) (l : List (Nat × Nat)) (h : l.Pairwise (fun a b => a.2 ≤ b.1)) :
    (∀ a, find_range_bottom_up start end_ size align l = some a →
      range_fits l size align start end_ a ∧
        ∀ b, range_fits l size align start end_ b → a ≤ b) ∧
    (find_range_bottom_up start end_ size align l = none →
      ∀ b, ¬ range_fits l size align start end_ b) := by
  induction l with
  | nil =>
    simp [find_range_bottom_up, range_fits]
  | cons iv t ih =>
    rw [List.pairwise_cons] at h
    obtain ⟨hr, hp⟩ := h
    obtain ⟨ih1, ih2⟩ := ih hp
    have hup := le_round_up (clamp iv.1 start end_) align hal
    have hmod := round_up_mod (clamp iv.1 start end_) align
    have hlater : ∀ b, range_fits t size align start end_ b → iv.2 ≤ b ∧ start ≤ b := by
      rintro b ⟨_, iv', hiv', h1, h2⟩
      have := hr iv' hiv'
      omega
    unfold find_range_bottom_up
    simp only
    by_cases hc : round_up (clamp iv.1 start end_) align < clamp iv.2 start end_ ∧
        size ≤ clamp iv.2 start end_ - round_up (clamp iv.1 start end_) align
    · rw [if_pos hc]
      refine ⟨?_, fun hn => by simp at hn⟩
      intro a ha
      simp only [Option.some.injEq] at ha
      subst ha
      unfold clamp at hc hup
      constructor
      · rw [range_fits_cons]
        left
        refine ⟨hmod, ?_, ?_⟩
        · unfold clamp
          generalize round_up (min (max iv.1 start) end_) align = cand at hc hup
          omega
        · unfold clamp
          generalize round_up (min (max iv.1 start) end_) align = cand at hc hup
          omega
      · intro b hb
        rcases (range_fits_cons _ _ _ _ _ _ _).mp hb with ⟨hb1, hb2, _⟩ | hb
        · apply round_up_le _ _ _ hal hb1
          unfold clamp
          omega
        · have := hlater b hb
          unfold clamp
          generalize round_up (min (max iv.1 start) end_) align = cand at hc hup
          omega
    · rw [if_neg hc]
      have hnot : ∀ b, ¬ (b % align = 0 ∧ max iv.1 start ≤ b ∧ b + size ≤ min iv.2 end_) := by
        rintro b ⟨hb1, hb2, hb3⟩
        apply hc
        have := round_up_le (clamp iv.1 start end_) align b hal hb1 (by unfold clamp; omega)
        unfold clamp at this ⊢
        generalize round_up (min (max iv.1 start) end_) align = cand at this
        omega
      have hiff : ∀ b, range_fits (iv :: t) size align start end_ b ↔
          range_fits t size align start end_ b := by
        intro b
        rw [range_fits_cons]
        constructor
        · rintro (h | h)
          · exact absurd h (hnot b)
          · exact h
        · exact Or.inr
      constructor
      · intro a ha
        obtain ⟨h1, h2⟩ := ih1 a ha
        exact ⟨(hiff a).mpr h1, fun b hb => h2 b ((hiff b).mp hb)⟩
      · intro hn b hb
        exact ih2 hn b ((hiff b).mp hb)

/-- The top-down search over descending ranges returns the highest fitting address, and none
only when no address fits. -/
theorem find_range_top_down_spec (start end_ size align : Nat) (hal : 0 < align)
    (hsz : 0 < size) (l : List (Nat × Nat)) (h : l.Pairwise (fun a b => b.2 ≤ a.1)) :
    (∀ a, find_range_top_down start end_ size align l = some a →
      range_fits l size align start end_ a ∧
        ∀ b, range_fits l size align start end_ b → b ≤ a) ∧
    (find_range_top_down start end_ size align l = none →
      ∀ b, ¬ range_fits l size align start end_ b) := by
  induction l with
  | nil =>
    simp [find_range_top_down, range_fits]
  | cons iv t ih =>
    rw [List.pairwise_cons] at h
    obtain ⟨hr, hp⟩ := h
    obtain ⟨ih1, ih2⟩ := ih hp
    have hdown := round_down_le (clamp iv.2 start end_ - size) align
    have hmod := round_down_mod (clamp iv.2 start end_ - size) align
    have hlater : ∀ b, range_fits t size align start end_ b → b + size ≤ iv.1 := by
      rintro b ⟨_, iv', hiv', h1, h2⟩
      have := hr iv' hiv'
      omega
    have hskip : ¬ (size ≤ clamp iv.2 start end_ ∧
        clamp iv.1 start end_ ≤ round_down (clamp iv.2 start end_ - size) align) →
        ((∀ a, find_range_top_down start end_ size align t = some a →
          range_fits (iv :: t) size align start end_ a ∧
            ∀ b, range_fits (iv :: t) size align start end_ b → b ≤ a) ∧
        (find_range_top_down start end_ size align t = none →
          ∀ b, ¬ range_fits (iv :: t) size align start end_ b)) := by
      intro hc
      have hnot : ∀ b, ¬ (b % align = 0 ∧ max iv.1 start ≤ b ∧ b + size ≤ min iv.2 end_) := by
        rintro b ⟨hb1, hb2, hb3⟩
        apply hc
        have := le_round_down (clamp iv.2 start end_ - size) align b hal hb1
          (by unfold clamp; omega)
        unfold clamp at this ⊢
        generalize round_down (min (max iv.2 start) end_ - size) align = cand at this
        omega
      have hiff : ∀ b, range_fits (iv :: t) size align start end_ b ↔
          range_fits t size align start end_ b := by
        intro b
        rw [range_fits_cons]
        constructor
        · rintro (h | h)
          · exact absurd h (hnot b)
          · exact h
        · exact Or.inr
      constructor
      · intro a ha
        obtain ⟨h1, h2⟩ := ih1 a ha
        exact ⟨(hiff a).mpr h1, fun b hb => h2 b ((hiff b).mp hb)⟩
      · intro hn b hb
        exact ih2 hn b ((hiff b).mp hb)
    unfold find_range_top_down
    simp only
    by_cases hc1 : clamp iv.2 start end_ < size
    · rw [if_pos hc1]
      exact hskip (fun hh => by omega)
    · rw [if_neg hc1]
      by_cases hc2 : clamp iv.1 start end_ ≤ round_down (clamp iv.2 start end_ - size) align
      · rw [if_pos hc2]
        refine ⟨?_, fun hn => by simp at hn⟩
        intro a ha
        simp only [Option.some.injEq] at ha
        subst ha
        constructor
        · rw [range_fits_cons]
          left
          refine ⟨hmod, ?_, ?_⟩
          · unfold clamp at hc1 hc2 hdown ⊢
            generalize round_down (min (max iv.2 start) end_ - size) align = cand at hc2 hdown
            omega
          · unfold clamp at hc1 hc2 hdown ⊢
            generalize round_down (min (max iv.2 start) end_ - size) align = cand at hc2 hdown
            omega
        · intro b hb
          rcases (range_fits_cons _ _ _ _ _ _ _).mp hb with ⟨hb1, hb2, hb3⟩ | hb
          · apply le_round_down _ _ _ hal hb1
            unfold clamp
            omega
          · have := hlater b hb
            unfold clamp at hc1 hc2 hdown ⊢
            generalize round_down (min (max iv.2 start) end_ - size) align = cand at hc2 hdown
            omega
      · rw [if_neg hc2]
        exact hskip (fun hh => hc2 hh.2)

/-- A search that returns an extremal candidate, or nothing when there is no candidate,
returns exactly the extremal candidate. -/
theorem found_iff (P : Nat → Prop) (le : Nat → Nat → Prop)
    (hanti : ∀ a b, le a b → le b a → a = b) (found : Option Nat)
    (h1 : ∀ a, found = some a → P a ∧ ∀ b, P b → le a b)
    (h2 : found = none → ∀ b, ¬ P b) :
    (∀ a, found = some a ↔ P a ∧ ∀ b, P b → le a b) ∧ (found = none ↔ ∀ b, ¬ P b) := by
  constructor
  · intro a
    refine ⟨h1 a, ?_⟩
    rintro ⟨ha, hmin⟩
    cases hf : found with
    | none => exact absurd ha (h2 hf a)
    | some a' =>
      obtain ⟨ha', hmin'⟩ := h1 a' hf
      rw [hanti a' a (hmin' a ha) (hmin a' ha')]
  · refine ⟨h2, ?_⟩
    intro hno
    cases hf : found with
    | none => rfl
    | some a' => exact absurd (h1 a' hf).1 (hno a')

/-- The candidates of the search are the addresses that fit one of the maximal contiguous
free ranges. -/
theorem fits_iff_range_fits (memory reserved : List memblock_region)
    (size align start end_ a : Nat) (hm : regions_sorted memory) (hsz : 0 < size) :
    fits memory reserved size align start end_ a ↔
      range_fits (coalesce (free_mem_ranges memory reserved)) size align start end_ a := by
  have hsorted := free_mem_ranges_sorted memory reserved hm
  have hsep := coalesce_separated _ hsorted
  have hbytes : (∀ x, a ≤ x → x < a + size → covers memory x ∧ ¬ covers reserved x) ↔
      ∃ iv ∈ coalesce (free_mem_ranges memory reserved), iv.1 ≤ a ∧ a + size ≤ iv.2 := by
    rw [← interval_in_one_range _ hsep a size hsz]
    apply forall_congr'
    intro x
    rw [(in_ranges_coalesce _ hsorted.2 x).2, in_ranges_free_mem_ranges]
  unfold fits range_fits
  rw [hbytes]
  constructor
  · rintro ⟨h1, h2, h3, iv, hiv, h4, h5⟩
    exact ⟨h1, iv, hiv, by omega, by omega⟩
  · rintro ⟨h1, iv, hiv, h4, h5⟩
    exact ⟨h1, by omega, by omega, iv, hiv, by omega, by omega⟩

/-- The selection keeps an available set ascending and non-overlapping. -/
theorem filter_regions_sorted (l : List memblock_region) (p : memblock_region → Bool)
    (h : regions_sorted l) : regions_sorted (l.filter p) :=
  ⟨h.1.filter p, fun r hr => h.2 r (List.mem_of_mem_filter hr)⟩

/-- C14: every sequence of `memblock_add`, `memblock_reserve`, `memblock_remove` and
`memblock_free` calls that starts from empty region sets (of any capacity, with growth
permitted or not) leaves each `memblock_type` sorted by ascending base, with no two regions
overlapping (each region ends at or before every later one starts), with no region followed
by an adjacent one of identical flags and node, with no empty region, and with `total_size`
equal to the sum of the region sizes. Adding `[0, 0x1000)` then `[0x1000, 0x2000)` with
identical attributes yields the single region `[0, 0x2000)`. -/
theorem memblock_ops_keep_region_sets_ordered (bottom_up : Bool)
    (current_limit max_memory max_reserved : Nat) (can_resize : Bool) (ops : List MemblockOp) :
    ((ops.foldl MemblockOp.apply
        ⟨bottom_up, current_limit, ⟨[], max_memory, 0⟩, ⟨[], max_reserved, 0⟩, can_resize⟩).memory.ok ∧
      (ops.foldl MemblockOp.apply
        ⟨bottom_up, current_limit, ⟨[], max_memory, 0⟩, ⟨[], max_reserved, 0⟩,
          can_resize⟩).memory.regions.Pairwise (fun a b => a.base < b.base)) ∧
    ((ops.foldl MemblockOp.apply
        ⟨bottom_up, current_limit, ⟨[], max_memory, 0⟩, ⟨[], max_reserved, 0⟩, can_resize⟩).reserved.ok ∧
      (ops.foldl MemblockOp.apply
        ⟨bottom_up, current_limit, ⟨[], max_memory, 0⟩, ⟨[], max_reserved, 0⟩,
          can_resize⟩).reserved.regions.Pairwise (fun a b => a.base < b.base)) ∧
    (memblock_add (memblock_add memblock.empty 0 0x1000) 0x1000 0x1000).memory =
      ⟨[⟨0, 0x2000, MEMBLOCK_NONE, MAX_NUMNODES⟩], INIT_MEMBLOCK_REGIONS, 0x2000⟩ := by
  have hempty : ∀ n, (⟨[], n, 0⟩ : memblock_type).ok := by
    intro n
    simp [memblock_type.ok, regions_ok]
  have hbase : ∀ t : memblock_type, t.ok → t.regions.Pairwise (fun a b => a.base < b.base) := by
    intro t ht
    have hz := ht.1.2
    have hp := ht.1.1
    clear ht
    generalize t.regions = l at hz hp
    induction hp with
    | nil => exact List.Pairwise.nil
    | cons hr _ ih =>
      refine List.Pairwise.cons ?_ (ih (fun r hr => hz r (List.mem_cons_of_mem _ hr)))
      intro y hy
      have := (hr y hy).1
      have := hz _ (List.mem_cons_self _ _)
      omega
  obtain ⟨h1, h2⟩ := MemblockOp_foldl_ok ops
    ⟨bottom_up, current_limit, ⟨[], max_memory, 0⟩, ⟨[], max_reserved, 0⟩, can_resize⟩
    (hempty _) (hempty _)
  exact ⟨⟨h1, hbase _ h1⟩, ⟨h2, hbase _ h2⟩, by decide⟩

/-- C15: `memblock_reserve` is idempotent: for every reserved region set (ascending,
non-overlapping regions, none empty) and every span `[b, b+s)`, reserving the span twice
leaves the same state as reserving it once: the same regions, the same count, the same
`total_size` (and the same capacity), whether the first call succeeds or fails. -/
theorem memblock_reserve_idempotent (m : memblock) (b s : Nat)
    (h : regions_sorted m.reserved.regions) :
    memblock_reserve (memblock_reserve m b s) b s = memblock_reserve m b s ∧
    (memblock_reserve (memblock_reserve m b s) b s).reserved.regions =
      (memblock_reserve m b s).reserved.regions ∧
    (memblock_reserve (memblock_reserve m b s) b s).reserved.cnt =
      (memblock_reserve m b s).reserved.cnt ∧
    (memblock_reserve (memblock_reserve m b s) b s).reserved.total_size =
      (memblock_reserve m b s).reserved.total_size := by
  have e : memblock_reserve (memblock_reserve m b s) b s = memblock_reserve m b s := by
    unfold memblock_reserve
    simp only
    rw [memblock_add_range_twice m.can_resize m.reserved b s MAX_NUMNODES MEMBLOCK_NONE h]
  rw [e]
  exact ⟨rfl, rfl, rfl, rfl⟩

/-- C15 (witness): the reserved set `[0x1000, 0x2000), [0x3000, 0x4000)` and the span
`[0x1800, 0x3800)`, which overlaps both regions: one call and two calls leave the single
region `[0x1000, 0x4000)`. -/
theorem memblock_reserve_idempotent_witness :
    memblock_reserve (memblock_reserve
        ⟨false, 0, ⟨[], 128, 0⟩,
          ⟨[⟨0x1000, 0x1000, 0, 1⟩, ⟨0x3000, 0x1000, 0, 1⟩], 128, 0x2000⟩, false⟩
        0x1800 0x2000) 0x1800 0x2000 =
      memblock_reserve
        ⟨false, 0, ⟨[], 128, 0⟩,
          ⟨[⟨0x1000, 0x1000, 0, 1⟩, ⟨0x3000, 0x1000, 0, 1⟩], 128, 0x2000⟩, false⟩
        0x1800 0x2000 ∧
    (memblock_reserve
        ⟨false, 0, ⟨[], 128, 0⟩,
          ⟨[⟨0x1000, 0x1000, 0, 1⟩, ⟨0x3000, 0x1000, 0, 1⟩], 128, 0x2000⟩, false⟩
        0x1800 0x2000).reserved = ⟨[⟨0x1000, 0x3000, 0, 1⟩], 128, 0x3000⟩ :=
  ⟨(memblock_reserve_idempotent
      ⟨false, 0, ⟨[], 128, 0⟩,
        ⟨[⟨0x1000, 0x1000, 0, 1⟩, ⟨0x3000, 0x1000, 0, 1⟩], 128, 0x2000⟩, false⟩
      0x1800 0x2000 (by decide)).1, by decide⟩

/-- C16: with an ascending non-overlapping available set, `align > 0` and `size > 0`,
`memblock_find_in_range_node` returns the lowest (bottom-up) or the highest (top-down)
`align`-aligned address `a` such that `[a, a+size)` lies inside `[start, end)` and every byte
of it is in available (the regions that the node and flags select) and not in reserved, and
it fails with `OutOfMemory` exactly when no such address exists. With the selector
`NUMA_NO_NODE` and the flags `MEMBLOCK_NONE`, every available region that is not marked
`MEMBLOCK_NOMAP` is selected. -/
theorem memblock_find_in_range_node_extremal (m : memblock)
    (size align start end_ nid flags : Nat) (hm : regions_sorted m.memory.regions)
    (hal : 0 < align) (hsz : 0 < size) :
    (∀ a, memblock_find_in_range_node m size align start end_ nid flags = Except.ok a ↔
      fits (m.memory.regions.filter (region_selected nid flags)) m.reserved.regions
          size align start end_ a ∧
        ∀ b, fits (m.memory.regions.filter (region_selected nid flags)) m.reserved.regions
            size align start end_ b →
          (m.bottom_up = true → a ≤ b) ∧ (m.bottom_up = false → b ≤ a)) ∧
    (memblock_find_in_range_node m size align start end_ nid flags =
        Except.error MemblockError.OutOfMemory ↔
      ∀ b, ¬ fits (m.memory.regions.filter (region_selected nid flags)) m.reserved.regions
        size align start end_ b) ∧
    ((∀ r ∈ m.memory.regions, memblock_is_nomap r = false) →
      m.memory.regions.filter (region_selected NUMA_NO_NODE MEMBLOCK_NONE) =
        m.memory.regions) := by
  have hm' := filter_regions_sorted _ (region_selected nid flags) hm
  have hsorted := free_mem_ranges_sorted _ m.reserved.regions hm'
  have hsep := coalesce_separated _ hsorted
  have hasc : (coalesce (free_mem_ranges (m.memory.regions.filter (region_selected nid flags))
      m.reserved.regions)).Pairwise (fun a b => a.2 ≤ b.1) :=
    hsep.1.imp (fun h => Nat.le_of_lt h)
  have hfit := fun a => fits_iff_range_fits (m.memory.regions.filter (region_selected nid flags))
    m.reserved.regions size align start end_ a hm' hsz
  have hres : ∀ found : Option Nat,
      (∀ a, search_result found = Except.ok a ↔ found = some a) ∧
      (search_result found = Except.error MemblockError.OutOfMemory ↔ found = none) := by
    intro found
    cases found <;> simp [search_result]
  have hall : (∀ r ∈ m.memory.regions, memblock_is_nomap r = false) →
      m.memory.regions.filter (region_selected NUMA_NO_NODE MEMBLOCK_NONE) =
        m.memory.regions := by
    intro hno
    rw [List.filter_eq_self]
    intro r hr
    have := hno r hr
    have h0 : ∀ n, Nat.land 0 n = 0 := fun n => Nat.zero_and n
    simp [region_selected, MEMBLOCK_NONE, this, h0]
  refine ⟨?_, ?_, hall⟩
  · intro a
    unfold memblock_find_in_range_node memblock_bottom_up
    simp only
    cases hb : m.bottom_up with
    | true =>
      obtain ⟨h1, h2⟩ := find_range_bottom_up_spec start end_ size align hal hsz _ hasc
      obtain ⟨k1, _⟩ := found_iff _ (fun a b => a ≤ b) (fun a b h h' => Nat.le_antisymm h h')
        _ h1 h2
      simp only [if_true]
      rw [(hres _).1 a, k1 a]
      simp only [hfit, true_implies, Bool.true_eq_false, false_implies, and_true]
    | false =>
      have hdesc := List.pairwise_reverse.mpr hasc
      have hrev : ∀ a, range_fits (coalesce (free_mem_ranges
          (m.memory.regions.filter (region_selected nid flags)) m.reserved.regions)).reverse
          size align start end_ a ↔ range_fits (coalesce (free_mem_ranges
          (m.memory.regions.filter (region_selected nid flags)) m.reserved.regions))
          size align start end_ a := by
        intro a
        simp only [range_fits, List.mem_reverse]
      obtain ⟨h1, h2⟩ := find_range_top_down_spec start end_ size align hal hsz _ hdesc
      obtain ⟨k1, _⟩ := found_iff _ (fun a b => b ≤ a) (fun a b h h' => Nat.le_antisymm h' h)
        _ h1 h2
      simp only [Bool.false_eq_true, if_false]
      rw [(hres _).1 a, k1 a]
      simp only [hrev, hfit, false_implies, true_implies, true_and]
  · unfold memblock_find_in_range_node memblock_bottom_up
    simp only
    cases hb : m.bottom_up with
    | true =>
      obtain ⟨h1, h2⟩ := find_range_bottom_up_spec start end_ size align hal hsz _ hasc
      obtain ⟨_, k2⟩ := found_iff _ (fun a b => a ≤ b) (fun a b h h' => Nat.le_antisymm h h')
        _ h1 h2
      simp only [if_true]
      rw [(hres _).2, k2]
      simp only [hfit]
    | false =>
      have hdesc := List.pairwise_reverse.mpr hasc
      have hrev : ∀ a, range_fits (coalesce (free_mem_ranges
          (m.memory.regions.filter (region_selected nid flags)) m.reserved.regions)).reverse
          size align start end_ a ↔ range_fits (coalesce (free_mem_ranges
          (m.memory.regions.filter (region_selected nid flags)) m.reserved.regions))
          size align start end_ a := by
        intro a
        simp only [range_fits, List.mem_reverse]
      obtain ⟨h1, h2⟩ := find_range_top_down_spec start end_ size align hal hsz _ hdesc
      obtain ⟨_, k2⟩ := found_iff _ (fun a b => b ≤ a) (fun a b h h' => Nat.le_antisymm h' h)
        _ h1 h2
      simp only [Bool.false_eq_true, if_false]
      rw [(hres _).2, k2]
      simp only [hrev, hfit]

/-- C16 (witness): available `[0, 0x10000)`, reserved `[0, 0x1000)`, built by `memblock_add`
and `memblock_reserve`, `size = align = 0x1000`, searched in `[0, 0x10000)` over all nodes:
`0x1000` bottom-up and `0xF000` top-down, each a candidate. -/
theorem memblock_find_in_range_node_extremal_witness :
    (memblock_find_in_range_node
        (memblock_set_bottom_up
          (memblock_reserve (memblock_add memblock.empty 0 0x10000) 0 0x1000) true)
        0x1000 0x1000 0 0x10000 NUMA_NO_NODE MEMBLOCK_NONE = Except.ok 0x1000 ∧
      memblock_find_in_range_node
        (memblock_set_bottom_up
          (memblock_reserve (memblock_add memblock.empty 0 0x10000) 0 0x1000) false)
        0x1000 0x1000 0 0x10000 NUMA_NO_NODE MEMBLOCK_NONE = Except.ok 0xF000) ∧
    fits [⟨0, 0x10000, MEMBLOCK_NONE, MAX_NUMNODES⟩] [⟨0, 0x1000, MEMBLOCK_NONE, MAX_NUMNODES⟩]
      0x1000 0x1000 0 0x10000 0x1000 ∧
    fits [⟨0, 0x10000, MEMBLOCK_NONE, MAX_NUMNODES⟩] [⟨0, 0x1000, MEMBLOCK_NONE, MAX_NUMNODES⟩]
      0x1000 0x1000 0 0x10000 0xF000 :=
  ⟨⟨rfl, rfl⟩,
    (((memblock_find_in_range_node_extremal
      (memblock_set_bottom_up
        (memblock_reserve (memblock_add memblock.empty 0 0x10000) 0 0x1000) true)
      0x1000 0x1000 0 0x10000 NUMA_NO_NODE MEMBLOCK_NONE (by decide) (by decide)
      (by decide)).1 0x1000).mp rfl).1,
    (((memblock_find_in_range_node_extremal
      (memblock_set_bottom_up
        (memblock_reserve (memblock_add memblock.empty 0 0x10000) 0 0x1000) false)
      0x1000 0x1000 0 0x10000 NUMA_NO_NODE MEMBLOCK_NONE (by decide) (by decide)
      (by decide)).1 0xF000).mp rfl).1⟩

/-! ## Handoff -/

/-- C13: when `mem_init` returns, for every ascending non-overlapping available set and
every reserved set, the ranges handed to the general allocator by `memblock_free_all` are
emitted in ascending address order, are pairwise disjoint and non-empty, their union is
exactly the set of bytes that are in available and not in reserved, and each such byte is in
exactly one emitted range. -/
theorem mem_init_hands_over_free_bytes (c : Config) (FLATMEM : Bool)
    (mem_map va_pa_offset max_low_pfn high_memory : Nat) (m : memblock) (s : HandoffState)
    (hm : regions_sorted m.memory.regions)
    (h : mem_init c FLATMEM mem_map va_pa_offset max_low_pfn high_memory m = Outcome.done s) :
    s.freed = memblock_free_all m ∧
    s.freed.Pairwise (fun a b => a.2 ≤ b.1) ∧
    s.freed.Pairwise (fun a b => ∀ x, ¬ ((a.1 ≤ x ∧ x < a.2) ∧ (b.1 ≤ x ∧ x < b.2))) ∧
    (∀ iv ∈ s.freed, iv.1 < iv.2) ∧
    (∀ x, in_ranges s.freed x ↔ covers m.memory.regions x ∧ ¬ covers m.reserved.regions x) ∧
    (∀ x, covers m.memory.regions x → ¬ covers m.reserved.regions x →
      (s.freed.filter (fun iv => decide (iv.1 ≤ x ∧ x < iv.2))).length = 1) := by
  have e : s.freed = free_mem_ranges m.memory.regions m.reserved.regions := by
    unfold mem_init at h
    split at h
    · exact absurd h (by simp)
    · simp only [Outcome.done.injEq] at h
      rw [← h]
      rfl
  have hsorted := free_mem_ranges_sorted m.memory.regions m.reserved.regions hm
  rw [← e] at hsorted
  refine ⟨e, hsorted.1, ?_, hsorted.2, ?_, ?_⟩
  · apply hsorted.1.imp
    intro a b hab x
    omega
  · intro x
    rw [e]
    exact in_ranges_free_mem_ranges _ _ x
  · intro x h1 h2
    apply in_exactly_one_range _ x hsorted
    rw [e]
    exact (in_ranges_free_mem_ranges _ _ x).mpr ⟨h1, h2⟩

/-- C13 (witness): the discovery scenario, available `[0x80200000, 0x100000000)` and reserved
`[0x80200000, 0x80D0C07C)`: the byte `0x90000000` is in exactly one range handed over. -/
theorem mem_init_hands_over_free_bytes_witness :
    (mem_init boot_cfg false 0 boot_offset 0x100000 0
        ⟨false, 0, ⟨[⟨0x80200000, 0x7FE00000, 0, 1⟩], 128, 0x7FE00000⟩,
          ⟨[⟨0x80200000, 0xB0C07C, 0, 1⟩], 128, 0xB0C07C⟩, false⟩).state.freed =
      [(0x80D0C07C, 0x100000000)] ∧
    ((mem_init boot_cfg false 0 boot_offset 0x100000 0
        ⟨false, 0, ⟨[⟨0x80200000, 0x7FE00000, 0, 1⟩], 128, 0x7FE00000⟩,
          ⟨[⟨0x80200000, 0xB0C07C, 0, 1⟩], 128, 0xB0C07C⟩, false⟩).state.freed.filter
      (fun iv => decide (iv.1 ≤ 0x90000000 ∧ 0x90000000 < iv.2))).length = 1 :=
  ⟨by decide,
    (mem_init_hands_over_free_bytes boot_cfg false 0 boot_offset 0x100000 0
      ⟨false, 0, ⟨[⟨0x80200000, 0x7FE00000, 0, 1⟩], 128, 0x7FE00000⟩,
        ⟨[⟨0x80200000, 0xB0C07C, 0, 1⟩], 128, 0xB0C07C⟩, false⟩ _ (by decide)
      (by decide)).2.2.2.2.2 0x90000000 (by decide) (by decide)⟩

/-! ## Theorems: the PLIC enable bits -/

end Riscv
